import Mathlib

/-
  Verification development for the locale-loader core (src/core/LocaleLoader.ts).

  The embedding models JavaScript objects as association lists in insertion
  order (JS string-keyed objects preserve insertion order; assigning to an
  existing key keeps its position, assigning a fresh key appends at the end).
  Scalars (strings, numbers, booleans, null) are abstracted as opaque string
  tokens; the unique falsy scalar is the empty string, matching the way the
  source only ever tests scalar values for truthiness.
-/

set_option maxHeartbeats 1000000

/-- JSON-like document value: a scalar token or a string-keyed mapping
    (JS objects in insertion order).  Arrays are subsumed by mappings with
    index-like keys, which is how both `lodash.isObject` and `flat` treat
    them (they descend into arrays exactly like objects). -/
inductive JValue where
  | scalar (s : String) : JValue
  | obj (fields : List (String × JValue)) : JValue

/-- JS truthiness of a value as used by the source: an object is always
    truthy, a scalar is truthy unless it is the (abstract) empty value. -/
def JValue.truthy : JValue → Bool
  | .scalar s => s ≠ ""
  | .obj _ => true

/-- Fields of a value: `Object.entries` returns `[]` on a non-object. -/
def JValue.fieldsOf : JValue → List (String × JValue)
  | .scalar _ => []
  | .obj fs => fs

/-- JS object assignment `m[k] = v` on an association list: replaces the
    value at the first occurrence of `k` keeping its position, appends at
    the end when `k` is absent. -/
def setKey {α : Type} : List (String × α) → String → α → List (String × α)
  | [], k, v => [(k, v)]
  | (k', v') :: rest, k, v =>
    if k' = k then (k, v) :: rest else (k', v') :: setKey rest k v

/-! ### Dotted key paths: splitting and joining -/

/-- Character-level splitting on the dot separator, modelling the JS
    `keypath.split('.')`.  Never returns `[]`; returns `[[]]` on the empty
    string, exactly like `''.split('.') == ['']`. -/
def splitSegsC : List Char → List (List Char)
  | [] => [[]]
  | c :: rest =>
    if c = '.' then [] :: splitSegsC rest
    else
      match splitSegsC rest with
      | [] => [[c]]
      | s :: ss => (c :: s) :: ss

/-- The JS `keypath.split('.')` on strings. -/
def jsSplit (s : String) : List String := (splitSegsC s.data).map fun cs => ⟨cs⟩

/-- JS `Array.prototype.join('.')`. -/
def arrJoin : List String → String
  | [] => ""
  | [s] => s
  | s :: rest => s ++ "." ++ arrJoin rest

/-- The source's iterated keypath accumulation
    `newKeyPath = keypath ? keypath + '.' + key : key`
    (also the `flat` package's `prev ? prev + delimiter + key : key`). -/
def joinSeg (pre k : String) : String := if pre = "" then k else pre ++ "." ++ k

/-- Iterating `joinSeg` over a whole path. -/
def joinPath (pre : String) : List String → String
  | [] => pre
  | k :: rest => joinPath (joinSeg pre k) rest

/-- Last element of a segment list (the empty string for `[]`). -/
def lastSegL : List String → String
  | [] => ""
  | [s] => s
  | _ :: rest => lastSegL rest

/-- Modelled from the spec: `getKeyname` of `utils.ts` is not under `src/`;
    per the spec/glossary the keyname is the last dot-separated segment of
    the key path. -/
def getKeyname (kp : String) : String := lastSegL (jsSplit kp)

/-- A segment list is dot-free when no segment contains the separator. -/
def segDotFree (s : String) : Bool := !(s.data.any fun c => c = '.')

/-- A well-formed segment: nonempty and dot-free. -/
def wfSeg (s : String) : Bool := (!(s == "")) && segDotFree s

/-- A well-formed full key path: a nonempty list of well-formed segments. -/
def wfPath (p : List String) : Bool := (!(p.isEmpty)) && p.all wfSeg

/-! ### Data model (types.ts is not under src/; shapes follow the spec 3) -/

/-- A per-locale record of one translatable key. -/
structure LocaleRecord where
  keypath : String
  keyname : String
  value : JValue
  locale : String
  filepath : Option String
  shadow : Bool

/-- An entry node as stored in the flatten index. -/
structure LocaleNode where
  keypath : String
  keyname : String
  locales : List (String × LocaleRecord)

/-- Modelled from the spec: the `LocaleNode` constructor (types.ts, not under
    src/) — a fresh entry with the keyname derived from the keypath and no
    locale records yet. -/
def newLocaleNode (kp : String) : LocaleNode := ⟨kp, getKeyname kp, []⟩

/-- The namespace tree: tagged nodes, leaf entries vs. groups (children in
    insertion order). -/
inductive LTree where
  | entry (keypath keyname : String) (locales : List (String × LocaleRecord)) : LTree
  | group (keypath keyname : String) (children : List (String × LTree)) : LTree

def LTree.childrenOf : LTree → List (String × LTree)
  | .entry _ _ _ => []
  | .group _ _ cs => cs

def LTree.isEntry : LTree → Bool
  | .entry _ _ _ => true
  | .group _ _ _ => false

/-- `newTree` of the source. -/
def newTree (kp : String) : LTree := .group kp (getKeyname kp) []

/-- A loaded file: `getFileInfo`'s locale inference is an external
    collaborator, so the locale is simply a field here.  The stored
    `flatten` field always equals `flat(value)` (set in `loadFile`), so the
    embedding computes it from `value` where the source reads the field. -/
structure ParsedFile where
  filepath : String
  locale : String
  value : JValue

/-! ### The `flat` package's flatten (external library used by `loadFile`) -/

mutual
/-- One value under its (already joined) key, as the `flat` package's `step`
    treats it: a non-empty object recurses with the extended prefix, anything
    else (scalars and empty objects) is assigned `result[newKey] = value`. -/
def flatVal : JValue → String → List (String × JValue) → List (String × JValue)
  | .scalar s, newKey, acc => setKey acc newKey (.scalar s)
  | .obj [], newKey, acc => setKey acc newKey (.obj [])
  | .obj (f :: fs), newKey, acc => flatFields (f :: fs) newKey acc

/-- `flat(value)`'s depth-first walk over an object's entries; `result` is a
    single shared accumulator written in DFS order. -/
def flatFields : List (String × JValue) → String → List (String × JValue) → List (String × JValue)
  | [], _, acc => acc
  | (k, v) :: rest, prev, acc => flatFields rest prev (flatVal v (joinSeg prev k) acc)
end

/-- `flat(value)` at the top level: `Object.keys` of a scalar is empty. -/
def fileFlatten (v : JValue) : List (String × JValue) := flatFields v.fieldsOf "" []

/-! ### Building the flatten index (`updateFlattenLocalesTree`) -/

/-- The record written into the flatten index for one flattened key. -/
def flatRecordOf (f : ParsedFile) (kp : String) (v : JValue) : LocaleRecord :=
  ⟨kp, getKeyname kp, v, f.locale, some f.filepath, false⟩

/-- The body of `updateFlattenLocalesTree`'s inner loop for one flattened
    key: ensure a `LocaleNode` exists (`new LocaleNode(keypath)` if missing)
    and assign `locales[file.locale]`. -/
def addFlattenStep (f : ParsedFile) (t : List (String × LocaleNode)) (kv : String × JValue) :
    List (String × LocaleNode) :=
  let node := match List.lookup kv.1 t with
    | some n => n
    | none => newLocaleNode kv.1
  setKey t kv.1 ⟨node.keypath, node.keyname, setKey node.locales f.locale (flatRecordOf f kv.1 kv.2)⟩

/-- One file's pass over the flatten index being built: for every key of
    `file.flatten`, ensure a `LocaleNode` exists and assign
    `locales[file.locale]`. -/
def addFileToFlatten (f : ParsedFile) (t : List (String × LocaleNode)) :
    List (String × LocaleNode) :=
  (fileFlatten f.value).foldl (addFlattenStep f) t

def updateFlattenLocalesTree (files : List ParsedFile) : List (String × LocaleNode) :=
  files.foldl (fun t f => addFileToFlatten f t) []

/-! ### Building the namespace tree (`updateLocalesTree`) -/

/-- The record written into a tree entry for one scalar field. -/
def treeRecordOf (f : ParsedFile) (newKeyPath key : String) (sv : String) : LocaleRecord :=
  ⟨newKeyPath, key, .scalar sv, f.locale, some f.filepath, false⟩

mutual
/-- The body of `subTree(object, keypath, file, tree)`'s loop for one
    `Object.entries` pair `(k, v)` of the object at `keypath`, merging into
    the (group) tree `t`: an object value merges into an existing child group
    (`originalTree`) or starts a fresh `newTree(newKeyPath)`; a scalar value
    updates an existing child entry or creates one
    (`new LocaleNode(newKeyPath)` then `locales[file.locale] = ...`), and is
    dropped when the child is a group. -/
def subTreeField (f : ParsedFile) : String → JValue → String → LTree → LTree
  | k, .obj fields, keypath, t =>
    match t with
    | .entry a b c => .entry a b c
    | .group kp kn children =>
      LTree.group kp kn (setKey children k
        (subTreeFields f fields (joinSeg keypath k)
          (match List.lookup k children with
           | some (.group okp okn ocs) => LTree.group okp okn ocs
           | _ => newTree (joinSeg keypath k))))
  | k, .scalar sv, keypath, t =>
    match t with
    | .entry a b c => .entry a b c
    | .group kp kn children =>
      match List.lookup k children with
      | some (.entry ekp ekn locs) =>
        LTree.group kp kn (setKey children k
          (.entry ekp ekn (setKey locs f.locale (treeRecordOf f (joinSeg keypath k) k sv))))
      | some (.group _ _ _) => LTree.group kp kn children
      | none =>
        LTree.group kp kn (setKey children k
          (.entry (joinSeg keypath k) (getKeyname (joinSeg keypath k))
            [(f.locale, treeRecordOf f (joinSeg keypath k) k sv)]))

/-- `subTree(object, keypath, file, tree)` over the object's entries in
    order. -/
def subTreeFields (f : ParsedFile) : List (String × JValue) → String → LTree → LTree
  | [], _, t => t
  | (k, v) :: rest, keypath, t =>
    subTreeFields f rest keypath (subTreeField f k v keypath t)
end

def updateLocalesTree (files : List ParsedFile) : LTree :=
  files.foldl (fun t f => subTreeFields f f.value.fieldsOf "" t) (newTree "")

/-! ### Loader state and queries -/

structure LoaderState where
  files : List ParsedFile
  flattenLocaleTree : List (String × LocaleNode)
  localeTree : LTree

/-- The state right after `update()` (as in `init` or a watch event). -/
def rebuild (files : List ParsedFile) : LoaderState :=
  ⟨files, updateFlattenLocalesTree files, updateLocalesTree files⟩

/-- lodash `uniq`, keeping first occurrences in order (`seen` accumulates
    the values already emitted). -/
def uniqAux : List String → List String → List String
  | [], _ => []
  | x :: rest, seen =>
    if seen.contains x then uniqAux rest seen else x :: uniqAux rest (x :: seen)

def uniqL (l : List String) : List String := uniqAux l []

/-- The `locales` getter: `uniq(Object.values(this.files).map(f => f.locale))`. -/
def LoaderState.locales (s : LoaderState) : List String :=
  uniqL (s.files.map (fun f => f.locale))

def getNodeByKey (s : LoaderState) (kp : String) : Option LocaleNode :=
  List.lookup kp s.flattenLocaleTree

/-- `getTreeNodeByKey`'s recursion over the split keypath: `remaining` is the
    dot-join of the tail; when it is empty the child is returned as is; when a
    child group remains the source re-splits `remaining`, which yields exactly
    the (dot-free) tail segments again, so the recursion walks the tail. -/
def lookupTreePath (cs : List (String × LTree)) : List String → Option LTree
  | [] => none
  | root :: rest =>
    if arrJoin rest = "" then List.lookup root cs
    else
      match List.lookup root cs with
      | some (.group _ _ cs') => lookupTreePath cs' rest
      | _ => none

def getTreeNodeByKey (s : LoaderState) (kp : String) : Option LTree :=
  lookupTreePath s.localeTree.childrenOf (jsSplit kp)

/-- `getClosestNodeByKey`: same walk, but an entry child or an exhausted
    remaining returns the child; a missing child returns the current group
    unless the walk is still at the root tree (the `tree === this.localeTree`
    test), where it returns nothing. -/
def getClosestAux : LTree → Bool → List String → Option LTree
  | t, isRoot, [] =>
    if isRoot then none else some t
  | t, isRoot, root :: rest =>
    match List.lookup root t.childrenOf with
    | some c =>
      if c.isEntry || arrJoin rest = "" then some c
      else
        match c with
        | .group a b cs => getClosestAux (.group a b cs) false rest
        | .entry _ _ _ => none
    | none => if isRoot then none else some t

def getClosestNodeByKey (s : LoaderState) (kp : String) : Option LTree :=
  getClosestAux s.localeTree true (jsSplit kp)

/-! ### Coverage -/

structure Coverage where
  locale : String
  total : Nat
  translated : Nat
  keys : List String

/-- Modelled from the spec: `LocaleNode.getValue(locale)` (types.ts, not
    under src/) yields the locale's record value when the record exists; the
    caller tests the result for truthiness ("non-empty value"). -/
def LocaleNode.getValue (n : LocaleNode) (loc : String) : Option JValue :=
  (List.lookup loc n.locales).map (fun r => r.value)

def getValueTruthy (n : LocaleNode) (loc : String) : Bool :=
  match n.getValue loc with
  | some v => v.truthy
  | none => false

def getCoverage (s : LoaderState) (locale : String) (keysArg : Option (List String)) :
    Coverage :=
  let keys := match keysArg with
    | some ks => ks
    | none => s.flattenLocaleTree.map Prod.fst
  let translated := keys.filter fun key =>
    match List.lookup key s.flattenLocaleTree with
    | some n => getValueTruthy n locale
    | none => false
  ⟨locale, keys.length, translated.length, keys⟩

/-! ### Shadow engine -/

/-- External collaborators referenced from `Common.ts`/`utils.ts` (not under
    src/): the configured source language and the opaque
    `replaceLocalePath(filepath, locale)` substitution rule. -/
structure Config where
  sourceLanguage : String
  replaceLocalePath : String → String → String

/-- JS truthiness of an optional string (undefined and the empty string are
    falsy). -/
def truthyOS : Option String → Bool
  | none => false
  | some s => !(s == "")

/-- `getShadowFilePath(keypath, locale)`: from the key's node, take the
    source-language record or else the first record, and if it has a truthy
    filepath substitute the locale segment. -/
def getShadowFilePath (cfg : Config) (s : LoaderState) (keypath locale : String) :
    Option String :=
  match getNodeByKey s keypath with
  | some node =>
    match (match List.lookup cfg.sourceLanguage node.locales with
           | some r => some r
           | none => node.locales.head?.map Prod.snd) with
    | some r => if truthyOS r.filepath then some (cfg.replaceLocalePath (r.filepath.getD "") locale) else none
    | none => none
  | none => none

/-- The record synthesized for a locale that lacks the key. -/
def shadowRecordOf (cfg : Config) (s : LoaderState) (node : LocaleNode) (loc : String) :
    LocaleRecord :=
  ⟨node.keypath, node.keyname, .scalar "", loc, getShadowFilePath cfg s node.keypath loc, true⟩

/-- `getShadowLocales(node)`: for every known locale, the stored record if
    present, else a synthesized shadow record. -/
def getShadowLocales (cfg : Config) (s : LoaderState) (node : LocaleNode) :
    List (String × LocaleRecord) :=
  s.locales.foldl
    (fun acc loc =>
      setKey acc loc
        (match List.lookup loc node.locales with
         | some r => r
         | none => shadowRecordOf cfg s node loc))
    []

/-- `getTranslationsByKey(keypath, shadow)`. -/
def getTranslationsByKey (cfg : Config) (s : LoaderState) (kp : String) (shadow : Bool) :
    List (String × LocaleRecord) :=
  match getNodeByKey s kp with
  | none => []
  | some node => if shadow then getShadowLocales cfg s node else node.locales

/-! ### Translation orchestrator -/

inductive ErrorKind where
  | translatingSameLocale : ErrorKind
  | translatingEmptySourceValue : ErrorKind
  | translatingUnknownError : ErrorKind
  | filepathNotSpecified : ErrorKind
deriving DecidableEq, Repr

/-- `AllyError` with its optional wrapped cause (`ε` is the exception type of
    the opaque translation function). -/
structure AllyError (ε : Type) where
  kind : ErrorKind
  cause : Option ε

structure PendingWrite where
  locale : String
  value : JValue
  filepath : Option String
  keypath : String

/-- `MachineTranslateRecord(record, sourceLanguage)`; `mt` is the opaque
    `MachinTranslate(text, from, to)` collaborator, whose exceptions are
    modelled as `Except.error`.  The TS return type is
    `Promise<PendingWrite|undefined>`, hence the `Option` layer (no code
    path actually produces `undefined`). -/
def MachineTranslateRecord {ε : Type} (s : LoaderState)
    (mt : JValue → String → String → Except ε String)
    (record : LocaleRecord) (sourceLanguage : String) :
    Except (AllyError ε) (Option PendingWrite) :=
  if record.locale = sourceLanguage then .error ⟨.translatingSameLocale, none⟩
  else
    match getNodeByKey s record.keypath with
    | none => .error ⟨.translatingEmptySourceValue, none⟩
    | some sourceNode =>
      match List.lookup sourceLanguage sourceNode.locales with
      | none => .error ⟨.translatingEmptySourceValue, none⟩
      | some sourceRecord =>
        if !sourceRecord.value.truthy then .error ⟨.translatingEmptySourceValue, none⟩
        else
          match mt sourceRecord.value sourceLanguage record.locale with
          | .error e => .error ⟨.translatingUnknownError, some e⟩
          | .ok result => .ok (some ⟨record.locale, .scalar result, record.filepath, record.keypath⟩)

/-- `Promise.all` over settled task results: resolves with all values when
    every task resolves, rejects with a rejection otherwise (under the
    model's deterministic scheduling, the first one in task order). -/
def promiseAll {ε α : Type} : List (Except ε α) → Except ε (List α)
  | [] => .ok []
  | .error e :: _ => .error e
  | .ok a :: rest => (promiseAll rest).map (fun l => a :: l)

/-- `notEmpty` of utils.ts (not under src/): filters out null/undefined. -/
def notEmptyFilter {α : Type} (l : List (Option α)) : List α := l.filterMap id

/-- `MachineTranslateNode(node, sourceLanguage)`: one `MachineTranslateRecord`
    task per non-source locale of `getShadowLocales(node)`, awaited with
    `Promise.all`. -/
def MachineTranslateNode {ε : Type} (cfg : Config) (s : LoaderState)
    (mt : JValue → String → String → Except ε String)
    (node : LocaleNode) (sourceLanguage : String) :
    Except (AllyError ε) (List PendingWrite) :=
  let records := ((getShadowLocales cfg s node).map Prod.snd).filter
    (fun r => !(r.locale == sourceLanguage))
  match promiseAll (records.map (fun r => MachineTranslateRecord s mt r sourceLanguage)) with
  | .error e => .error e
  | .ok pendings => .ok (notEmptyFilter pendings)

/-! ### Write-back -/

/-- lodash `set(object, path, value)` restricted to dotted object paths:
    walks the split path, reusing an existing object at each hop and
    replacing a missing or non-object value by a fresh object, then assigns
    at the final key.  (lodash leaves non-object roots untouched.) -/
def setPathF : List String → JValue → List (String × JValue) → List (String × JValue)
  | [], _, fields => fields
  | [k], v, fields => setKey fields k v
  | k :: rest, v, fields =>
    setKey fields k
      (.obj (setPathF rest v
        (match List.lookup k fields with
         | some (.obj gs) => gs
         | _ => [])))

def lodashSet (doc : JValue) (path : String) (v : JValue) : JValue :=
  match doc with
  | .scalar s => .scalar s
  | .obj fields => .obj (setPathF (jsSplit path) v fields)

/-- Two-space indentation. -/
def indentN : Nat → String
  | 0 => ""
  | n + 1 => "  " ++ indentN n

mutual
/-- Modelled from the spec: `JSON.stringify(value, null, 2)` (a JS builtin,
    not repository code): deterministic serialization in key order with
    two-space indentation; scalars print as their abstract token. -/
def stringify2 : JValue → Nat → String
  | .scalar s, _ => s
  | .obj [], _ => "\x7b\x7d"
  | .obj (f :: fs), ind =>
    "\x7b\n" ++ stringifyFields (f :: fs) (ind + 1) ++ "\n" ++ indentN ind ++ "\x7d"

def stringifyFields : List (String × JValue) → Nat → String
  | [], _ => ""
  | [(k, v)], ind => indentN ind ++ "\"" ++ k ++ "\": " ++ stringify2 v ind
  | (k, v) :: rest, ind =>
    indentN ind ++ "\"" ++ k ++ "\": " ++ stringify2 v ind ++ ",\n" ++ stringifyFields rest ind
end

/-- The on-disk state, one parsed document per existing path (the model keeps
    documents parsed; `writeToSingleFile` reads via `JSON.parse` and writes
    `JSON.stringify(newDoc, null, 2) + '\n'`). -/
abbrev FileSys := List (String × JValue)

def getFilepathsOfLocale (s : LoaderState) (locale : String) : List String :=
  (s.files.filter (fun f => f.locale == locale)).map (fun f => f.filepath)

/-- `requestMissingFilepath(locale, keypath)`: one known file for the locale
    is used directly; otherwise an interactive prompt (input box when none,
    quick-pick when several) is the external collaborator `ask`. -/
def requestMissingFilepath (s : LoaderState) (ask : String → String → Option String)
    (locale keypath : String) : Option String :=
  match getFilepathsOfLocale s locale with
  | [p] => some p
  | _ => ask locale keypath

/-- The filepath resolution at the top of `writeToSingleFile`: keep a truthy
    `pending.filepath`, otherwise ask `requestMissingFilepath`. -/
def resolvedFilepath (s : LoaderState) (ask : String → String → Option String)
    (pending : PendingWrite) : Option String :=
  if truthyOS pending.filepath then pending.filepath
  else requestMissingFilepath s ask pending.locale pending.keypath

/-- `writeToSingleFile(pending)`: resolve the filepath (falsy means missing),
    read the existing document (or start empty), `set` the keypath, serialize
    and write.  Returns the new file system, the path written, and the text
    written. -/
def writeToSingleFile {ε : Type} (s : LoaderState) (ask : String → String → Option String)
    (fs : FileSys) (pending : PendingWrite) :
    Except (AllyError ε) (FileSys × String × String) :=
  let fp₁ := resolvedFilepath s ask pending
  if truthyOS fp₁ then
    match fp₁ with
    | some fp =>
      let original : JValue := match List.lookup fp fs with
        | some doc => doc
        | none => .obj []
      let newDoc := lodashSet original pending.keypath pending.value
      .ok (setKey fs fp newDoc, fp, stringify2 newDoc 0 ++ "\n")
    | none => .error ⟨.filepathNotSpecified, none⟩
  else .error ⟨.filepathNotSpecified, none⟩

/-- The sequential loop of `writeToFile` (one read-modify-write per item; an
    exception aborts the remaining items).  The loader state is threaded
    through and returned, as the method never assigns to it. -/
def writeToFileRun {ε : Type} (s : LoaderState) (ask : String → String → Option String) :
    FileSys → List PendingWrite → LoaderState × Option (AllyError ε) × FileSys
  | fs, [] => (s, none, fs)
  | fs, p :: rest =>
    match writeToSingleFile (ε := ε) s ask fs p with
    | .error e => (s, some e, fs)
    | .ok (fs', _, _) => writeToFileRun s ask fs' rest

/-- `writeToFile(pendings)`: normalizes to an array, filters out falsy
    entries, then writes sequentially. -/
def writeToFile {ε : Type} (s : LoaderState) (ask : String → String → Option String)
    (fs : FileSys) (pendings : List (Option PendingWrite)) :
    LoaderState × Option (AllyError ε) × FileSys :=
  writeToFileRun s ask fs (pendings.filterMap id)

/-! ### The `flat` package's unflatten -/

/-- Modelled from the spec: the `flat` package's `unflatten` (an external
    library; the spec's round-trip property names it): each flattened key is
    split on the dot separator and the value is inserted along that path
    into the document being rebuilt. -/
def unflattenJ (pairs : List (String × JValue)) : JValue :=
  .obj (pairs.foldl (fun acc kv => setPathF (jsSplit kv.1) kv.2 acc) [])

/-! ### Concrete fixtures for witnesses and counterexamples -/

def exCfg : Config := ⟨"en", fun _ loc => loc ++ ".json"⟩

def exFileEn : ParsedFile := ⟨"en.json", "en", .obj [("a", .obj [("b", .scalar "hello")])]⟩

def exFileFr : ParsedFile := ⟨"fr.json", "fr", .obj [("a", .obj [("b", .scalar "")])]⟩

def exState : LoaderState := rebuild [exFileEn, exFileFr]

def exState3 : LoaderState := rebuild [⟨"en.json", "en", .obj [("k", .scalar "hello")]⟩,
  ⟨"fr.json", "fr", .obj [("x", .scalar "1")]⟩, ⟨"de.json", "de", .obj [("x", .scalar "1")]⟩]

def exMtFailFr : JValue → String → String → Except String String :=
  fun _ _ dst => if dst = "fr" then .error "boom" else .ok "T"

def exMtOk : JValue → String → String → Except String String := fun _ _ _ => .ok "T"

def exNodeK : LocaleNode :=
  ⟨"k", "k", [("en", ⟨"k", "k", .scalar "hello", "en", some "en.json", false⟩)]⟩

def exStateG : LoaderState := rebuild [⟨"en.json", "en", .obj [("g", .obj [("a", .scalar "v")])]⟩]

/-- Invariant of the flatten index: every node sits under its own keypath. -/
def NodeFieldInv (t : List (String × LocaleNode)) : Prop :=
  ∀ kp node, List.lookup kp t = some node →
    node.keypath = kp ∧ node.keyname = getKeyname kp

def exFileFr2 : ParsedFile := ⟨"fr.json", "fr", .obj [("c", .scalar "x")]⟩

def exStateSh : LoaderState := rebuild [exFileEn, exFileFr2]

/-! ### C3 and C10: write-back -/

/-- The value stored at an exact (nonempty) segment path of a field list. -/
def valueAtF : List String → List (String × JValue) → Option JValue
  | [], _ => none
  | [k], fields => List.lookup k fields
  | k :: rest, fields =>
    match List.lookup k fields with
    | some (.obj gs) => valueAtF rest gs
    | _ => none

/-! ### C8: flatten/unflatten round trip -/

mutual
/-- Well-formed document value: scalars, or non-empty objects of well-formed
    fields. -/
def wfVal : JValue → Bool
  | .scalar _ => true
  | .obj fs => (!fs.isEmpty) && wfFields fs

/-- Well-formed fields: keys nonempty, dot-free and pairwise distinct, and
    all values well-formed. -/
def wfFields : List (String × JValue) → Bool
  | [] => true
  | (k, v) :: rest =>
    wfSeg k && wfVal v && (!(rest.map Prod.fst).contains k) && wfFields rest
end

mutual
/-- Key-well-formed document value: like `wfVal` but empty objects are
    allowed (`flat` keeps them as leaves, so they round-trip). -/
def wfValE : JValue → Bool
  | .scalar _ => true
  | .obj fs => wfFieldsE fs

/-- Key-well-formed fields: keys nonempty, dot-free and pairwise distinct
    at every level; values may be empty objects. -/
def wfFieldsE : List (String × JValue) → Bool
  | [] => true
  | (k, v) :: rest =>
    wfSeg k && wfValE v && (!(rest.map Prod.fst).contains k) && wfFieldsE rest
end

mutual
/-- The leaf paths (as segment lists) of a value under its own key, with the
    value stored at each leaf, in the DFS order `flat` uses. -/
def leafPairsV (k : String) : JValue → List (List String × JValue)
  | .scalar s => [([k], .scalar s)]
  | .obj [] => [([k], .obj [])]
  | .obj (f :: fs) => (leafPairsF (f :: fs)).map (fun pv => (k :: pv.1, pv.2))

/-- The leaf paths of a field list, with values, in DFS order. -/
def leafPairsF : List (String × JValue) → List (List String × JValue)
  | [] => []
  | (k, v) :: rest => leafPairsV k v ++ leafPairsF rest
end

mutual
/-- What `flat` writes for one value under an already-joined key, as a pure
    list (no accumulator). -/
def pureFlatV : JValue → String → List (String × JValue)
  | .scalar s, newKey => [(newKey, .scalar s)]
  | .obj [], newKey => [(newKey, .obj [])]
  | .obj (f :: fs), newKey => pureFlatF (f :: fs) newKey

/-- What `flat` writes for a field list under a prefix, as a pure list. -/
def pureFlatF : List (String × JValue) → String → List (String × JValue)
  | [], _ => []
  | (k, v) :: rest, prev => pureFlatV v (joinSeg prev k) ++ pureFlatF rest prev
end

/-! ### C4 and C5: tree vs. flatten index -/

/-- Walking a children list along exact segments (the path-level view of
    `getTreeNodeByKey` for well-formed keypaths). -/
def viewC (cs : List (String × LTree)) : List String → Option LTree
  | [] => none
  | [k] => List.lookup k cs
  | k :: rest =>
    match List.lookup k cs with
    | some (.group _ _ cs') => viewC cs' rest
    | _ => none

/-- Filter an optional JSON value down to scalars (the shape of flat leaves). -/
def scalarOnly : Option JValue → Option JValue
  | some (.scalar s) => some (.scalar s)
  | _ => none

/-- One step of the last-of-locale fold over files for a flattened key. -/
def lastFlatStep (loc kp : String) (acc : Option (ParsedFile × JValue)) (f : ParsedFile) :
    Option (ParsedFile × JValue) :=
  if f.locale = loc then
    match List.lookup kp (fileFlatten f.value) with
    | some v => some (f, v)
    | none => acc
  else acc

/-- The last file of locale `loc` whose flattened form defines key `kp`,
    with that flattened value. -/
def lastFlat (files : List ParsedFile) (loc kp : String) : Option (ParsedFile × JValue) :=
  files.foldl (lastFlatStep loc kp) none

/-- What `subTree`'s loop leaves as the child at key `k` after processing
    the field `(k, v)`, given the children present before. -/
def childAfter (f : ParsedFile) (keypath : String) (children : List (String × LTree))
    (k : String) : JValue → LTree
  | .obj fields =>
    subTreeFields f fields (joinSeg keypath k)
      (match List.lookup k children with
       | some (.group okp okn ocs) => LTree.group okp okn ocs
       | _ => newTree (joinSeg keypath k))
  | .scalar sv =>
    match List.lookup k children with
    | some (.entry ekp ekn locs) =>
      .entry ekp ekn (setKey locs f.locale (treeRecordOf f (joinSeg keypath k) k sv))
    | some (.group a b cs) => .group a b cs
    | none =>
      .entry (joinSeg keypath k) (getKeyname (joinSeg keypath k))
        [(f.locale, treeRecordOf f (joinSeg keypath k) k sv)]

/-- No shape conflict between a document's fields and a tree's children:
    no path is a scalar in the document but a group in the tree, nor a
    nested object in the document but an entry in the tree. -/
def NoConf (gs : List (String × JValue)) (cs : List (String × LTree)) : Prop :=
  ∀ q : List String,
    (∀ s, valueAtF q gs = some (.scalar s) → ∀ a b cs', viewC cs q ≠ some (.group a b cs')) ∧
    (∀ hs, valueAtF q gs = some (.obj hs) → ∀ a b l, viewC cs q ≠ some (.entry a b l))

/-- One step of the last-of-locale fold over files at a segment path. -/
def lastLeafStep (loc : String) (p : List String) (acc : Option (ParsedFile × String))
    (f : ParsedFile) : Option (ParsedFile × String) :=
  if f.locale = loc then
    match valueAtF p f.value.fieldsOf with
    | some (.scalar s) => some (f, s)
    | _ => acc
  else acc

/-- The last file of locale `loc` whose document has a scalar at path `p`,
    with that scalar. -/
def lastLeaf (files : List ParsedFile) (loc : String) (p : List String) :
    Option (ParsedFile × String) :=
  files.foldl (lastLeafStep loc p) none

/-- A value is a scalar in one document but a nested object in another:
    forbidden shape conflict. -/
def ShapeCompat (files : List ParsedFile) : Prop :=
  ∀ f ∈ files, ∀ g ∈ files, ∀ (p : List String) (s : String) (hs : List (String × JValue)),
    valueAtF p f.value.fieldsOf = some (.scalar s) →
    valueAtF p g.value.fieldsOf = some (.obj hs) → False

/-- Whether a file set's documents collide at a path: a scalar in one file,
    but a group in another. -/
def anyLeafAt (files : List ParsedFile) (p : List String) : Prop :=
  ∃ f ∈ files, ∃ s, valueAtF p f.value.fieldsOf = some (.scalar s)

def anyGroupAt (files : List ParsedFile) (p : List String) : Prop :=
  ∃ f ∈ files, ∃ hs, valueAtF p f.value.fieldsOf = some (.obj hs)

/-- The tree-fold invariant: after merging `done`, the root children viewed
    at any nonempty path are a group where some file nests, an entry
    carrying the per-locale last-writer records where files only have
    scalars, and absent where no file says anything. -/
def TreeInv (done : List ParsedFile) (cs : List (String × LTree)) : Prop :=
  ∀ p : List String, p ≠ [] →
    (anyGroupAt done p → ∃ a b cs', viewC cs p = some (.group a b cs')) ∧
    (anyLeafAt done p → ¬ anyGroupAt done p →
      ∃ ekp ekn locs, viewC cs p = some (.entry ekp ekn locs) ∧
        ∀ loc, List.lookup loc locs =
          (lastLeaf done loc p).map
            (fun fs => treeRecordOf fs.1 (joinPath "" p) (lastSegL p) fs.2)) ∧
    (¬ anyLeafAt done p → ¬ anyGroupAt done p → viewC cs p = none)

/-- Decidable cross-file shape compatibility: no flattened leaf path of one
    file is a strict prefix of a leaf path of another. -/
def CompatB (files : List ParsedFile) : Bool :=
  files.all fun f => files.all fun g =>
    (leafPairsF f.value.fieldsOf).all fun pv =>
      (leafPairsF g.value.fieldsOf).all fun qv =>
        !(decide (pv.1 ≠ qv.1) && (qv.1.take pv.1.length == pv.1))

def exFileObjEmpty : ParsedFile := ⟨"en.json", "en", .obj [("a", .obj [])]⟩

def exC5En1 : ParsedFile := ⟨"en1.json", "en", .obj [("a", .scalar "x")]⟩

def exC5En2 : ParsedFile := ⟨"en2.json", "en", .obj [("a", .scalar "y")]⟩

def exC5Fr : ParsedFile := ⟨"fr.json", "fr", .obj [("a", .obj [("b", .scalar "z")])]⟩

def exC5FrOther : ParsedFile := ⟨"fr.json", "fr", .obj [("c", .scalar "w")]⟩

/-! ### Theorems -/

theorem lookup_cons_self {α : Type} (k : String) (v : α) (rest : List (String × α)) :
    List.lookup k ((k, v) :: rest) = some v := by
  simp [List.lookup]

theorem lookup_cons_ne {α : Type} (k k' : String) (v : α) (rest : List (String × α))
    (h : k' ≠ k) : List.lookup k' ((k, v) :: rest) = List.lookup k' rest := by
  have hb : (k' == k) = false := by simpa using h
  simp [List.lookup, hb]

theorem lookup_setKey_self {α : Type} (m : List (String × α)) (k : String) (v : α) :
    List.lookup k (setKey m k v) = some v := by
  induction m with
  | nil => simp [setKey, List.lookup]
  | cons p rest ih =>
    obtain ⟨k', v'⟩ := p
    by_cases h : k' = k
    · subst h; simp [setKey, List.lookup]
    · rw [setKey, if_neg h, lookup_cons_ne _ _ _ _ (fun hh => h hh.symm), ih]

theorem lookup_setKey_other {α : Type} (m : List (String × α)) (k k' : String) (v : α)
    (h : k' ≠ k) : List.lookup k' (setKey m k v) = List.lookup k' m := by
  induction m with
  | nil =>
    have hb : (k' == k) = false := by simpa using h
    simp [setKey, List.lookup, hb]
  | cons p rest ih =>
    obtain ⟨k₀, v₀⟩ := p
    by_cases hk : k₀ = k
    · subst hk
      rw [setKey, if_pos rfl, lookup_cons_ne _ _ _ _ h, lookup_cons_ne _ _ _ _ h]
    · by_cases hk' : k' = k₀
      · subst hk'
        rw [setKey, if_neg hk, lookup_cons_self, lookup_cons_self]
      · rw [setKey, if_neg hk, lookup_cons_ne _ _ _ _ hk', lookup_cons_ne _ _ _ _ hk', ih]

theorem lookup_none_iff_keys {α : Type} (m : List (String × α)) (k : String) :
    List.lookup k m = none ↔ k ∉ m.map Prod.fst := by
  induction m with
  | nil => simp [List.lookup]
  | cons p rest ih =>
    obtain ⟨k₀, v₀⟩ := p
    by_cases h : k = k₀
    · subst h; simp [List.lookup]
    · rw [lookup_cons_ne _ _ _ _ h]
      simp [h, ih]

theorem lookup_isSome_iff_keys {α : Type} (m : List (String × α)) (k : String) :
    (List.lookup k m).isSome ↔ k ∈ m.map Prod.fst := by
  rw [← not_iff_not, Option.not_isSome_iff_eq_none]
  exact lookup_none_iff_keys m k

theorem keys_setKey {α : Type} (m : List (String × α)) (k : String) (v : α) :
    (setKey m k v).map Prod.fst =
      if (List.lookup k m).isSome then m.map Prod.fst else m.map Prod.fst ++ [k] := by
  induction m with
  | nil => simp [setKey, List.lookup]
  | cons p rest ih =>
    obtain ⟨k₀, v₀⟩ := p
    by_cases hk : k₀ = k
    · subst hk; simp [setKey, List.lookup]
    · rw [setKey, if_neg hk, List.map_cons, List.map_cons,
        lookup_cons_ne _ _ _ _ (fun hh => hk hh.symm), ih]
      by_cases hs : (List.lookup k rest).isSome <;> simp [hs]

theorem setKey_append_fresh {α : Type} (m : List (String × α)) (k : String) (v : α)
    (h : List.lookup k m = none) : setKey m k v = m ++ [(k, v)] := by
  induction m with
  | nil => simp [setKey]
  | cons p rest ih =>
    obtain ⟨k₀, v₀⟩ := p
    by_cases hk : k = k₀
    · subst hk; rw [lookup_cons_self] at h; cases h
    · rw [lookup_cons_ne _ _ _ _ hk] at h
      rw [setKey, if_neg (fun hh => hk hh.symm), ih h]
      simp

theorem nodup_keys_setKey {α : Type} (m : List (String × α)) (k : String) (v : α)
    (h : (m.map Prod.fst).Nodup) : ((setKey m k v).map Prod.fst).Nodup := by
  rw [keys_setKey]
  by_cases hs : (List.lookup k m).isSome
  · simp [hs, h]
  · simp only [hs, if_false, Bool.false_eq_true]
    rw [List.nodup_append]
    refine ⟨h, List.nodup_singleton k, ?_⟩
    intro a ha hb
    simp at hb
    subst hb
    have hn : List.lookup a m = none := Option.not_isSome_iff_eq_none.mp (by simpa using hs)
    rw [lookup_none_iff_keys] at hn
    exact hn ha

theorem lookup_mem {α : Type} (m : List (String × α)) (k : String) (v : α)
    (h : List.lookup k m = some v) : (k, v) ∈ m := by
  induction m with
  | nil => cases h
  | cons p rest ih =>
    obtain ⟨k₀, v₀⟩ := p
    by_cases hk : k = k₀
    · subst hk
      rw [lookup_cons_self] at h
      cases h
      simp
    · rw [lookup_cons_ne _ _ _ _ hk] at h
      simp [ih h]

theorem splitSegsC_ne_nil (l : List Char) : splitSegsC l ≠ [] := by
  cases l with
  | nil => simp [splitSegsC]
  | cons c rest =>
    by_cases h : c = '.'
    · simp [splitSegsC, h]
    · simp only [splitSegsC, if_neg h]
      cases splitSegsC rest <;> simp

theorem splitSegsC_dotFree (a : List Char) (h : ¬ '.' ∈ a) : splitSegsC a = [a] := by
  induction a with
  | nil => simp [splitSegsC]
  | cons c rest ih =>
    simp at h
    obtain ⟨h1, h2⟩ := h
    have hc : ¬c = '.' := by intro hh; exact h1 hh.symm
    have := ih h2
    simp [splitSegsC, hc, this]

theorem splitSegsC_append (a b : List Char) (h : ¬ '.' ∈ a) :
    splitSegsC (a ++ '.' :: b) = a :: splitSegsC b := by
  induction a with
  | nil => simp [splitSegsC]
  | cons c rest ih =>
    simp at h
    obtain ⟨h1, h2⟩ := h
    have hc : ¬c = '.' := by intro hh; exact h1 hh.symm
    have := ih h2
    simp [splitSegsC, hc, this]

theorem dot_not_mem_of_segDotFree {s : String} (h : segDotFree s = true) :
    ¬ '.' ∈ s.data := by
  simp [segDotFree] at h
  intro hm
  exact h '.' hm rfl

theorem data_dot_append (s t : String) : (s ++ "." ++ t).data = s.data ++ '.' :: t.data := by
  rw [String.data_append, String.data_append]
  have hdot : ".".data = ['.'] := rfl
  rw [hdot, List.append_assoc]
  rfl

theorem jsSplit_arrJoin (p : List String) (hp : p ≠ []) (hd : ∀ s ∈ p, segDotFree s) :
    jsSplit (arrJoin p) = p := by
  induction p with
  | nil => cases hp rfl
  | cons s rest ih =>
    cases rest with
    | nil =>
      have hs : ¬ '.' ∈ s.data := dot_not_mem_of_segDotFree (hd s (by simp))
      simp [arrJoin, jsSplit, splitSegsC_dotFree s.data hs]
    | cons t ts =>
      have hs : ¬ '.' ∈ s.data := dot_not_mem_of_segDotFree (hd s (by simp))
      have hrest : jsSplit (arrJoin (t :: ts)) = t :: ts :=
        ih (by simp) (fun x hx => hd x (by simp [hx]))
      show jsSplit (s ++ "." ++ arrJoin (t :: ts)) = s :: t :: ts
      rw [jsSplit, data_dot_append, splitSegsC_append _ _ hs]
      rw [jsSplit] at hrest
      simp only [List.map_cons]
      rw [hrest]

theorem joinPath_append (pre : String) (p q : List String) :
    joinPath (joinPath pre p) q = joinPath pre (p ++ q) := by
  induction p generalizing pre with
  | nil => rfl
  | cons k rest ih => simp [joinPath, ih]

theorem joinPath_eq_dot (pre : String) (p : List String) (hpre : pre ≠ "") (hp : p ≠ []) :
    joinPath pre p = pre ++ "." ++ arrJoin p := by
  induction p generalizing pre with
  | nil => cases hp rfl
  | cons k rest ih =>
    cases rest with
    | nil => simp [joinPath, joinSeg, hpre, arrJoin]
    | cons t ts =>
      have hk : joinSeg pre k = pre ++ "." ++ k := by simp [joinSeg, hpre]
      have hne : joinSeg pre k ≠ "" := by
        rw [hk]
        intro hh
        have := congrArg String.data hh
        rw [data_dot_append] at this
        simp at this
      rw [joinPath, ih (joinSeg pre k) hne (by simp), hk]
      show pre ++ "." ++ k ++ "." ++ arrJoin (t :: ts) = pre ++ "." ++ arrJoin (k :: t :: ts)
      have : arrJoin (k :: t :: ts) = k ++ "." ++ arrJoin (t :: ts) := rfl
      rw [this]
      apply String.ext
      simp [String.data_append]

theorem joinPath_nil_eq_arrJoin (p : List String) (h : p = [] ∨ p.head? ≠ some "") :
    joinPath "" p = arrJoin p := by
  cases p with
  | nil => rfl
  | cons k rest =>
    have hk : k ≠ "" := by
      rcases h with h | h
      · cases h
      · simpa using h
    rw [joinPath, joinSeg, if_pos rfl]
    cases rest with
    | nil => rfl
    | cons t ts => exact joinPath_eq_dot k (t :: ts) hk (by simp)

theorem jsSplit_joinPath (p : List String) (hp : wfPath p = true) :
    jsSplit (joinPath "" p) = p := by
  have h1 : p ≠ [] := by
    cases p
    · simp [wfPath] at hp
    · simp
  have h2 : ∀ s ∈ p, segDotFree s := by
    intro s hs
    simp [wfPath, List.all_eq_true, wfSeg] at hp
    exact (hp.2 s hs).2
  have hh : p.head? ≠ some "" := by
    cases p with
    | nil => simp
    | cons k rest =>
      simp [wfPath, wfSeg] at hp
      simpa using fun hk => hp.1.1 hk
  rw [joinPath_nil_eq_arrJoin p (Or.inr hh), jsSplit_arrJoin p h1 h2]

theorem joinPath_injective (p q : List String) (hp : wfPath p = true) (hq : wfPath q = true)
    (h : joinPath "" p = joinPath "" q) : p = q := by
  have := congrArg jsSplit h
  rwa [jsSplit_joinPath p hp, jsSplit_joinPath q hq] at this

theorem lastSegL_append (p : List String) (s : String) :
    lastSegL (p ++ [s]) = s := by
  induction p with
  | nil => rfl
  | cons k rest ih =>
    cases rest with
    | nil => simp [lastSegL]
    | cons t ts => simpa [lastSegL] using ih

theorem getKeyname_joinPath (p : List String) (s : String) (hp : wfPath (p ++ [s]) = true) :
    getKeyname (joinPath "" (p ++ [s])) = s := by
  rw [getKeyname, jsSplit_joinPath _ hp, lastSegL_append]

/-! ### C2: `MachineTranslateRecord` error taxonomy and result -/

/-- C2: for every target record and source locale, `translateRecord` fails
    with `SameLocale` exactly when the target record's locale equals the
    source locale; otherwise it fails with `EmptySource` exactly when the
    keypath has no entry in the flatten index, or the entry has no record for
    the source locale, or that record's value is empty; otherwise it calls
    the opaque translation function and returns a `PendingWrite` carrying the
    target locale, the target record's keypath and filepath, and the
    translated value; any exception of the translation function is wrapped
    and re-raised as `UnknownTranslationError` carrying the cause. -/
theorem C2_translate_record_taxonomy {ε : Type} (s : LoaderState)
    (mt : JValue → String → String → Except ε String)
    (record : LocaleRecord) (srcLang : String) :
    (MachineTranslateRecord s mt record srcLang = .error ⟨.translatingSameLocale, none⟩ ↔
      record.locale = srcLang) ∧
    (MachineTranslateRecord s mt record srcLang = .error ⟨.translatingEmptySourceValue, none⟩ ↔
      record.locale ≠ srcLang ∧
        (getNodeByKey s record.keypath = none ∨
         ∃ node, getNodeByKey s record.keypath = some node ∧
           (List.lookup srcLang node.locales = none ∨
            ∃ sr, List.lookup srcLang node.locales = some sr ∧ sr.value.truthy = false))) ∧
    (∀ e : ε, MachineTranslateRecord s mt record srcLang =
        .error ⟨.translatingUnknownError, some e⟩ ↔
      record.locale ≠ srcLang ∧
        ∃ node sr, getNodeByKey s record.keypath = some node ∧
          List.lookup srcLang node.locales = some sr ∧ sr.value.truthy = true ∧
          mt sr.value srcLang record.locale = .error e) ∧
    (∀ pw : PendingWrite, MachineTranslateRecord s mt record srcLang = .ok (some pw) ↔
      record.locale ≠ srcLang ∧
        ∃ node sr r, getNodeByKey s record.keypath = some node ∧
          List.lookup srcLang node.locales = some sr ∧ sr.value.truthy = true ∧
          mt sr.value srcLang record.locale = .ok r ∧
          pw = ⟨record.locale, .scalar r, record.filepath, record.keypath⟩) ∧
    (MachineTranslateRecord s mt record srcLang ≠ .ok none) := by
  by_cases h1 : record.locale = srcLang
  · simp [MachineTranslateRecord, h1]
  · cases hn : getNodeByKey s record.keypath with
    | none => simp [MachineTranslateRecord, h1, hn]
    | some node =>
      cases hr : List.lookup srcLang node.locales with
      | none =>
        simp [MachineTranslateRecord, h1, hn, hr]
        intro a b hab hsa
        subst hsa
        rw [lookup_none_iff_keys] at hr
        exact hr (List.mem_map_of_mem Prod.fst hab)
      | some sr =>
        by_cases hv : sr.value.truthy
        · cases hmt : mt sr.value srcLang record.locale with
          | error e =>
            simp [MachineTranslateRecord, h1, hn, hr, hv, hmt]
            exact ⟨sr, lookup_mem _ _ _ hr⟩
          | ok r =>
            simp [MachineTranslateRecord, h1, hn, hr, hv, hmt]
            exact ⟨⟨sr, lookup_mem _ _ _ hr⟩,
              fun pw => ⟨fun h => h.symm, fun h => h.symm⟩⟩
        · have hv' : sr.value.truthy = false := by simpa using hv
          simp [MachineTranslateRecord, h1, hn, hr, hv']

/-! ### C1: whole-entry translation batches -/

theorem mtr_never_undefined {ε : Type} (s : LoaderState)
    (mt : JValue → String → String → Except ε String)
    (record : LocaleRecord) (srcLang : String) :
    MachineTranslateRecord s mt record srcLang ≠ .ok none := by
  by_cases h1 : record.locale = srcLang
  · simp [MachineTranslateRecord, h1]
  · cases hn : getNodeByKey s record.keypath with
    | none => simp [MachineTranslateRecord, h1, hn]
    | some node =>
      cases hr : List.lookup srcLang node.locales with
      | none => simp [MachineTranslateRecord, h1, hn, hr]
      | some sr =>
        by_cases hv : sr.value.truthy
        · cases hmt : mt sr.value srcLang record.locale with
          | error e => simp [MachineTranslateRecord, h1, hn, hr, hv, hmt]
          | ok r => simp [MachineTranslateRecord, h1, hn, hr, hv, hmt]
        · have hv' : sr.value.truthy = false := by simpa using hv
          simp [MachineTranslateRecord, h1, hn, hr, hv']

theorem promiseAll_ok_of_forall {ε α : Type} (l : List (Except ε α))
    (h : ∀ t ∈ l, ∃ a, t = .ok a) :
    ∃ xs, promiseAll l = .ok xs ∧ List.Forall₂ (fun t x => t = .ok x) l xs := by
  induction l with
  | nil => exact ⟨[], rfl, List.Forall₂.nil⟩
  | cons t rest ih =>
    obtain ⟨a, ha⟩ := h t (by simp)
    obtain ⟨xs, hxs, hf⟩ := ih (fun t' ht' => h t' (by simp [ht']))
    subst ha
    exact ⟨a :: xs, by simp [promiseAll, hxs, Except.map], List.Forall₂.cons rfl hf⟩

theorem promiseAll_error_of_exists {ε α : Type} (l : List (Except ε α))
    (h : ∃ e, (Except.error e : Except ε α) ∈ l) :
    ∃ e', promiseAll l = .error e' ∧ (Except.error e' : Except ε α) ∈ l := by
  induction l with
  | nil =>
    obtain ⟨e, he⟩ := h
    cases he
  | cons t rest ih =>
    cases t with
    | error e => exact ⟨e, rfl, by simp⟩
    | ok a =>
      obtain ⟨e, he⟩ := h
      have he' : (Except.error e : Except ε α) ∈ rest := by
        rcases List.mem_cons.mp he with h1 | h1
        · cases h1
        · exact h1
      obtain ⟨e', he'', hmem⟩ := ih ⟨e, he'⟩
      refine ⟨e', ?_, by simp [hmem]⟩
      simp [promiseAll, he'', Except.map]

theorem filterMap_id_of_forall_some {α β : Type} (rs : List α) (xs : List (Option β))
    (p : α → Option β → Prop)
    (h : List.Forall₂ p rs xs) (hs : ∀ r x, p r x → ∃ b, x = some b) :
    List.Forall₂ (fun r b => p r (some b)) rs (xs.filterMap id) := by
  induction h with
  | nil => exact List.Forall₂.nil
  | cons hpair hrest ih =>
    obtain ⟨b, hb⟩ := hs _ _ hpair
    subst hb
    exact List.Forall₂.cons hpair ih

/-- C1 (amended): `MachineTranslateNode` issues one `translateRecord` per
    non-source locale of the shadow locale set and awaits them with
    `Promise.all`: when every per-locale translation succeeds, it returns the
    list of all their `PendingWrite`s, in locale order; when any one of them
    fails, the whole operation fails with one of the raised per-locale errors
    (no partial result is returned). -/
theorem C1_translate_node_amended {ε : Type} (cfg : Config) (s : LoaderState)
    (mt : JValue → String → String → Except ε String)
    (node : LocaleNode) (srcLang : String) :
    ((∀ r ∈ ((getShadowLocales cfg s node).map Prod.snd).filter
        (fun r => !(r.locale == srcLang)),
        (MachineTranslateRecord s mt r srcLang).isOk) →
      ∃ ps, MachineTranslateNode cfg s mt node srcLang = .ok ps ∧
        List.Forall₂ (fun r pw => MachineTranslateRecord s mt r srcLang = .ok (some pw))
          (((getShadowLocales cfg s node).map Prod.snd).filter
            (fun r => !(r.locale == srcLang))) ps) ∧
    (∀ e r, r ∈ ((getShadowLocales cfg s node).map Prod.snd).filter
        (fun r => !(r.locale == srcLang)) →
      MachineTranslateRecord s mt r srcLang = .error e →
      ∃ e', MachineTranslateNode cfg s mt node srcLang = .error e' ∧
        ∃ r', r' ∈ ((getShadowLocales cfg s node).map Prod.snd).filter
            (fun r => !(r.locale == srcLang)) ∧
          MachineTranslateRecord s mt r' srcLang = .error e') := by
  constructor
  · intro hok
    set records := ((getShadowLocales cfg s node).map Prod.snd).filter
      (fun r => !(r.locale == srcLang)) with hrecords
    have hall : ∀ t ∈ records.map (fun r => MachineTranslateRecord s mt r srcLang),
        ∃ a, t = .ok a := by
      intro t ht
      obtain ⟨r, hr, hrt⟩ := List.mem_map.mp ht
      subst hrt
      have := hok r hr
      cases hmtr : MachineTranslateRecord s mt r srcLang with
      | error e => rw [hmtr] at this; cases this
      | ok a => exact ⟨a, rfl⟩
    obtain ⟨xs, hxs, hf⟩ := promiseAll_ok_of_forall _ hall
    have hf' : List.Forall₂ (fun r x => MachineTranslateRecord s mt r srcLang = .ok x)
        records xs := by
      rw [List.forall₂_map_left_iff] at hf
      exact hf
    refine ⟨xs.filterMap id, ?_, ?_⟩
    · show MachineTranslateNode cfg s mt node srcLang = .ok (xs.filterMap id)
      simp only [MachineTranslateNode]
      rw [← hrecords, hxs]
      rfl
    · exact filterMap_id_of_forall_some records xs _ hf'
        (fun r x hpx => by
          cases x with
          | none => exact absurd hpx (mtr_never_undefined s mt r srcLang)
          | some b => exact ⟨b, rfl⟩)
  · intro e r hr hmtr
    set records := ((getShadowLocales cfg s node).map Prod.snd).filter
      (fun r => !(r.locale == srcLang)) with hrecords
    have hex : ∃ e₀, (Except.error e₀ :
        Except (AllyError ε) (Option PendingWrite)) ∈
          records.map (fun r => MachineTranslateRecord s mt r srcLang) :=
      ⟨e, List.mem_map.mpr ⟨r, hr, hmtr⟩⟩
    obtain ⟨e', he', hmem⟩ := promiseAll_error_of_exists _ hex
    obtain ⟨r', hr', hrt⟩ := List.mem_map.mp hmem
    refine ⟨e', ?_, ⟨r', hr', hrt⟩⟩
    show MachineTranslateNode cfg s mt node srcLang = .error e'
    simp only [MachineTranslateNode]
    rw [← hrecords, he']

/-- C1 (counterexample): known locales en, fr, de with source en and a
    translation function failing only for fr: the de sibling's
    `translateRecord` succeeds on its own, yet `MachineTranslateNode` rejects
    with the fr error (Promise.all semantics) instead of returning the list
    of successful `PendingWrite`s — so a failure of one locale does prevent
    the other locales' results from being returned. -/
theorem C1_translate_node_counterexample :
    getNodeByKey exState3 "k" = some exNodeK ∧
    MachineTranslateNode exCfg exState3 exMtFailFr exNodeK "en" =
      .error ⟨.translatingUnknownError, some "boom"⟩ ∧
    List.lookup "de" (getShadowLocales exCfg exState3 exNodeK) =
      some ⟨"k", "k", .scalar "", "de", some "de.json", true⟩ ∧
    MachineTranslateRecord exState3 exMtFailFr
      ⟨"k", "k", .scalar "", "de", some "de.json", true⟩ "en" =
      .ok (some ⟨"de", .scalar "T", some "de.json", "k"⟩) :=
  ⟨rfl, rfl, rfl, rfl⟩

/-- C1 (witness): with a translation function that always succeeds, the batch
    returns one `PendingWrite` per non-source locale. -/
theorem C1_translate_node_witness :
    ∃ ps, MachineTranslateNode (ε := String) exCfg exState3 exMtOk exNodeK "en" = .ok ps ∧
      List.Forall₂ (fun r pw => MachineTranslateRecord exState3 exMtOk r "en" = .ok (some pw))
        (((getShadowLocales exCfg exState3 exNodeK).map Prod.snd).filter
          (fun r => !(r.locale == "en"))) ps :=
  (C1_translate_node_amended exCfg exState3 exMtOk exNodeK "en").1 (by decide)

/-- C2 (witness): requesting translation from en to en fails with SameLocale
    (spec 8's scenario). -/
theorem C2_translate_record_witness :
    MachineTranslateRecord (ε := String) exState exMtOk
      ⟨"a.b", "b", .scalar "", "en", some "en.json", false⟩ "en" =
      .error ⟨.translatingSameLocale, none⟩ :=
  (C2_translate_record_taxonomy exState exMtOk
    ⟨"a.b", "b", .scalar "", "en", some "en.json", false⟩ "en").1.mpr rfl

/-! ### Flatten-index characterization -/

theorem mem_keys_setKey {α : Type} (m : List (String × α)) (k : String) (v : α) (kp : String) :
    kp ∈ (setKey m k v).map Prod.fst ↔ kp ∈ m.map Prod.fst ∨ kp = k := by
  rw [keys_setKey]
  by_cases hs : (List.lookup k m).isSome
  · simp only [hs, if_true]
    constructor
    · exact Or.inl
    · rintro (h | h)
      · exact h
      · subst h
        exact (lookup_isSome_iff_keys m kp).mp hs
  · simp [hs]

theorem keys_addFlatten_go (f : ParsedFile) (ps : List (String × JValue))
    (t : List (String × LocaleNode)) (kp : String) :
    kp ∈ (ps.foldl (addFlattenStep f) t).map Prod.fst ↔
      kp ∈ t.map Prod.fst ∨ kp ∈ ps.map Prod.fst := by
  induction ps generalizing t with
  | nil => simp
  | cons kv rest ih =>
    rw [List.foldl_cons, ih]
    have : kp ∈ (addFlattenStep f t kv).map Prod.fst ↔ kp ∈ t.map Prod.fst ∨ kp = kv.1 := by
      rw [addFlattenStep]
      exact mem_keys_setKey _ _ _ _
    rw [this]
    simp only [List.map_cons, List.mem_cons]
    tauto

theorem nodup_addFlatten_go (f : ParsedFile) (ps : List (String × JValue))
    (t : List (String × LocaleNode)) (h : (t.map Prod.fst).Nodup) :
    ((ps.foldl (addFlattenStep f) t).map Prod.fst).Nodup := by
  induction ps generalizing t with
  | nil => simpa
  | cons kv rest ih =>
    rw [List.foldl_cons]
    exact ih _ (by rw [addFlattenStep]; exact nodup_keys_setKey _ _ _ h)

theorem keys_flattenIndex_go (files : List ParsedFile) (t : List (String × LocaleNode))
    (kp : String) :
    kp ∈ (files.foldl (fun t f => addFileToFlatten f t) t).map Prod.fst ↔
      kp ∈ t.map Prod.fst ∨ ∃ f ∈ files, kp ∈ (fileFlatten f.value).map Prod.fst := by
  induction files generalizing t with
  | nil => simp
  | cons f rest ih =>
    rw [List.foldl_cons, ih, addFileToFlatten, keys_addFlatten_go]
    constructor
    · rintro ((h | h) | h)
      · exact Or.inl h
      · exact Or.inr ⟨f, by simp, h⟩
      · obtain ⟨g, hg, hkp⟩ := h
        exact Or.inr ⟨g, by simp [hg], hkp⟩
    · rintro (h | h)
      · exact Or.inl (Or.inl h)
      · obtain ⟨g, hg, hkp⟩ := h
        rcases List.mem_cons.mp hg with h1 | h1
        · subst h1
          exact Or.inl (Or.inr hkp)
        · exact Or.inr ⟨g, h1, hkp⟩

theorem keys_flattenIndex (files : List ParsedFile) (kp : String) :
    kp ∈ (updateFlattenLocalesTree files).map Prod.fst ↔
      ∃ f ∈ files, kp ∈ (fileFlatten f.value).map Prod.fst := by
  rw [updateFlattenLocalesTree, keys_flattenIndex_go]
  simp

theorem nodup_keys_flattenIndex (files : List ParsedFile) :
    ((updateFlattenLocalesTree files).map Prod.fst).Nodup := by
  rw [updateFlattenLocalesTree]
  have h : ∀ (fs : List ParsedFile) (t : List (String × LocaleNode)),
      (t.map Prod.fst).Nodup → ((fs.foldl (fun t f => addFileToFlatten f t) t).map Prod.fst).Nodup := by
    intro fs
    induction fs with
    | nil => intro t ht; simpa
    | cons f rest ih =>
      intro t ht
      rw [List.foldl_cons]
      exact ih _ (nodup_addFlatten_go f _ t ht)
  exact h files [] (by simp)

/-! ### C7: coverage -/

theorem coverage_translated_filter (s : LoaderState) (locale : String)
    (keysArg : Option (List String)) :
    (getCoverage s locale keysArg).translated =
      ((getCoverage s locale keysArg).keys.filter fun kp =>
        ((getNodeByKey s kp).map fun n => getValueTruthy n locale).getD false).length := by
  have htr : (getCoverage s locale keysArg).translated =
      ((getCoverage s locale keysArg).keys.filter fun kp =>
        match List.lookup kp s.flattenLocaleTree with
        | some n => getValueTruthy n locale
        | none => false).length := by
    cases keysArg <;> rfl
  rw [htr]
  apply congrArg List.length
  apply List.filter_congr
  intro kp _
  cases h : List.lookup kp s.flattenLocaleTree <;> simp [getNodeByKey, h]

/-- C7: for every locale and key set passed to `getCoverage` (defaulting to
    all keys of the flatten index), `total` is the length of the key set and
    `translated` counts the keys whose flatten-index entry has a non-empty
    (truthy) value for the locale, so `translated <= total`; with the default
    key set, `total` is the length of a duplicate-free enumeration of exactly
    the distinct full key paths across all loaded files. -/
theorem C7_coverage_counts (files : List ParsedFile) (locale : String)
    (keysArg : Option (List String)) :
    (getCoverage (rebuild files) locale keysArg).translated ≤
      (getCoverage (rebuild files) locale keysArg).total ∧
    (getCoverage (rebuild files) locale keysArg).total =
      (getCoverage (rebuild files) locale keysArg).keys.length ∧
    (∀ ks, keysArg = some ks → (getCoverage (rebuild files) locale keysArg).keys = ks) ∧
    (getCoverage (rebuild files) locale keysArg).translated =
      ((getCoverage (rebuild files) locale keysArg).keys.filter fun kp =>
        ((getNodeByKey (rebuild files) kp).map fun n => getValueTruthy n locale).getD false).length ∧
    (keysArg = none →
      (getCoverage (rebuild files) locale keysArg).total =
          ((rebuild files).flattenLocaleTree.map Prod.fst).length ∧
        ((rebuild files).flattenLocaleTree.map Prod.fst).Nodup ∧
        (∀ kp, kp ∈ (rebuild files).flattenLocaleTree.map Prod.fst ↔
          ∃ f ∈ files, kp ∈ (fileFlatten f.value).map Prod.fst)) := by
  refine ⟨?_, ?_, ?_, ?_, ?_⟩
  · cases keysArg <;> exact List.length_filter_le _ _
  · cases keysArg <;> rfl
  · intro ks hks
    subst hks
    rfl
  · exact coverage_translated_filter (rebuild files) locale keysArg
  · intro h
    subst h
    exact ⟨rfl, nodup_keys_flattenIndex files,
      fun kp => keys_flattenIndex files kp⟩

/-- C7 (witness): the spec's scenario, `en.json = {a:{b:"hello"}}`,
    `fr.json = {a:{b:""}}`: coverage of fr is 0 of 1. -/
theorem C7_coverage_counts_witness :
    (getCoverage exState "fr" none).translated ≤ (getCoverage exState "fr" none).total ∧
    (getCoverage exState "fr" none).total = 1 ∧
    (getCoverage exState "fr" none).translated = 0 :=
  ⟨((C7_coverage_counts [exFileEn, exFileFr] "fr" none).1 : _), rfl, rfl⟩

/-! ### C9: closest-node lookup -/

theorem arrJoin_cons_cons (s t : String) (ts : List String) :
    arrJoin (s :: t :: ts) = s ++ "." ++ arrJoin (t :: ts) := rfl

theorem arrJoin_eq_empty (segs : List String) (h : ∀ seg ∈ segs, seg ≠ "")
    (he : arrJoin segs = "") : segs = [] := by
  cases segs with
  | nil => rfl
  | cons s rest =>
    exfalso
    cases rest with
    | nil => exact h s (by simp) he
    | cons t ts =>
      rw [arrJoin_cons_cons] at he
      have hd := congrArg String.data he
      rw [data_dot_append] at hd
      have h0 : ("" : String).data = [] := rfl
      rw [h0] at hd
      simp at hd

theorem jsSplit_ne_nil (s : String) : jsSplit s ≠ [] := by
  rw [jsSplit]
  intro h
  exact splitSegsC_ne_nil s.data (List.map_eq_nil_iff.mp h)

theorem lookupTreePath_term (cs : List (String × LTree)) (root : String)
    (rest : List String) (h : arrJoin rest = "") :
    lookupTreePath cs (root :: rest) = List.lookup root cs := by
  simp [lookupTreePath, h]

theorem lookupTreePath_group (cs : List (String × LTree)) (root : String)
    (rest : List String) (a b : String) (cs' : List (String × LTree))
    (h : arrJoin rest ≠ "") (hc : List.lookup root cs = some (.group a b cs')) :
    lookupTreePath cs (root :: rest) = lookupTreePath cs' rest := by
  simp [lookupTreePath, h, hc]

theorem lookupTreePath_entry (cs : List (String × LTree)) (root : String)
    (rest : List String) (a b : String) (l : List (String × LocaleRecord))
    (h : arrJoin rest ≠ "") (hc : List.lookup root cs = some (.entry a b l)) :
    lookupTreePath cs (root :: rest) = none := by
  simp [lookupTreePath, h, hc]

theorem lookupTreePath_missing (cs : List (String × LTree)) (root : String)
    (rest : List String) (h : arrJoin rest ≠ "")
    (hc : List.lookup root cs = none) :
    lookupTreePath cs (root :: rest) = none := by
  simp [lookupTreePath, h, hc]

theorem closestAux_missing (t : LTree) (isRoot : Bool) (root : String)
    (rest : List String) (hc : List.lookup root t.childrenOf = none) :
    getClosestAux t isRoot (root :: rest) = if isRoot then none else some t := by
  simp [getClosestAux, hc]

theorem closestAux_entry (t : LTree) (isRoot : Bool) (root : String)
    (rest : List String) (a b : String) (l : List (String × LocaleRecord))
    (hc : List.lookup root t.childrenOf = some (.entry a b l)) :
    getClosestAux t isRoot (root :: rest) = some (.entry a b l) := by
  simp [getClosestAux, hc, LTree.isEntry]

theorem closestAux_term (t : LTree) (isRoot : Bool) (root : String)
    (rest : List String) (c : LTree) (h : arrJoin rest = "")
    (hc : List.lookup root t.childrenOf = some c) :
    getClosestAux t isRoot (root :: rest) = some c := by
  simp [getClosestAux, hc, h]

theorem closestAux_group (t : LTree) (isRoot : Bool) (root : String)
    (rest : List String) (a b : String) (cs' : List (String × LTree))
    (h : arrJoin rest ≠ "")
    (hc : List.lookup root t.childrenOf = some (.group a b cs')) :
    getClosestAux t isRoot (root :: rest) = getClosestAux (.group a b cs') false rest := by
  simp [getClosestAux, hc, LTree.isEntry, h]

theorem closest_of_lookupTreePath (segs : List String) :
    ∀ (t : LTree) (isRoot : Bool) (n : LTree),
      lookupTreePath t.childrenOf segs = some n →
      getClosestAux t isRoot segs = some n := by
  induction segs with
  | nil =>
    intro t isRoot n h
    cases h
  | cons root rest ih =>
    intro t isRoot n h
    by_cases hr : arrJoin rest = ""
    · rw [lookupTreePath_term _ _ _ hr] at h
      rw [closestAux_term t isRoot root rest n hr h]
    · cases hc : List.lookup root t.childrenOf with
      | none => rw [lookupTreePath_missing _ _ _ hr hc] at h; cases h
      | some c =>
        cases c with
        | entry a b l => rw [lookupTreePath_entry _ _ _ _ _ _ hr hc] at h; cases h
        | group a b cs' =>
          rw [lookupTreePath_group _ _ _ _ _ _ hr hc] at h
          rw [closestAux_group t isRoot root rest a b cs' hr hc]
          exact ih _ false n h

theorem closestAux_below_root_ne_none (segs : List String) :
    ∀ (t : LTree), getClosestAux t false segs ≠ none := by
  induction segs with
  | nil => intro t h; cases h
  | cons root rest ih =>
    intro t
    cases hc : List.lookup root t.childrenOf with
    | none => rw [closestAux_missing t false root rest hc]; simp
    | some c =>
      by_cases hr : arrJoin rest = ""
      · rw [closestAux_term t false root rest c hr hc]; simp
      · cases c with
        | entry a b l => rw [closestAux_entry t false root rest a b l hc]; simp
        | group a b cs' =>
          rw [closestAux_group t false root rest a b cs' hr hc]
          exact ih _

theorem closestAux_none_iff (segs : List String) (t : LTree) (hne : segs ≠ []) :
    getClosestAux t true segs = none ↔
      ∀ root rest, segs = root :: rest → List.lookup root t.childrenOf = none := by
  cases segs with
  | nil => cases hne rfl
  | cons root rest =>
    cases hc : List.lookup root t.childrenOf with
    | none =>
      rw [closestAux_missing t true root rest hc]
      simp only [if_pos rfl]
      constructor
      · intro _ root' rest' he
        cases he
        exact hc
      · intro _
        rfl
    | some c =>
      constructor
      · intro h
        exfalso
        by_cases hr : arrJoin rest = ""
        · rw [closestAux_term t true root rest c hr hc] at h
          cases h
        · cases c with
          | entry a b l =>
            rw [closestAux_entry t true root rest a b l hc] at h
            cases h
          | group a b cs' =>
            rw [closestAux_group t true root rest a b cs' hr hc] at h
            exact closestAux_below_root_ne_none rest _ h
      · intro h
        have := h root rest rfl
        rw [hc] at this
        cases this

theorem closestAux_some_char (segs : List String) :
    ∀ (t : LTree) (res : LTree), segs ≠ [] → (∀ seg ∈ segs, seg ≠ "") →
      getClosestAux t false segs = some res →
      (res = t ∧ ∃ root rest, segs = root :: rest ∧
          List.lookup root t.childrenOf = none) ∨
      (∃ pre q, segs = pre ++ q ∧ pre ≠ [] ∧
        lookupTreePath t.childrenOf pre = some res ∧
        (q = [] ∨ res.isEntry = true ∨
          ∃ r q', q = r :: q' ∧ List.lookup r res.childrenOf = none)) := by
  induction segs with
  | nil =>
    intro t res hne _ h
    cases hne rfl
  | cons root rest ih =>
    intro t res _ hseg h
    cases hc : List.lookup root t.childrenOf with
    | none =>
      rw [closestAux_missing t false root rest hc] at h
      simp at h
      exact Or.inl ⟨h.symm, root, rest, rfl, hc⟩
    | some c =>
      by_cases hr : arrJoin rest = ""
      · rw [closestAux_term t false root rest c hr hc] at h
        cases h
        have hrest : rest = [] :=
          arrJoin_eq_empty rest (fun seg hs => hseg seg (by simp [hs])) hr
        subst hrest
        exact Or.inr ⟨[root], [], rfl, by simp,
          by rw [lookupTreePath_term _ root [] rfl]; exact hc, Or.inl rfl⟩
      · cases c with
        | entry a b l =>
          rw [closestAux_entry t false root rest a b l hc] at h
          cases h
          refine Or.inr ⟨[root], rest, rfl, by simp, ?_, Or.inr (Or.inl rfl)⟩
          rw [lookupTreePath_term _ root [] rfl]
          exact hc
        | group a b cs' =>
          rw [closestAux_group t false root rest a b cs' hr hc] at h
          have hrne : rest ≠ [] := by
            intro hh
            subst hh
            exact hr rfl
          have hrec := ih (.group a b cs') res hrne
            (fun seg hs => hseg seg (by simp [hs])) h
          rcases hrec with ⟨hres, r, rest', hre, hlook⟩ | ⟨pre, q, hrq, hpre, hlp, hq⟩
          · subst hres
            refine Or.inr ⟨[root], rest, rfl, by simp, ?_, ?_⟩
            · rw [lookupTreePath_term _ root [] rfl]
              exact hc
            · subst hre
              exact Or.inr (Or.inr ⟨r, rest', rfl, hlook⟩)
          · refine Or.inr ⟨root :: pre, q, by simp [hrq], by simp, ?_, hq⟩
            have hjoin : arrJoin pre ≠ "" := by
              intro hj
              exact hpre (arrJoin_eq_empty pre
                (fun seg hs => hseg seg (by simp [hrq, hs])) hj)
            rw [lookupTreePath_group _ _ _ _ _ _ hjoin hc]
            exact hlp

theorem closestAux_true_some (segs : List String) (t res : LTree)
    (h : getClosestAux t true segs = some res) :
    segs ≠ [] ∧ getClosestAux t false segs = some res := by
  cases segs with
  | nil => simp [getClosestAux] at h
  | cons root rest =>
    refine ⟨by simp, ?_⟩
    cases hc : List.lookup root t.childrenOf with
    | none =>
      rw [closestAux_missing t true root rest hc] at h
      simp at h
    | some c =>
      by_cases hr : arrJoin rest = ""
      · rw [closestAux_term t true root rest c hr hc] at h
        rw [closestAux_term t false root rest c hr hc]
        exact h
      · cases c with
        | entry a b l =>
          rw [closestAux_entry t true root rest a b l hc] at h
          rw [closestAux_entry t false root rest a b l hc]
          exact h
        | group a b cs' =>
          rw [closestAux_group t true root rest a b cs' hr hc] at h
          rw [closestAux_group t false root rest a b cs' hr hc]
          exact h

/-- C9 (amended): the closest-node walk returns the node the full path
    resolves to when it resolves (entry or group); it returns nothing exactly
    when the first segment does not resolve at the root; otherwise it stops
    at some nonempty resolvable path `pre` of the keypath and returns that
    node, which is either the full-path node, or an entry met before the
    segments were exhausted (not necessarily a group, contrary to the claim),
    or the group whose next segment does not resolve. -/
theorem C9_closest_node_amended (s : LoaderState) (kp : String)
    (hseg : ∀ seg ∈ jsSplit kp, seg ≠ "") :
    (∀ n, getTreeNodeByKey s kp = some n → getClosestNodeByKey s kp = some n) ∧
    (getClosestNodeByKey s kp = none ↔
      ∀ root rest, jsSplit kp = root :: rest →
        List.lookup root s.localeTree.childrenOf = none) ∧
    (∀ t, getClosestNodeByKey s kp = some t →
      ∃ pre q, jsSplit kp = pre ++ q ∧ pre ≠ [] ∧
        lookupTreePath s.localeTree.childrenOf pre = some t ∧
        (q = [] ∨ t.isEntry = true ∨
          ∃ r q', q = r :: q' ∧ List.lookup r t.childrenOf = none)) := by
  refine ⟨?_, ?_, ?_⟩
  · intro n h
    exact closest_of_lookupTreePath _ s.localeTree true n h
  · exact closestAux_none_iff _ s.localeTree (jsSplit_ne_nil kp)
  · intro t h
    simp only [getClosestNodeByKey] at h
    obtain ⟨hne, h'⟩ := closestAux_true_some _ _ _ h
    exact closestAux_some_char _ s.localeTree t hne hseg h' |>.resolve_left
      (by
        rintro ⟨_, root, rest, hsp, hlook⟩
        rw [hsp, closestAux_missing _ true _ _ hlook] at h
        simp at h)

/-- C9 (counterexample): querying `g.a.b` when `g.a` is an entry: the full
    path does not resolve, a segment is missing past the entry, the first
    segment does resolve — yet the walk returns the *entry* at `g.a`, not the
    last successfully resolved *group* `g` as the claim states. -/
theorem C9_closest_node_counterexample :
    getTreeNodeByKey exStateG "g.a.b" = none ∧
    (List.lookup "g" exStateG.localeTree.childrenOf).isSome = true ∧
    getClosestNodeByKey exStateG "g.a.b" =
      some (.entry "g.a" "a" [("en", ⟨"g.a", "a", .scalar "v", "en", some "en.json", false⟩)]) ∧
    (getClosestNodeByKey exStateG "g.a.b").map LTree.isEntry = some true :=
  ⟨rfl, rfl, rfl, rfl⟩

/-- C9 (witness): querying `g.zz.b` stops at the group `g`, whose child `zz`
    does not resolve. -/
theorem C9_closest_node_witness :
    ∃ pre q, jsSplit "g.zz.b" = pre ++ q ∧ pre ≠ [] ∧
      lookupTreePath exStateG.localeTree.childrenOf pre =
        some (.group "g" "g"
          [("a", .entry "g.a" "a" [("en", ⟨"g.a", "a", .scalar "v", "en", some "en.json", false⟩)])]) ∧
      (q = [] ∨
        (LTree.group "g" "g"
          [("a", .entry "g.a" "a" [("en", ⟨"g.a", "a", .scalar "v", "en", some "en.json", false⟩)])]).isEntry
            = true ∨
        ∃ r q', q = r :: q' ∧
          List.lookup r (LTree.group "g" "g"
            [("a", .entry "g.a" "a"
              [("en", ⟨"g.a", "a", .scalar "v", "en", some "en.json", false⟩)])]).childrenOf = none) :=
  (C9_closest_node_amended exStateG "g.zz.b" (by decide)).2.2
    (.group "g" "g"
      [("a", .entry "g.a" "a" [("en", ⟨"g.a", "a", .scalar "v", "en", some "en.json", false⟩)])]) rfl

/-! ### C6: shadow locales -/

theorem mem_uniqAux (l : List String) :
    ∀ (seen : List String) (x : String),
      x ∈ uniqAux l seen ↔ x ∈ l ∧ x ∉ seen := by
  induction l with
  | nil => intro seen x; simp [uniqAux]
  | cons y rest ih =>
    intro seen x
    rw [uniqAux]
    by_cases hy : seen.contains y
    · rw [if_pos hy, ih]
      constructor
      · rintro ⟨h1, h2⟩
        exact ⟨by simp [h1], h2⟩
      · rintro ⟨h1, h2⟩
        rcases List.mem_cons.mp h1 with h3 | h3
        · subst h3
          exact absurd (by simpa using hy) h2
        · exact ⟨h3, h2⟩
    · rw [if_neg hy]
      constructor
      · intro h
        rcases List.mem_cons.mp h with h3 | h3
        · subst h3
          refine ⟨by simp, ?_⟩
          intro hx
          exact hy (by simpa using hx)
        · rw [ih] at h3
          obtain ⟨h4, h5⟩ := h3
          refine ⟨by simp [h4], ?_⟩
          intro hx
          exact h5 (by simp [hx])
      · rintro ⟨h1, h2⟩
        rcases List.mem_cons.mp h1 with h3 | h3
        · subst h3
          simp
        · by_cases hxy : x = y
          · subst hxy
            simp
          · right
            exact (ih (y :: seen) x).mpr ⟨h3, by simp [hxy, h2]⟩

theorem mem_uniqL (l : List String) (x : String) : x ∈ uniqL l ↔ x ∈ l := by
  rw [uniqL, mem_uniqAux]
  simp

theorem mem_locales (s : LoaderState) (loc : String) :
    loc ∈ s.locales ↔ loc ∈ s.files.map (fun f => f.locale) := by
  rw [LoaderState.locales, mem_uniqL]

theorem lookup_shadow_fold (cfg : Config) (s : LoaderState) (node : LocaleNode)
    (locs : List String) (acc : List (String × LocaleRecord)) (loc : String) :
    List.lookup loc (locs.foldl
      (fun acc l => setKey acc l
        (match List.lookup l node.locales with
         | some r => r
         | none => shadowRecordOf cfg s node l)) acc) =
      if loc ∈ locs then
        some (match List.lookup loc node.locales with
          | some r => r
          | none => shadowRecordOf cfg s node loc)
      else List.lookup loc acc := by
  induction locs generalizing acc with
  | nil => simp
  | cons l₀ rest ih =>
    rw [List.foldl_cons, ih]
    by_cases hmem : loc ∈ rest
    · simp [hmem]
    · by_cases hl : loc = l₀
      · subst hl
        simp [hmem, lookup_setKey_self]
      · have : loc ∈ l₀ :: rest ↔ False := by simp [hl, hmem]
        simp only [this, if_neg (fun h => h), if_neg hmem]
        rw [lookup_setKey_other _ _ _ _ hl]

theorem getShadowLocales_lookup (cfg : Config) (s : LoaderState) (node : LocaleNode)
    (loc : String) :
    List.lookup loc (getShadowLocales cfg s node) =
      if loc ∈ s.locales then
        some (match List.lookup loc node.locales with
          | some r => r
          | none => shadowRecordOf cfg s node loc)
      else none := by
  rw [getShadowLocales, lookup_shadow_fold]
  rfl

theorem nodeFieldInv_addFlattenStep (f : ParsedFile) (t : List (String × LocaleNode))
    (kv : String × JValue) (h : NodeFieldInv t) : NodeFieldInv (addFlattenStep f t kv) := by
  intro kp node hl
  rw [addFlattenStep] at hl
  by_cases hk : kp = kv.1
  · subst hk
    rw [lookup_setKey_self] at hl
    cases ht : List.lookup kv.1 t with
    | some n =>
      rw [ht] at hl
      cases hl
      exact h kv.1 n ht
    | none =>
      rw [ht] at hl
      cases hl
      exact ⟨rfl, rfl⟩
  · rw [lookup_setKey_other _ _ _ _ hk] at hl
    exact h kp node hl

theorem nodeFieldInv_addFile (f : ParsedFile) (ps : List (String × JValue))
    (t : List (String × LocaleNode)) (h : NodeFieldInv t) :
    NodeFieldInv (ps.foldl (addFlattenStep f) t) := by
  induction ps generalizing t with
  | nil => simpa
  | cons kv rest ih =>
    rw [List.foldl_cons]
    exact ih _ (nodeFieldInv_addFlattenStep f t kv h)

theorem nodeFieldInv_flattenIndex (files : List ParsedFile) :
    NodeFieldInv (updateFlattenLocalesTree files) := by
  rw [updateFlattenLocalesTree]
  have h : ∀ (fs : List ParsedFile) (t : List (String × LocaleNode)), NodeFieldInv t →
      NodeFieldInv (fs.foldl (fun t f => addFileToFlatten f t) t) := by
    intro fs
    induction fs with
    | nil => intro t ht; simpa
    | cons f rest ih =>
      intro t ht
      rw [List.foldl_cons]
      exact ih _ (nodeFieldInv_addFile f _ t ht)
  exact h files [] (by intro kp node hl; cases hl)

/-- C6: with shadow on, the all-locales query returns, for every known
    locale, the stored record when the entry has one, and otherwise a
    synthesized shadow record (`shadow = true`, empty value, the entry's
    keypath and keyname) whose filepath is inferred from the source-locale
    record of the key — or, if absent, the first existing record — by
    substituting the locale via the external rule; if no record exists at all
    the shadow filepath is left unresolved. -/
theorem C6_shadow_translations (cfg : Config) (files : List ParsedFile) (kp : String)
    (node : LocaleNode) (hn : getNodeByKey (rebuild files) kp = some node) :
    (∀ loc, (List.lookup loc (getTranslationsByKey cfg (rebuild files) kp true)).isSome ↔
      loc ∈ (rebuild files).locales) ∧
    (∀ loc r, loc ∈ (rebuild files).locales → List.lookup loc node.locales = some r →
      List.lookup loc (getTranslationsByKey cfg (rebuild files) kp true) = some r) ∧
    (∀ loc, loc ∈ (rebuild files).locales → List.lookup loc node.locales = none →
      List.lookup loc (getTranslationsByKey cfg (rebuild files) kp true) =
        some ⟨kp, getKeyname kp, .scalar "", loc,
          getShadowFilePath cfg (rebuild files) kp loc, true⟩) ∧
    (∀ loc r fp, List.lookup cfg.sourceLanguage node.locales = some r →
      r.filepath = some fp → fp ≠ "" →
      getShadowFilePath cfg (rebuild files) kp loc = some (cfg.replaceLocalePath fp loc)) ∧
    (∀ loc p fp, List.lookup cfg.sourceLanguage node.locales = none →
      node.locales.head? = some p → p.2.filepath = some fp → fp ≠ "" →
      getShadowFilePath cfg (rebuild files) kp loc = some (cfg.replaceLocalePath fp loc)) ∧
    (node.locales = [] → ∀ loc, getShadowFilePath cfg (rebuild files) kp loc = none) := by
  obtain ⟨hkp, hkn⟩ := nodeFieldInv_flattenIndex files kp node hn
  have htr : getTranslationsByKey cfg (rebuild files) kp true =
      getShadowLocales cfg (rebuild files) node := by
    simp [getTranslationsByKey, hn]
  refine ⟨?_, ?_, ?_, ?_, ?_, ?_⟩
  · intro loc
    rw [htr, getShadowLocales_lookup]
    by_cases h : loc ∈ (rebuild files).locales <;> simp [h]
  · intro loc r hloc hr
    rw [htr, getShadowLocales_lookup, if_pos hloc, hr]
  · intro loc hloc hnone
    rw [htr, getShadowLocales_lookup, if_pos hloc, hnone]
    simp [shadowRecordOf, hkp, hkn]
  · intro loc r fp hsrc hfp hne
    have hb : (fp == "") = false := by simpa using hne
    simp [getShadowFilePath, hn, hsrc, hfp, truthyOS, hb]
  · intro loc p fp hsrc hhead hfp hne
    have hb : (fp == "") = false := by simpa using hne
    simp [getShadowFilePath, hn, hsrc, hhead, hfp, truthyOS, hb]
  · intro hempty loc
    simp [getShadowFilePath, hn, hempty]

/-- C6 (witness): the spec's scenario — key `a.b` exists only in en; the fr
    result is a shadow record with empty value and inferred filepath
    `fr.json`. -/
theorem C6_shadow_translations_witness :
    List.lookup "fr" (getTranslationsByKey exCfg exStateSh "a.b" true) =
      some ⟨"a.b", "b", .scalar "", "fr",
        getShadowFilePath exCfg exStateSh "a.b" "fr", true⟩ ∧
    getShadowFilePath exCfg exStateSh "a.b" "fr" = some "fr.json" :=
  ⟨(C6_shadow_translations exCfg [exFileEn, exFileFr2] "a.b"
      ⟨"a.b", "b", [("en", ⟨"a.b", "b", .scalar "hello", "en", some "en.json", false⟩)]⟩
      rfl).2.2.1 "fr" (by decide) rfl, rfl⟩

theorem valueAtF_nil_fields (q : List String) : valueAtF q [] = none := by
  cases q with
  | nil => rfl
  | cons k rest =>
    cases rest with
    | nil => rfl
    | cons t ts => rfl

theorem valueAtF_cons_cons (k : String) (r : String) (rest : List String)
    (fields : List (String × JValue)) :
    valueAtF (k :: r :: rest) fields =
      match List.lookup k fields with
      | some (.obj gs) => valueAtF (r :: rest) gs
      | _ => none := rfl

theorem setPathF_cons_cons (k r : String) (rs : List String) (v : JValue)
    (fields : List (String × JValue)) :
    setPathF (k :: r :: rs) v fields =
      setKey fields k (.obj (setPathF (r :: rs) v
        (match List.lookup k fields with
         | some (.obj gs) => gs
         | _ => []))) := rfl

theorem setPathF_lands (p : List String) (v : JValue) :
    ∀ fields : List (String × JValue), p ≠ [] →
      valueAtF p (setPathF p v fields) = some v := by
  induction p with
  | nil => intro fields h; cases h rfl
  | cons k rest ih =>
    intro fields _
    cases rest with
    | nil =>
      show List.lookup k (setKey fields k v) = some v
      exact lookup_setKey_self fields k v
    | cons r rs =>
      rw [setPathF_cons_cons, valueAtF_cons_cons, lookup_setKey_self]
      exact ih _ (List.cons_ne_nil r rs)

theorem setPathF_frame (p : List String) (v : JValue) :
    ∀ (q : List String) (fields : List (String × JValue)), p ≠ [] → q ≠ [] →
      q.take p.length ≠ p → p.take q.length ≠ q →
      valueAtF q (setPathF p v fields) = valueAtF q fields := by
  induction p with
  | nil => intro q fields h; cases h rfl
  | cons k rest ih =>
    intro q fields _ hq hq1 hq2
    cases q with
    | nil => cases hq rfl
    | cons k' q' =>
      by_cases hk : k' = k
      · subst hk
        cases rest with
        | nil =>
          exfalso
          apply hq1
          simp
        | cons r rs =>
          cases q' with
          | nil =>
            exfalso
            apply hq2
            simp
          | cons t ts =>
            have hrec : ∀ gs, valueAtF (t :: ts) (setPathF (r :: rs) v gs) =
                valueAtF (t :: ts) gs := by
              intro gs
              apply ih (t :: ts) gs (List.cons_ne_nil r rs) (List.cons_ne_nil t ts)
              · intro hcon
                apply hq1
                have hstep : (k' :: t :: ts).take (k' :: r :: rs).length =
                    k' :: ((t :: ts).take (r :: rs).length) := by simp
                rw [hstep, hcon]
              · intro hcon
                apply hq2
                have hstep : (k' :: r :: rs).take (k' :: t :: ts).length =
                    k' :: ((r :: rs).take (t :: ts).length) := by simp
                rw [hstep, hcon]
            rw [setPathF_cons_cons]
            cases hl : List.lookup k' fields with
            | none =>
              rw [valueAtF_cons_cons, lookup_setKey_self]
              show valueAtF (t :: ts) (setPathF (r :: rs) v []) =
                valueAtF (k' :: t :: ts) fields
              rw [hrec [], valueAtF_nil_fields, valueAtF_cons_cons, hl]
            | some c =>
              cases c with
              | scalar sv =>
                rw [valueAtF_cons_cons, lookup_setKey_self]
                show valueAtF (t :: ts) (setPathF (r :: rs) v []) =
                  valueAtF (k' :: t :: ts) fields
                rw [hrec [], valueAtF_nil_fields, valueAtF_cons_cons, hl]
              | obj gs =>
                rw [valueAtF_cons_cons, lookup_setKey_self]
                show valueAtF (t :: ts) (setPathF (r :: rs) v gs) =
                  valueAtF (k' :: t :: ts) fields
                rw [hrec gs, valueAtF_cons_cons, hl]
      · have hset : ∀ x, List.lookup k' (setKey fields k x) = List.lookup k' fields :=
          fun x => lookup_setKey_other fields k k' x hk
        cases rest with
        | nil =>
          cases q' with
          | nil =>
            show List.lookup k' (setKey fields k v) = List.lookup k' fields
            exact hset v
          | cons t ts =>
            show valueAtF (k' :: t :: ts) (setKey fields k v) = _
            rw [valueAtF_cons_cons, hset, valueAtF_cons_cons]
        | cons r rs =>
          cases q' with
          | nil =>
            rw [setPathF_cons_cons]
            show List.lookup k' (setKey fields k _) = List.lookup k' fields
            exact hset _
          | cons t ts =>
            rw [setPathF_cons_cons, valueAtF_cons_cons, hset, valueAtF_cons_cons]

/-- C3 (amended): writing a pending value with a resolved filepath into an
    existing document sets the dotted key path (creating intermediate groups
    as needed), leaves every key path of the original document that is not a
    proper ancestor or descendant of the written path unchanged (in
    particular all sibling keys), writes back the whole document serialized
    deterministically with a trailing newline — but a pre-existing value at a
    strict ancestor or descendant of the written path is destroyed by the
    `set`, so "every other key path" holds only outside the written path's
    ancestor/descendant line. -/
theorem C3_write_isolation {ε : Type} (s : LoaderState)
    (ask : String → String → Option String) (fs : FileSys) (pending : PendingWrite)
    (fp : String) (fields : List (String × JValue))
    (hfp : pending.filepath = some fp) (hfpne : fp ≠ "")
    (hdoc : List.lookup fp fs = some (.obj fields)) :
    writeToSingleFile (ε := ε) s ask fs pending =
      .ok (setKey fs fp (.obj (setPathF (jsSplit pending.keypath) pending.value fields)),
        fp,
        stringify2 (.obj (setPathF (jsSplit pending.keypath) pending.value fields)) 0 ++ "\n") ∧
    valueAtF (jsSplit pending.keypath)
        (setPathF (jsSplit pending.keypath) pending.value fields) =
      some pending.value ∧
    (∀ q, q ≠ [] →
      q.take (jsSplit pending.keypath).length ≠ jsSplit pending.keypath →
      (jsSplit pending.keypath).take q.length ≠ q →
      valueAtF q (setPathF (jsSplit pending.keypath) pending.value fields) =
        valueAtF q fields) := by
  have hres : resolvedFilepath s ask pending = some fp := by
    rw [resolvedFilepath, hfp]
    simp [truthyOS, hfpne]
  have htru : truthyOS (resolvedFilepath s ask pending) = true := by
    rw [hres]
    simp [truthyOS, hfpne]
  refine ⟨?_, setPathF_lands _ _ _ (jsSplit_ne_nil _),
    fun q hq h1 h2 => setPathF_frame _ _ q fields (jsSplit_ne_nil _) hq h1 h2⟩
  simp only [writeToSingleFile, hres, lodashSet, hdoc]
  have htru' : truthyOS (some fp) = true := by simpa [hres] using htru
  simp [htru']

/-- C3 (counterexample): writing `a.b` into a document where `a` is a leaf
    destroys `a`'s original value (lodash `set` replaces the non-object
    intermediate), so the claim's "maps every other key path of the original
    document to its original value" fails for the leaf `a`. -/
theorem C3_write_isolation_counterexample :
    writeToSingleFile (ε := String) exState (fun _ _ => none)
        [("fr.json", .obj [("a", .scalar "x")])]
        ⟨"fr", .scalar "v", some "fr.json", "a.b"⟩ =
      .ok ([("fr.json", .obj [("a", .obj [("b", .scalar "v")])])], "fr.json",
        stringify2 (.obj [("a", .obj [("b", .scalar "v")])]) 0 ++ "\n") ∧
    valueAtF ["a"] [("a", .scalar "x")] = some (.scalar "x") ∧
    valueAtF ["a"] [("a", .obj [("b", .scalar "v")])] = some (.obj [("b", .scalar "v")]) ∧
    some (JValue.obj [("b", .scalar "v")]) ≠ some (JValue.scalar "x") := by
  refine ⟨rfl, rfl, rfl, ?_⟩
  simp

/-- C3 (witness): the spec's sibling scenario — writing `a.b.c` into a
    document that also has `a.b.d = 1` leaves `a.b.d` unchanged. -/
theorem C3_write_isolation_witness :
    writeToSingleFile (ε := String) exState (fun _ _ => none)
        [("fr.json", .obj [("a", .obj [("b", .obj [("d", .scalar "1")])])])]
        ⟨"fr", .scalar "v", some "fr.json", "a.b.c"⟩ =
      .ok ([("fr.json", .obj [("a", .obj [("b", .obj
            [("d", .scalar "1"), ("c", .scalar "v")])])])], "fr.json",
        stringify2 (.obj [("a", .obj [("b", .obj
          [("d", .scalar "1"), ("c", .scalar "v")])])]) 0 ++ "\n") ∧
    valueAtF ["a", "b", "d"]
        (setPathF (jsSplit "a.b.c") (.scalar "v")
          [("a", .obj [("b", .obj [("d", .scalar "1")])])]) =
      valueAtF ["a", "b", "d"] [("a", .obj [("b", .obj [("d", .scalar "1")])])] := by
  have h := C3_write_isolation (ε := String) exState (fun _ _ => none)
    [("fr.json", .obj [("a", .obj [("b", .obj [("d", .scalar "1")])])])]
    ⟨"fr", .scalar "v", some "fr.json", "a.b.c"⟩ "fr.json"
    [("a", .obj [("b", .obj [("d", .scalar "1")])])]
    rfl (by decide) rfl
  exact ⟨h.1, h.2.2 ["a", "b", "d"] (by decide) (by decide) (by decide)⟩

theorem writeToFileRun_state {ε : Type} (s : LoaderState)
    (ask : String → String → Option String) (ps : List PendingWrite) :
    ∀ fs : FileSys, (writeToFileRun (ε := ε) s ask fs ps).1 = s := by
  induction ps with
  | nil => intro fs; rfl
  | cons p rest ih =>
    intro fs
    rw [writeToFileRun]
    cases writeToSingleFile (ε := ε) s ask fs p with
    | error e => rfl
    | ok r => exact ih r.1

theorem writeToSingleFile_ok_shape {ε : Type} (s : LoaderState)
    (ask : String → String → Option String) (fs : FileSys) (p : PendingWrite)
    (fs' : FileSys) (wfp : String) (txt : String)
    (h : writeToSingleFile (ε := ε) s ask fs p = .ok (fs', wfp, txt)) :
    resolvedFilepath s ask p = some wfp ∧ ∃ d, fs' = setKey fs wfp d := by
  cases hres : resolvedFilepath s ask p with
  | none =>
    rw [writeToSingleFile] at h
    rw [hres] at h
    simp [truthyOS] at h
  | some fp =>
    by_cases ht : truthyOS (some fp) = true
    · rw [writeToSingleFile] at h
      rw [hres] at h
      rw [if_pos ht] at h
      injection h with h'
      have h1 : fs' = (setKey fs fp _ : FileSys) := (congrArg Prod.fst h').symm
      have h2 : wfp = fp := (congrArg (fun z => z.2.1) h').symm
      subst h2
      exact ⟨rfl, _, h1⟩
    · rw [writeToSingleFile] at h
      rw [hres, if_neg ht] at h
      cases h

theorem writeToFileRun_frame {ε : Type} (s : LoaderState)
    (ask : String → String → Option String) (q : String) (ps : List PendingWrite) :
    ∀ fs : FileSys, (∀ p ∈ ps, resolvedFilepath s ask p ≠ some q) →
      List.lookup q (writeToFileRun (ε := ε) s ask fs ps).2.2 = List.lookup q fs := by
  induction ps with
  | nil => intro fs _; rfl
  | cons p rest ih =>
    intro fs hq
    rw [writeToFileRun]
    cases hw : writeToSingleFile (ε := ε) s ask fs p with
    | error e => rfl
    | ok r =>
      obtain ⟨fs', wfp, txt⟩ := r
      obtain ⟨hres, d, hset⟩ := writeToSingleFile_ok_shape s ask fs p fs' wfp txt hw
      have hqw : q ≠ wfp := by
        intro hh
        subst hh
        exact hq p (by simp) hres
      rw [ih fs' (fun p' hp' => hq p' (by simp [hp']))]
      rw [hset, lookup_setKey_other _ _ _ _ hqw]

/-- C10: writing pending changes never modifies the in-memory state — the
    returned loader state (files, namespace tree, flatten index) is exactly
    the input state whether the writes succeed or fail (including a
    `FilepathNotSpecified` failure) — and only the resolved target filepaths
    on disk are affected: any path that is not the resolved filepath of one
    of the pending writes is unchanged. -/
theorem C10_write_frame {ε : Type} (s : LoaderState)
    (ask : String → String → Option String) (fs : FileSys)
    (pendings : List (Option PendingWrite)) :
    (writeToFile (ε := ε) s ask fs pendings).1 = s ∧
    (∀ q, (∀ p ∈ pendings.filterMap id, resolvedFilepath s ask p ≠ some q) →
      List.lookup q (writeToFile (ε := ε) s ask fs pendings).2.2 = List.lookup q fs) := by
  constructor
  · exact writeToFileRun_state s ask _ fs
  · intro q hq
    exact writeToFileRun_frame s ask q _ fs hq

/-- C10 (witness): a concrete write touches only its target file and returns
    the state unchanged. -/
theorem C10_write_frame_witness :
    (writeToFile (ε := String) exState (fun _ _ => none)
        [("fr.json", .obj [("a", .scalar "x")])]
        [some ⟨"fr", .scalar "v", some "fr.json", "a.b"⟩]).1 = exState ∧
    List.lookup "en.json"
        (writeToFile (ε := String) exState (fun _ _ => none)
          [("fr.json", .obj [("a", .scalar "x")])]
          [some ⟨"fr", .scalar "v", some "fr.json", "a.b"⟩]).2.2 =
      List.lookup "en.json" [("fr.json", JValue.obj [("a", .scalar "x")])] :=
  ⟨(C10_write_frame (ε := String) exState (fun _ _ => none) _ _).1,
   (C10_write_frame (ε := String) exState (fun _ _ => none) _ _).2 "en.json" (by decide)⟩

theorem lookup_append_of_left_none {α : Type} (l₁ l₂ : List (String × α)) (k : String)
    (h : List.lookup k l₁ = none) : List.lookup k (l₁ ++ l₂) = List.lookup k l₂ := by
  induction l₁ with
  | nil => rfl
  | cons p rest ih =>
    obtain ⟨k₀, v₀⟩ := p
    by_cases hk : k = k₀
    · subst hk; rw [lookup_cons_self] at h; cases h
    · rw [lookup_cons_ne _ _ _ _ hk] at h
      rw [List.cons_append, lookup_cons_ne _ _ _ _ hk, ih h]

theorem lookup_append_none {α : Type} (l₁ l₂ : List (String × α)) (k : String)
    (h₁ : List.lookup k l₁ = none) (h₂ : List.lookup k l₂ = none) :
    List.lookup k (l₁ ++ l₂) = none := by
  rw [lookup_append_of_left_none _ _ _ h₁, h₂]

mutual
theorem pureFlatV_eq : ∀ (v : JValue) (k prev : String),
    pureFlatV v (joinSeg prev k) =
      (leafPairsV k v).map (fun pv => (joinPath prev pv.1, pv.2))
  | .scalar s, k, prev => rfl
  | .obj [], k, prev => rfl
  | .obj (f :: fs), k, prev => by
    rw [pureFlatV, leafPairsV, pureFlatF_eq (f :: fs) (joinSeg prev k), List.map_map]
    rfl

theorem pureFlatF_eq : ∀ (fields : List (String × JValue)) (prev : String),
    pureFlatF fields prev =
      (leafPairsF fields).map (fun pv => (joinPath prev pv.1, pv.2))
  | [], prev => rfl
  | (k, v) :: rest, prev => by
    rw [pureFlatF, leafPairsF, List.map_append, pureFlatV_eq v k prev,
      pureFlatF_eq rest prev]
end

mutual
theorem flatVal_append : ∀ (v : JValue) (newKey : String) (acc : List (String × JValue)),
    (∀ key ∈ (pureFlatV v newKey).map Prod.fst, List.lookup key acc = none) →
    ((pureFlatV v newKey).map Prod.fst).Nodup →
    flatVal v newKey acc = acc ++ pureFlatV v newKey
  | .scalar s, newKey, acc => fun hfresh _ => by
    rw [flatVal, pureFlatV, setKey_append_fresh _ _ _ (hfresh newKey (by simp [pureFlatV]))]
  | .obj [], newKey, acc => fun hfresh _ => by
    rw [flatVal, pureFlatV, setKey_append_fresh _ _ _ (hfresh newKey (by simp [pureFlatV]))]
  | .obj (f :: fs), newKey, acc => fun hfresh hnodup => by
    rw [flatVal, pureFlatV]
    exact flatFields_append (f :: fs) newKey acc
      (by simpa [pureFlatV] using hfresh) (by simpa [pureFlatV] using hnodup)

theorem flatFields_append : ∀ (fields : List (String × JValue)) (prev : String)
    (acc : List (String × JValue)),
    (∀ key ∈ (pureFlatF fields prev).map Prod.fst, List.lookup key acc = none) →
    ((pureFlatF fields prev).map Prod.fst).Nodup →
    flatFields fields prev acc = acc ++ pureFlatF fields prev
  | [], prev, acc => fun _ _ => by simp [flatFields, pureFlatF]
  | (k, v) :: rest, prev, acc => fun hfresh hnodup => by
    rw [flatFields, pureFlatF]
    have hsplit : (pureFlatV v (joinSeg prev k) ++ pureFlatF rest prev).map Prod.fst =
        (pureFlatV v (joinSeg prev k)).map Prod.fst ++ (pureFlatF rest prev).map Prod.fst := by
      simp
    have hfreshV : ∀ key ∈ (pureFlatV v (joinSeg prev k)).map Prod.fst,
        List.lookup key acc = none := by
      intro key hk
      exact hfresh key (by rw [pureFlatF, hsplit]; exact List.mem_append_left _ hk)
    have hfreshF : ∀ key ∈ (pureFlatF rest prev).map Prod.fst,
        List.lookup key acc = none := by
      intro key hk
      exact hfresh key (by rw [pureFlatF, hsplit]; exact List.mem_append_right _ hk)
    have hnodup' : ((pureFlatV v (joinSeg prev k)).map Prod.fst ++
        (pureFlatF rest prev).map Prod.fst).Nodup := by
      rw [← hsplit]
      rw [pureFlatF] at hnodup
      exact hnodup
    obtain ⟨hnV, hnF, hdisj⟩ := List.nodup_append.mp hnodup'
    have h1 := flatVal_append v (joinSeg prev k) acc hfreshV hnV
    rw [h1]
    have h2 := flatFields_append rest prev (acc ++ pureFlatV v (joinSeg prev k))
      (by
        intro key hk
        apply lookup_append_none
        · exact hfreshF key hk
        · rw [lookup_none_iff_keys]
          intro hmem
          exact hdisj hmem hk)
      hnF
    rw [h2, List.append_assoc]
end

theorem leafPairsV_head (k : String) (v : JValue) (pv : List String × JValue)
    (h : pv ∈ leafPairsV k v) : ∃ p', pv.1 = k :: p' := by
  cases v with
  | scalar s =>
    rw [leafPairsV] at h
    simp at h
    exact ⟨[], by rw [h]⟩
  | obj fs =>
    cases fs with
    | nil =>
      rw [leafPairsV] at h
      simp at h
      exact ⟨[], by rw [h]⟩
    | cons f fs' =>
      rw [leafPairsV] at h
      obtain ⟨q, _, hpv⟩ := List.mem_map.mp h
      exact ⟨q.1, by rw [← hpv]⟩

theorem leafPairsF_head (fields : List (String × JValue)) (pv : List String × JValue)
    (h : pv ∈ leafPairsF fields) :
    ∃ k' p', pv.1 = k' :: p' ∧ k' ∈ fields.map Prod.fst := by
  induction fields with
  | nil => cases h
  | cons kv rest ih =>
    obtain ⟨k, v⟩ := kv
    rw [leafPairsF] at h
    rcases List.mem_append.mp h with h1 | h1
    · obtain ⟨p', hp'⟩ := leafPairsV_head k v pv h1
      exact ⟨k, p', hp', by simp⟩
    · obtain ⟨k', p', hp', hk'⟩ := ih h1
      exact ⟨k', p', hp', by simp [hk']⟩

theorem leafPairsV_path_ne_nil (k : String) (v : JValue) (pv : List String × JValue)
    (h : pv ∈ leafPairsV k v) : pv.1 ≠ [] := by
  obtain ⟨p', hp'⟩ := leafPairsV_head k v pv h
  rw [hp']
  simp

theorem leafPairsF_path_ne_nil (fields : List (String × JValue))
    (pv : List String × JValue) (h : pv ∈ leafPairsF fields) : pv.1 ≠ [] := by
  obtain ⟨k', p', hp', _⟩ := leafPairsF_head fields pv h
  rw [hp']
  simp

theorem wfFields_cons_parts (k : String) (v : JValue) (rest : List (String × JValue))
    (h : wfFields ((k, v) :: rest) = true) :
    wfSeg k = true ∧ wfVal v = true ∧ k ∉ rest.map Prod.fst ∧ wfFields rest = true := by
  rw [wfFields] at h
  simp only [Bool.and_eq_true] at h
  obtain ⟨⟨⟨h1, h2⟩, h3⟩, h4⟩ := h
  refine ⟨h1, h2, ?_, h4⟩
  simpa using h3

theorem wfVal_obj_parts (fs : List (String × JValue))
    (h : wfVal (.obj fs) = true) : fs ≠ [] ∧ wfFields fs = true := by
  rw [wfVal] at h
  simp only [Bool.and_eq_true] at h
  obtain ⟨h1, h2⟩ := h
  exact ⟨by simpa using h1, h2⟩

mutual
theorem leafPairsV_wf : ∀ (v : JValue) (k : String), wfVal v = true → wfSeg k = true →
    ∀ pv ∈ leafPairsV k v, wfPath pv.1 = true
  | .scalar s, k => fun _ hk pv hpv => by
    rw [leafPairsV] at hpv
    simp at hpv
    rw [hpv]
    simp [wfPath, hk]
  | .obj [], k => fun hv _ _ _ => by simp [wfVal] at hv
  | .obj (f :: fs), k => fun hv hk pv hpv => by
    rw [leafPairsV] at hpv
    obtain ⟨q, hq, hpv'⟩ := List.mem_map.mp hpv
    obtain ⟨_, hwff⟩ := wfVal_obj_parts (f :: fs) hv
    have hwq := leafPairsF_wf (f :: fs) hwff q hq
    rw [← hpv']
    rw [wfPath] at hwq ⊢
    simp only [Bool.and_eq_true] at hwq ⊢
    refine ⟨by simp, ?_⟩
    rw [List.all_cons]
    simp only [Bool.and_eq_true]
    exact ⟨hk, hwq.2⟩

theorem leafPairsF_wf : ∀ (fields : List (String × JValue)), wfFields fields = true →
    ∀ pv ∈ leafPairsF fields, wfPath pv.1 = true
  | [] => fun _ pv hpv => by cases hpv
  | (k, v) :: rest => fun hwf pv hpv => by
    obtain ⟨h1, h2, _, h4⟩ := wfFields_cons_parts k v rest hwf
    rw [leafPairsF] at hpv
    rcases List.mem_append.mp hpv with h5 | h5
    · exact leafPairsV_wf v k h2 h1 pv h5
    · exact leafPairsF_wf rest h4 pv h5
end

mutual
theorem leafPairsV_nodup : ∀ (v : JValue) (k : String), wfVal v = true →
    ((leafPairsV k v).map (fun pv => pv.1)).Nodup
  | .scalar s, k => fun _ => by
    rw [leafPairsV]
    simp
  | .obj [], k => fun hv => by simp [wfVal] at hv
  | .obj (f :: fs), k => fun hv => by
    rw [leafPairsV, List.map_map]
    obtain ⟨_, hwff⟩ := wfVal_obj_parts (f :: fs) hv
    have hsub := leafPairsF_nodup (f :: fs) hwff
    have : ((leafPairsF (f :: fs)).map
        ((fun pv => pv.1) ∘ fun pv => ((k :: pv.1 : List String), pv.2))) =
        ((leafPairsF (f :: fs)).map (fun pv => pv.1)).map (fun p => k :: p) := by
      rw [List.map_map]
      rfl
    rw [this]
    exact hsub.map (fun p q hpq => by injection hpq)

theorem leafPairsF_nodup : ∀ (fields : List (String × JValue)), wfFields fields = true →
    ((leafPairsF fields).map (fun pv => pv.1)).Nodup
  | [] => fun _ => by simp [leafPairsF]
  | (k, v) :: rest => fun hwf => by
    obtain ⟨h1, h2, h3, h4⟩ := wfFields_cons_parts k v rest hwf
    rw [leafPairsF, List.map_append, List.nodup_append]
    refine ⟨leafPairsV_nodup v k h2, leafPairsF_nodup rest h4, ?_⟩
    intro p hp hq
    obtain ⟨pv, hpv, hpe⟩ := List.mem_map.mp hp
    obtain ⟨qv, hqv, hqe⟩ := List.mem_map.mp hq
    obtain ⟨p', hp'⟩ := leafPairsV_head k v pv hpv
    obtain ⟨k'', p'', hp'', hk''⟩ := leafPairsF_head rest qv hqv
    rw [← hpe] at hqe
    rw [hp'] at hqe
    rw [hp''] at hqe
    have : k = k'' := by injection hqe.symm
    subst this
    exact h3 hk''
end

theorem pureFlat_keys_nodup (fields : List (String × JValue))
    (h : wfFields fields = true) : ((pureFlatF fields "").map Prod.fst).Nodup := by
  rw [pureFlatF_eq, List.map_map]
  have hshape : (Prod.fst ∘ fun pv : List String × JValue => (joinPath "" pv.1, pv.2)) =
      (fun p : List String => joinPath "" p) ∘ (fun pv => pv.1) := rfl
  rw [hshape, ← List.map_map]
  apply List.Nodup.map_on
  · intro p hp q hq hpq
    obtain ⟨pv, hpv, hpe⟩ := List.mem_map.mp hp
    obtain ⟨qv, hqv, hqe⟩ := List.mem_map.mp hq
    have hwp : wfPath p = true := hpe ▸ leafPairsF_wf fields h pv hpv
    have hwq : wfPath q = true := hqe ▸ leafPairsF_wf fields h qv hqv
    exact joinPath_injective p q hwp hwq hpq
  · exact leafPairsF_nodup fields h

theorem fileFlatten_eq_pure (fields : List (String × JValue))
    (h : wfFields fields = true) : fileFlatten (.obj fields) = pureFlatF fields "" := by
  have := flatFields_append fields "" [] (fun key _ => rfl) (pureFlat_keys_nodup fields h)
  simpa [fileFlatten, JValue.fieldsOf] using this

theorem setKey_append_last {α : Type} (acc : List (String × α)) (k : String) (x y : α)
    (h : List.lookup k acc = none) : setKey (acc ++ [(k, x)]) k y = acc ++ [(k, y)] := by
  induction acc with
  | nil => simp [setKey]
  | cons p rest ih =>
    obtain ⟨k₀, v₀⟩ := p
    by_cases hk : k = k₀
    · subst hk; rw [lookup_cons_self] at h; cases h
    · rw [lookup_cons_ne _ _ _ _ hk] at h
      rw [List.cons_append, setKey, if_neg (fun hh => hk hh.symm), ih h, List.cons_append]

theorem unflatten_chunk (k : String) (ps : List (List String × JValue)) :
    ∀ (acc X : List (String × JValue)),
      List.lookup k acc = none →
      (∀ pv ∈ ps, pv.1 ≠ []) →
      (ps.map (fun pv => (k :: pv.1, pv.2))).foldl
          (fun acc kv => setPathF kv.1 kv.2 acc) (acc ++ [(k, .obj X)]) =
        acc ++ [(k, .obj (ps.foldl (fun X pv => setPathF pv.1 pv.2 X) X))] := by
  induction ps with
  | nil => intro acc X _ _; rfl
  | cons pv rest ih =>
    intro acc X hk hne
    obtain ⟨p, v⟩ := pv
    have hpne : p ≠ [] := hne (p, v) (by simp)
    cases p with
    | nil => cases hpne rfl
    | cons r rs =>
      rw [List.map_cons, List.foldl_cons]
      have hlook : List.lookup k (acc ++ [(k, JValue.obj X)]) = some (.obj X) := by
        rw [lookup_append_of_left_none _ _ _ hk, lookup_cons_self]
      rw [setPathF_cons_cons, hlook]
      show (rest.map (fun pv => (k :: pv.1, pv.2))).foldl
          (fun acc kv => setPathF kv.1 kv.2 acc)
          (setKey (acc ++ [(k, JValue.obj X)]) k (.obj (setPathF (r :: rs) v X))) = _
      rw [setKey_append_last _ _ _ _ hk]
      rw [ih acc (setPathF (r :: rs) v X) hk (fun pv h => hne pv (by simp [h]))]
      rfl

mutual
theorem unflatten_leafV : ∀ (v : JValue) (k : String) (acc : List (String × JValue)),
    wfVal v = true → List.lookup k acc = none →
    (leafPairsV k v).foldl (fun acc pv => setPathF pv.1 pv.2 acc) acc = acc ++ [(k, v)]
  | .scalar s, k, acc => fun _ hk => by
    show setPathF [k] (.scalar s) acc = acc ++ [(k, .scalar s)]
    exact setKey_append_fresh acc k _ hk
  | .obj [], k, acc => fun hv _ => by simp [wfVal] at hv
  | .obj (f :: fs), k, acc => fun hv hk => by
    obtain ⟨_, hwff⟩ := wfVal_obj_parts (f :: fs) hv
    rw [leafPairsV]
    cases hfe : leafPairsF (f :: fs) with
    | nil =>
      exfalso
      have := unflatten_leafF (f :: fs) [] hwff (fun _ _ => rfl)
      rw [hfe] at this
      simp at this
    | cons pv₁ ps =>
      obtain ⟨p₁, v₁⟩ := pv₁
      have hp₁ : p₁ ≠ [] :=
        leafPairsF_path_ne_nil (f :: fs) (p₁, v₁) (by rw [hfe]; simp)
      cases p₁ with
      | nil => cases hp₁ rfl
      | cons r rs =>
        rw [List.map_cons, List.foldl_cons]
        have hchild : setPathF (k :: r :: rs) v₁ acc =
            acc ++ [(k, JValue.obj (setPathF (r :: rs) v₁ []))] := by
          rw [setPathF_cons_cons, hk]
          show setKey acc k (.obj (setPathF (r :: rs) v₁ [])) = _
          exact setKey_append_fresh acc k _ hk
        rw [hchild]
        rw [unflatten_chunk k ps acc (setPathF (r :: rs) v₁ []) hk
          (fun pv h => leafPairsF_path_ne_nil (f :: fs) pv (by rw [hfe]; simp [h]))]
        have hinner : ps.foldl (fun X pv => setPathF pv.1 pv.2 X)
            (setPathF (r :: rs) v₁ []) =
            (leafPairsF (f :: fs)).foldl (fun X pv => setPathF pv.1 pv.2 X) [] := by
          rw [hfe, List.foldl_cons]
        rw [hinner, unflatten_leafF (f :: fs) [] hwff (fun _ _ => rfl)]
        rfl

theorem unflatten_leafF : ∀ (fields : List (String × JValue))
    (acc : List (String × JValue)),
    wfFields fields = true →
    (∀ k ∈ fields.map Prod.fst, List.lookup k acc = none) →
    (leafPairsF fields).foldl (fun acc pv => setPathF pv.1 pv.2 acc) acc = acc ++ fields
  | [], acc => fun _ _ => by simp [leafPairsF]
  | (k, v) :: rest, acc => fun hwf hfresh => by
    obtain ⟨h1, h2, h3, h4⟩ := wfFields_cons_parts k v rest hwf
    rw [leafPairsF, List.foldl_append]
    rw [unflatten_leafV v k acc h2 (hfresh k (by simp))]
    rw [unflatten_leafF rest (acc ++ [(k, v)]) h4 (fun k' hk' => by
      have hne : k' ≠ k := by
        intro hh
        subst hh
        exact h3 hk'
      apply lookup_append_none
      · exact hfresh k' (by simp [hk'])
      · rw [lookup_cons_ne _ _ _ _ hne]
        rfl)]
    simp
end

theorem foldl_congr_mem {α β : Type} (l : List β) (f g : α → β → α) (a : α)
    (h : ∀ acc x, x ∈ l → f acc x = g acc x) : l.foldl f a = l.foldl g a := by
  induction l generalizing a with
  | nil => rfl
  | cons x rest ih =>
    rw [List.foldl_cons, List.foldl_cons, h a x (by simp)]
    exact ih _ (fun acc y hy => h acc y (by simp [hy]))

theorem wfFieldsE_cons_parts (k : String) (v : JValue) (rest : List (String × JValue))
    (h : wfFieldsE ((k, v) :: rest) = true) :
    wfSeg k = true ∧ wfValE v = true ∧ k ∉ rest.map Prod.fst ∧ wfFieldsE rest = true := by
  rw [wfFieldsE] at h
  simp only [Bool.and_eq_true] at h
  obtain ⟨⟨⟨h1, h2⟩, h3⟩, h4⟩ := h
  refine ⟨h1, h2, ?_, h4⟩
  simpa using h3

theorem wfValE_obj (fs : List (String × JValue))
    (h : wfValE (.obj fs) = true) : wfFieldsE fs = true := h

mutual
theorem leafPairsV_wfE : ∀ (v : JValue) (k : String), wfValE v = true → wfSeg k = true →
    ∀ pv ∈ leafPairsV k v, wfPath pv.1 = true
  | .scalar s, k => fun _ hk pv hpv => by
    rw [leafPairsV] at hpv
    simp at hpv
    rw [hpv]
    simp [wfPath, hk]
  | .obj [], k => fun _ hk pv hpv => by
    rw [leafPairsV] at hpv
    simp at hpv
    rw [hpv]
    simp [wfPath, hk]
  | .obj (f :: fs), k => fun hv hk pv hpv => by
    rw [leafPairsV] at hpv
    obtain ⟨q, hq, hpv'⟩ := List.mem_map.mp hpv
    have hwff : wfFieldsE (f :: fs) = true := wfValE_obj (f :: fs) hv
    have hwq := leafPairsF_wfE (f :: fs) hwff q hq
    rw [← hpv']
    rw [wfPath] at hwq ⊢
    simp only [Bool.and_eq_true] at hwq ⊢
    refine ⟨by simp, ?_⟩
    rw [List.all_cons]
    simp only [Bool.and_eq_true]
    exact ⟨hk, hwq.2⟩

theorem leafPairsF_wfE : ∀ (fields : List (String × JValue)), wfFieldsE fields = true →
    ∀ pv ∈ leafPairsF fields, wfPath pv.1 = true
  | [] => fun _ pv hpv => by cases hpv
  | (k, v) :: rest => fun hwf pv hpv => by
    obtain ⟨h1, h2, _, h4⟩ := wfFieldsE_cons_parts k v rest hwf
    rw [leafPairsF] at hpv
    rcases List.mem_append.mp hpv with h5 | h5
    · exact leafPairsV_wfE v k h2 h1 pv h5
    · exact leafPairsF_wfE rest h4 pv h5
end

mutual
theorem leafPairsV_nodupE : ∀ (v : JValue) (k : String), wfValE v = true →
    ((leafPairsV k v).map (fun pv => pv.1)).Nodup
  | .scalar s, k => fun _ => by
    rw [leafPairsV]
    simp
  | .obj [], k => fun _ => by
    rw [leafPairsV]
    simp
  | .obj (f :: fs), k => fun hv => by
    rw [leafPairsV, List.map_map]
    have hwff : wfFieldsE (f :: fs) = true := wfValE_obj (f :: fs) hv
    have hsub := leafPairsF_nodupE (f :: fs) hwff
    have : ((leafPairsF (f :: fs)).map
        ((fun pv => pv.1) ∘ fun pv => ((k :: pv.1 : List String), pv.2))) =
        ((leafPairsF (f :: fs)).map (fun pv => pv.1)).map (fun p => k :: p) := by
      rw [List.map_map]
      rfl
    rw [this]
    exact hsub.map (fun p q hpq => by injection hpq)

theorem leafPairsF_nodupE : ∀ (fields : List (String × JValue)), wfFieldsE fields = true →
    ((leafPairsF fields).map (fun pv => pv.1)).Nodup
  | [] => fun _ => by simp [leafPairsF]
  | (k, v) :: rest => fun hwf => by
    obtain ⟨h1, h2, h3, h4⟩ := wfFieldsE_cons_parts k v rest hwf
    rw [leafPairsF, List.map_append, List.nodup_append]
    refine ⟨leafPairsV_nodupE v k h2, leafPairsF_nodupE rest h4, ?_⟩
    intro p hp hq
    obtain ⟨pv, hpv, hpe⟩ := List.mem_map.mp hp
    obtain ⟨qv, hqv, hqe⟩ := List.mem_map.mp hq
    obtain ⟨p', hp'⟩ := leafPairsV_head k v pv hpv
    obtain ⟨k'', p'', hp'', hk''⟩ := leafPairsF_head rest qv hqv
    rw [← hpe] at hqe
    rw [hp'] at hqe
    rw [hp''] at hqe
    have : k = k'' := by injection hqe.symm
    subst this
    exact h3 hk''
end

theorem pureFlat_keys_nodupE (fields : List (String × JValue))
    (h : wfFieldsE fields = true) : ((pureFlatF fields "").map Prod.fst).Nodup := by
  rw [pureFlatF_eq, List.map_map]
  have hshape : (Prod.fst ∘ fun pv : List String × JValue => (joinPath "" pv.1, pv.2)) =
      (fun p : List String => joinPath "" p) ∘ (fun pv => pv.1) := rfl
  rw [hshape, ← List.map_map]
  apply List.Nodup.map_on
  · intro p hp q hq hpq
    obtain ⟨pv, hpv, hpe⟩ := List.mem_map.mp hp
    obtain ⟨qv, hqv, hqe⟩ := List.mem_map.mp hq
    have hwp : wfPath p = true := hpe ▸ leafPairsF_wfE fields h pv hpv
    have hwq : wfPath q = true := hqe ▸ leafPairsF_wfE fields h qv hqv
    exact joinPath_injective p q hwp hwq hpq
  · exact leafPairsF_nodupE fields h

theorem fileFlatten_eq_pureE (fields : List (String × JValue))
    (h : wfFieldsE fields = true) : fileFlatten (.obj fields) = pureFlatF fields "" := by
  have := flatFields_append fields "" [] (fun key _ => rfl) (pureFlat_keys_nodupE fields h)
  simpa [fileFlatten, JValue.fieldsOf] using this

mutual
theorem unflatten_leafVE : ∀ (v : JValue) (k : String) (acc : List (String × JValue)),
    wfValE v = true → List.lookup k acc = none →
    (leafPairsV k v).foldl (fun acc pv => setPathF pv.1 pv.2 acc) acc = acc ++ [(k, v)]
  | .scalar s, k, acc => fun _ hk => by
    show setPathF [k] (.scalar s) acc = acc ++ [(k, .scalar s)]
    exact setKey_append_fresh acc k _ hk
  | .obj [], k, acc => fun _ hk => by
    show setPathF [k] (.obj []) acc = acc ++ [(k, .obj [])]
    exact setKey_append_fresh acc k _ hk
  | .obj (f :: fs), k, acc => fun hv hk => by
    have hwff : wfFieldsE (f :: fs) = true := wfValE_obj (f :: fs) hv
    rw [leafPairsV]
    cases hfe : leafPairsF (f :: fs) with
    | nil =>
      exfalso
      have := unflatten_leafFE (f :: fs) [] hwff (fun _ _ => rfl)
      rw [hfe] at this
      simp at this
    | cons pv₁ ps =>
      obtain ⟨p₁, v₁⟩ := pv₁
      have hp₁ : p₁ ≠ [] :=
        leafPairsF_path_ne_nil (f :: fs) (p₁, v₁) (by rw [hfe]; simp)
      cases p₁ with
      | nil => cases hp₁ rfl
      | cons r rs =>
        rw [List.map_cons, List.foldl_cons]
        have hchild : setPathF (k :: r :: rs) v₁ acc =
            acc ++ [(k, JValue.obj (setPathF (r :: rs) v₁ []))] := by
          rw [setPathF_cons_cons, hk]
          show setKey acc k (.obj (setPathF (r :: rs) v₁ [])) = _
          exact setKey_append_fresh acc k _ hk
        rw [hchild]
        rw [unflatten_chunk k ps acc (setPathF (r :: rs) v₁ []) hk
          (fun pv h => leafPairsF_path_ne_nil (f :: fs) pv (by rw [hfe]; simp [h]))]
        have hinner : ps.foldl (fun X pv => setPathF pv.1 pv.2 X)
            (setPathF (r :: rs) v₁ []) =
            (leafPairsF (f :: fs)).foldl (fun X pv => setPathF pv.1 pv.2 X) [] := by
          rw [hfe, List.foldl_cons]
        rw [hinner, unflatten_leafFE (f :: fs) [] hwff (fun _ _ => rfl)]
        rfl

theorem unflatten_leafFE : ∀ (fields : List (String × JValue))
    (acc : List (String × JValue)),
    wfFieldsE fields = true →
    (∀ k ∈ fields.map Prod.fst, List.lookup k acc = none) →
    (leafPairsF fields).foldl (fun acc pv => setPathF pv.1 pv.2 acc) acc = acc ++ fields
  | [], acc => fun _ _ => by simp [leafPairsF]
  | (k, v) :: rest, acc => fun hwf hfresh => by
    obtain ⟨h1, h2, h3, h4⟩ := wfFieldsE_cons_parts k v rest hwf
    rw [leafPairsF, List.foldl_append]
    rw [unflatten_leafVE v k acc h2 (hfresh k (by simp))]
    rw [unflatten_leafFE rest (acc ++ [(k, v)]) h4 (fun k' hk' => by
      have hne : k' ≠ k := by
        intro hh
        subst hh
        exact h3 hk'
      apply lookup_append_none
      · exact hfresh k' (by simp [hk'])
      · rw [lookup_cons_ne _ _ _ _ hne]
        rfl)]
    simp
end

/-- C8 (amended): for every key-well-formed nested document — keys
    nonempty, dot-free and distinct at every level; empty-object values
    are allowed, since `flat` keeps them as leaves and unflatten
    re-assigns them — unflattening the flattened form reproduces the
    original nested shape. -/
theorem C8_roundtrip_amended (fields : List (String × JValue))
    (h : wfFieldsE fields = true) :
    unflattenJ (fileFlatten (.obj fields)) = .obj fields := by
  rw [fileFlatten_eq_pureE fields h, unflattenJ, pureFlatF_eq, List.foldl_map]
  have hcong := foldl_congr_mem (leafPairsF fields)
    (fun (acc : List (String × JValue)) (pv : List String × JValue) =>
      setPathF (jsSplit (joinPath "" pv.1)) pv.2 acc)
    (fun acc pv => setPathF pv.1 pv.2 acc) []
    (fun acc pv hpv => by
      show setPathF (jsSplit (joinPath "" pv.1)) pv.2 acc = setPathF pv.1 pv.2 acc
      rw [jsSplit_joinPath pv.1 (leafPairsF_wfE fields h pv hpv)])
  rw [hcong, unflatten_leafFE fields [] h (fun _ _ => rfl)]
  simp

/-- C8 (counterexample): a key containing the separator breaks the round
    trip — `flat` leaves the key `a.b` as is, and unflatten re-nests it. -/
theorem C8_roundtrip_counterexample :
    fileFlatten (.obj [("a.b", .scalar "x")]) = [("a.b", .scalar "x")] ∧
    unflattenJ (fileFlatten (.obj [("a.b", .scalar "x")])) =
      .obj [("a", .obj [("b", .scalar "x")])] ∧
    JValue.obj [("a", .obj [("b", .scalar "x")])] ≠ .obj [("a.b", .scalar "x")] := by
  refine ⟨rfl, rfl, ?_⟩
  simp

/-- C8 (witness): a concrete key-well-formed document — including an
    empty-object value — round-trips. -/
theorem C8_roundtrip_witness :
    wfFieldsE [("a", .obj [("b", .scalar "x"), ("c", .obj [])]), ("d", .scalar "z")] = true ∧
    unflattenJ (fileFlatten (.obj [("a", .obj [("b", .scalar "x"), ("c", .obj [])]),
        ("d", .scalar "z")])) =
      .obj [("a", .obj [("b", .scalar "x"), ("c", .obj [])]), ("d", .scalar "z")] :=
  ⟨by decide,
    C8_roundtrip_amended
      [("a", .obj [("b", .scalar "x"), ("c", .obj [])]), ("d", .scalar "z")] (by decide)⟩

theorem viewC_nil (p : List String) (hp : p ≠ []) : viewC [] p = none := by
  cases p with
  | nil => cases hp rfl
  | cons k rest =>
    cases rest with
    | nil => rfl
    | cons t ts => rfl

theorem viewC_cons_cons (cs : List (String × LTree)) (k r : String) (rs : List String) :
    viewC cs (k :: r :: rs) =
      match List.lookup k cs with
      | some (.group _ _ cs') => viewC cs' (r :: rs)
      | _ => none := rfl

theorem lookupTreePath_eq_viewC (segs : List String) :
    ∀ cs : List (String × LTree), segs ≠ [] → (∀ s ∈ segs, s ≠ "") →
      lookupTreePath cs segs = viewC cs segs := by
  induction segs with
  | nil => intro cs h _; cases h rfl
  | cons root rest ih =>
    intro cs _ hseg
    cases rest with
    | nil => rw [lookupTreePath_term cs root [] rfl]; rfl
    | cons r rs =>
      have hjoin : arrJoin (r :: rs) ≠ "" := by
        intro hj
        cases arrJoin_eq_empty (r :: rs) (fun s hs => hseg s (by simp [hs])) hj
      rw [viewC_cons_cons]
      cases hc : List.lookup root cs with
      | none => rw [lookupTreePath_missing cs root (r :: rs) hjoin hc]
      | some c =>
        cases c with
        | entry a b l => rw [lookupTreePath_entry cs root (r :: rs) a b l hjoin hc]
        | group a b cs' =>
          rw [lookupTreePath_group cs root (r :: rs) a b cs' hjoin hc]
          exact ih cs' (by simp) (fun s hs => hseg s (by simp [hs]))

theorem lookupG_cons_self {α β : Type} [BEq α] [LawfulBEq α] (k : α) (v : β)
    (rest : List (α × β)) : List.lookup k ((k, v) :: rest) = some v := by
  simp [List.lookup]

theorem lookupG_cons_ne {α β : Type} [BEq α] [LawfulBEq α] (k k' : α) (v : β)
    (rest : List (α × β)) (h : k' ≠ k) :
    List.lookup k' ((k, v) :: rest) = List.lookup k' rest := by
  have hb : (k' == k) = false := by simpa using h
  simp [List.lookup, hb]

theorem lookupG_mem {α β : Type} [BEq α] [LawfulBEq α] (k : α) (v : β)
    (l : List (α × β)) (h : List.lookup k l = some v) : (k, v) ∈ l := by
  induction l with
  | nil => simp [List.lookup] at h
  | cons pv rest ih =>
    obtain ⟨k0, v0⟩ := pv
    by_cases hk : k = k0
    · subst hk
      rw [lookupG_cons_self] at h
      injection h with h
      subst h
      simp
    · rw [lookupG_cons_ne _ _ _ _ hk] at h
      simp [ih h]

theorem lookup_map_cons_path (k : String) (p : List String)
    (l : List (List String × JValue)) :
    List.lookup (k :: p) (l.map (fun pv => (k :: pv.1, pv.2))) = List.lookup p l := by
  induction l with
  | nil => rfl
  | cons pv rest ih =>
    obtain ⟨q, v⟩ := pv
    dsimp only [List.map_cons]
    by_cases hq : p = q
    · subst hq
      rw [lookupG_cons_self, lookupG_cons_self]
    · have h1 : (k :: p) ≠ (k :: q) := by
        intro hh
        injection hh with _ h2
        exact hq h2
      rw [lookupG_cons_ne _ _ _ _ h1, lookupG_cons_ne _ _ _ _ hq, ih]

theorem lookup_head_ne (k : String) (p : List String) (l : List (List String × JValue))
    (hhead : ∀ pv ∈ l, ∃ p', pv.1 = k :: p') (q : List String)
    (hq : ∀ p', q ≠ k :: p') : List.lookup q l = none := by
  induction l with
  | nil => rfl
  | cons pv rest ih =>
    have hne : q ≠ pv.1 := by
      obtain ⟨p', hp'⟩ := hhead pv (by simp)
      rw [hp']
      exact hq p'
    obtain ⟨p₁, v₁⟩ := pv
    rw [lookupG_cons_ne _ _ _ _ hne]
    exact ih (fun pv h => hhead pv (by simp [h]))

theorem valueAtF_cons_ne (k k' : String) (w : JValue) (fs : List (String × JValue))
    (p'' : List String) (hk : k' ≠ k) :
    valueAtF (k' :: p'') ((k, w) :: fs) = valueAtF (k' :: p'') fs := by
  cases p'' with
  | nil =>
    show List.lookup k' ((k, w) :: fs) = List.lookup k' fs
    exact lookup_cons_ne _ _ _ _ hk
  | cons t ts =>
    rw [valueAtF_cons_cons, valueAtF_cons_cons, lookup_cons_ne _ _ _ _ hk]

theorem lookupG_append_left {α β : Type} [BEq α] [LawfulBEq α] (l₁ l₂ : List (α × β))
    (k : α) (v : β) (h : List.lookup k l₁ = some v) :
    List.lookup k (l₁ ++ l₂) = some v := by
  induction l₁ with
  | nil => simp [List.lookup] at h
  | cons pv rest ih =>
    obtain ⟨k₀, v₀⟩ := pv
    by_cases hk : k = k₀
    · subst hk
      rw [lookupG_cons_self] at h
      rw [List.cons_append, lookupG_cons_self, h]
    · rw [lookupG_cons_ne _ _ _ _ hk] at h
      rw [List.cons_append, lookupG_cons_ne _ _ _ _ hk, ih h]

theorem lookupG_append_left_none {α β : Type} [BEq α] [LawfulBEq α] (l₁ l₂ : List (α × β))
    (k : α) (h : List.lookup k l₁ = none) :
    List.lookup k (l₁ ++ l₂) = List.lookup k l₂ := by
  induction l₁ with
  | nil => rfl
  | cons pv rest ih =>
    obtain ⟨k₀, v₀⟩ := pv
    by_cases hk : k = k₀
    · subst hk
      rw [lookupG_cons_self] at h
      cases h
    · rw [lookupG_cons_ne _ _ _ _ hk] at h
      rw [List.cons_append, lookupG_cons_ne _ _ _ _ hk, ih h]

theorem lookupG_eq_none_of_ne {α β : Type} [BEq α] [LawfulBEq α] (l : List (α × β))
    (q : α) (h : ∀ pv ∈ l, q ≠ pv.1) : List.lookup q l = none := by
  induction l with
  | nil => rfl
  | cons pv rest ih =>
    rw [show pv = (pv.1, pv.2) from rfl, lookupG_cons_ne _ _ _ _ (h pv (by simp))]
    exact ih (fun pv h' => h pv (by simp [h']))

theorem lookup_leafPairsF_head_k (rest : List (String × JValue)) (k : String)
    (p'' : List String) (hk : k ∉ rest.map Prod.fst) :
    List.lookup (k :: p'') (leafPairsF rest) = none := by
  apply lookupG_eq_none_of_ne
  intro pv hpv
  obtain ⟨k', p', hp', hk'⟩ := leafPairsF_head rest pv hpv
  rw [hp']
  intro hh
  injection hh with h1 _
  exact hk (h1 ▸ hk')

mutual
/-- Looking up a path in the leaf pairs of one keyed value: hit exactly at
    the scalar leaf. -/
theorem lookup_leafPairsV_at : ∀ (v : JValue), wfVal v = true → ∀ (k : String) (p'' : List String),
    List.lookup (k :: p'') (leafPairsV k v) =
      (match p'', v with
       | [], .scalar s => some (.scalar s)
       | _ :: _, .obj gs => scalarOnly (valueAtF p'' gs)
       | _, _ => none)
  | .scalar s, _, k, p'' => by
    cases p'' with
    | nil =>
      rw [leafPairsV]
      exact lookupG_cons_self _ _ _
    | cons t ts =>
      rw [leafPairsV, lookupG_cons_ne _ _ _ _ (by simp)]
      rfl
  | .obj gs, hv, k, p'' => by
    obtain ⟨hne, hwf⟩ := wfVal_obj_parts gs hv
    cases gs with
    | nil => cases hne rfl
    | cons f fs' =>
      rw [leafPairsV, lookup_map_cons_path]
      cases p'' with
      | nil =>
        exact lookupG_eq_none_of_ne _ _
          (fun pv hpv h => leafPairsF_path_ne_nil (f :: fs') pv hpv h.symm)
      | cons t ts =>
        exact lookup_leafPairsF_at (f :: fs') hwf (t :: ts)

/-- Looking up a path in the leaf pairs of a field list computes the
    scalar-filtered value at that path. -/
theorem lookup_leafPairsF_at : ∀ (fs : List (String × JValue)), wfFields fs = true →
    ∀ p : List String,
      List.lookup p (leafPairsF fs) = scalarOnly (valueAtF p fs)
  | [], _, p => by
    rw [leafPairsF, valueAtF_nil_fields]
    rfl
  | (k, w) :: rest, h, p => by
    obtain ⟨hk, hw, hfresh, hrest⟩ := wfFields_cons_parts k w rest h
    rw [leafPairsF]
    cases p with
    | nil =>
      rw [lookupG_append_left_none _ _ _
        (lookupG_eq_none_of_ne _ _
          (fun pv hpv hh => leafPairsV_path_ne_nil k w pv hpv hh.symm)),
        lookupG_eq_none_of_ne _ _
          (fun pv hpv hh => leafPairsF_path_ne_nil rest pv hpv hh.symm)]
      rfl
    | cons k' p'' =>
      by_cases hkk : k' = k
      · subst hkk
        have hv := lookup_leafPairsV_at w hw k' p''
        cases p'' with
        | nil =>
          cases w with
          | scalar s =>
            rw [lookupG_append_left _ _ _ _ (by rw [hv])]
            show _ = scalarOnly (List.lookup k' ((k', JValue.scalar s) :: rest))
            rw [lookup_cons_self]
            rfl
          | obj gs =>
            rw [lookupG_append_left_none _ _ _ (by rw [hv]),
              lookup_leafPairsF_head_k rest k' [] hfresh]
            show _ = scalarOnly (List.lookup k' ((k', JValue.obj gs) :: rest))
            rw [lookup_cons_self]
            rfl
        | cons t ts =>
          cases w with
          | scalar s =>
            rw [lookupG_append_left_none _ _ _ (by rw [hv]),
              lookup_leafPairsF_head_k rest k' (t :: ts) hfresh,
              valueAtF_cons_cons, lookup_cons_self]
            rfl
          | obj gs =>
            rw [valueAtF_cons_cons, lookup_cons_self]
            show _ = scalarOnly (valueAtF (t :: ts) gs)
            cases hres : scalarOnly (valueAtF (t :: ts) gs) with
            | some v' =>
              rw [lookupG_append_left _ _ _ _ (by rw [hv]; exact hres)]
            | none =>
              rw [lookupG_append_left_none _ _ _ (by rw [hv]; exact hres),
                lookup_leafPairsF_head_k rest k' (t :: ts) hfresh]
      · rw [lookupG_append_left_none _ _ _
          (lookupG_eq_none_of_ne _ _ (fun pv hpv hh => by
            obtain ⟨p', hp'⟩ := leafPairsV_head k w pv hpv
            rw [hp'] at hh
            injection hh with h1 _
            exact hkk h1)),
          lookup_leafPairsF_at rest hrest (k' :: p''),
          valueAtF_cons_ne k k' w rest p'' hkk]
end

theorem getKeyname_joinPath_last (p : List String) (hp : wfPath p = true) :
    getKeyname (joinPath "" p) = lastSegL p := by
  rw [getKeyname, jsSplit_joinPath p hp]

theorem lookup_map_inj {α β γ : Type} [BEq α] [LawfulBEq α] [BEq γ] [LawfulBEq γ]
    (f : α → γ) (l : List (α × β)) (p : α)
    (hinj : ∀ pv ∈ l, f pv.1 = f p → pv.1 = p) :
    List.lookup (f p) (l.map (fun pv => (f pv.1, pv.2))) = List.lookup p l := by
  induction l with
  | nil => rfl
  | cons pv rest ih =>
    obtain ⟨q, v⟩ := pv
    dsimp only [List.map_cons]
    by_cases hq : q = p
    · subst hq
      rw [lookupG_cons_self, lookupG_cons_self]
    · have h1 : f p ≠ f q := by
        intro hh
        exact hq (hinj (q, v) (by simp) hh.symm)
      rw [lookupG_cons_ne _ _ _ _ h1, lookupG_cons_ne _ _ _ _ (fun hh => hq hh.symm)]
      exact ih (fun pv h hf => hinj pv (by simp [h]) hf)

/-- Looking up a joined well-formed path in a file's flattened form computes
    the scalar-filtered value at that path in the nested document. -/
theorem lookup_fileFlatten (fields : List (String × JValue)) (h : wfFields fields = true)
    (p : List String) (hp : wfPath p = true) :
    List.lookup (joinPath "" p) (fileFlatten (.obj fields)) = scalarOnly (valueAtF p fields) := by
  rw [fileFlatten_eq_pure fields h, pureFlatF_eq,
    show (fun pv : List String × JValue => (joinPath "" pv.1, pv.2)) =
      (fun pv : List String × JValue => ((fun q => joinPath "" q) pv.1, pv.2)) from rfl,
    lookup_map_inj (fun q => joinPath "" q) (leafPairsF fields) p
      (fun pv hpv hj => joinPath_injective pv.1 p (leafPairsF_wf fields h pv hpv) hp hj),
    lookup_leafPairsF_at fields h p]

mutual
/-- `flat`'s step keeps the accumulator's keys duplicate-free. -/
theorem nodup_flatVal : ∀ (v : JValue) (newKey : String) (acc : List (String × JValue)),
    (acc.map Prod.fst).Nodup → ((flatVal v newKey acc).map Prod.fst).Nodup
  | .scalar s, newKey, acc => fun h => by
    rw [flatVal]
    exact nodup_keys_setKey acc newKey _ h
  | .obj [], newKey, acc => fun h => by
    rw [flatVal]
    exact nodup_keys_setKey acc newKey _ h
  | .obj (f :: fs), newKey, acc => fun h => by
    rw [flatVal]
    exact nodup_flatFields (f :: fs) newKey acc h

theorem nodup_flatFields : ∀ (fields : List (String × JValue)) (prev : String)
    (acc : List (String × JValue)),
    (acc.map Prod.fst).Nodup → ((flatFields fields prev acc).map Prod.fst).Nodup
  | [], _, acc => fun h => h
  | (k, v) :: rest, prev, acc => fun h => by
    rw [flatFields]
    exact nodup_flatFields rest prev _ (nodup_flatVal v (joinSeg prev k) acc h)
end

theorem nodup_fileFlatten (v : JValue) : ((fileFlatten v).map Prod.fst).Nodup := by
  rw [fileFlatten]
  exact nodup_flatFields v.fieldsOf "" [] (by simp)

/-- One file's pass over the flatten index, looked up at one key. -/
theorem lookup_foldl_addFlattenStep (f : ParsedFile) :
    ∀ (ps : List (String × JValue)) (t : List (String × LocaleNode)) (kp : String),
      (ps.map Prod.fst).Nodup →
      List.lookup kp (ps.foldl (addFlattenStep f) t) =
        (match List.lookup kp ps with
         | some v =>
           some (match List.lookup kp t with
             | some n => ⟨n.keypath, n.keyname, setKey n.locales f.locale (flatRecordOf f kp v)⟩
             | none => ⟨kp, getKeyname kp, [(f.locale, flatRecordOf f kp v)]⟩)
         | none => List.lookup kp t) := by
  intro ps
  induction ps with
  | nil => intro t kp _; rfl
  | cons kv rest ih =>
    intro t kp hnodup
    obtain ⟨k₀, v₀⟩ := kv
    rw [List.map_cons, List.nodup_cons] at hnodup
    obtain ⟨hfresh, hrest⟩ := hnodup
    rw [List.foldl_cons, ih _ kp hrest]
    by_cases hk : kp = k₀
    · subst hk
      have hrnone : List.lookup kp rest = none := (lookup_none_iff_keys rest kp).mpr hfresh
      rw [hrnone, lookup_cons_self]
      show List.lookup kp (addFlattenStep f t (kp, v₀)) = _
      rw [addFlattenStep]
      rw [lookup_setKey_self]
      cases List.lookup kp t with
      | some n => rfl
      | none => rfl
    · rw [lookup_cons_ne _ _ _ _ hk]
      have ht1 : List.lookup kp (addFlattenStep f t (k₀, v₀)) = List.lookup kp t := by
        rw [addFlattenStep]
        exact lookup_setKey_other _ _ _ _ hk
      rw [ht1]

theorem lastFlat_init (loc kp : String) :
    ∀ (files : List ParsedFile) (a : Option (ParsedFile × JValue)),
      files.foldl (lastFlatStep loc kp) a =
        (match files.foldl (lastFlatStep loc kp) none with
         | some fv => some fv
         | none => a) := by
  intro files
  induction files with
  | nil => intro a; rfl
  | cons f rest ih =>
    intro a
    rw [List.foldl_cons, List.foldl_cons, ih (lastFlatStep loc kp a f),
      ih (lastFlatStep loc kp none f)]
    cases hL : rest.foldl (lastFlatStep loc kp) none with
    | some fv => rfl
    | none =>
      show lastFlatStep loc kp a f =
        (match lastFlatStep loc kp none f with
         | some fv => some fv
         | none => a)
      rw [lastFlatStep, lastFlatStep]
      by_cases hloc : f.locale = loc
      · rw [if_pos hloc, if_pos hloc]
        cases hlk : List.lookup kp (fileFlatten f.value) with
        | some v => rfl
        | none => rfl
      · rw [if_neg hloc, if_neg hloc]

theorem lookup_flattenIndex_go (loc kp : String) :
    ∀ (files : List ParsedFile) (t : List (String × LocaleNode)),
      (match List.lookup kp (files.foldl (fun t f => addFileToFlatten f t) t) with
       | some n => List.lookup loc n.locales
       | none => none) =
        (match files.foldl (lastFlatStep loc kp) none with
         | some fv => some (flatRecordOf fv.1 kp fv.2)
         | none =>
           match List.lookup kp t with
           | some n => List.lookup loc n.locales
           | none => none) := by
  intro files
  induction files with
  | nil => intro t; rfl
  | cons f rest ih =>
    intro t
    rw [List.foldl_cons, List.foldl_cons, ih (addFileToFlatten f t),
      lastFlat_init loc kp rest (lastFlatStep loc kp none f)]
    cases hL : rest.foldl (lastFlatStep loc kp) none with
    | some fv => rfl
    | none =>
      show (match List.lookup kp (addFileToFlatten f t) with
            | some n => List.lookup loc n.locales
            | none => none) =
        (match lastFlatStep loc kp none f with
         | some fv => some (flatRecordOf fv.1 kp fv.2)
         | none =>
           match List.lookup kp t with
           | some n => List.lookup loc n.locales
           | none => none)
      rw [lastFlatStep]
      have hstep := lookup_foldl_addFlattenStep f (fileFlatten f.value) t kp
        (nodup_fileFlatten f.value)
      rw [show addFileToFlatten f t = (fileFlatten f.value).foldl (addFlattenStep f) t from rfl,
        hstep]
      cases hlk : List.lookup kp (fileFlatten f.value) with
      | some v =>
        by_cases hloc : f.locale = loc
        · rw [if_pos hloc]
          cases ht : List.lookup kp t with
          | some n =>
            show List.lookup loc (setKey n.locales f.locale (flatRecordOf f kp v)) = _
            rw [← hloc, lookup_setKey_self]
          | none =>
            show List.lookup loc [(f.locale, flatRecordOf f kp v)] = _
            rw [← hloc, lookup_cons_self]
        · rw [if_neg hloc]
          have hloc' : loc ≠ f.locale := fun hh => hloc hh.symm
          cases ht : List.lookup kp t with
          | some n =>
            show List.lookup loc (setKey n.locales f.locale (flatRecordOf f kp v)) = _
            rw [lookup_setKey_other _ _ _ _ hloc']
          | none =>
            show List.lookup loc [(f.locale, flatRecordOf f kp v)] = _
            rw [lookup_cons_ne _ _ _ _ hloc']
            rfl
      | none =>
        by_cases hloc : f.locale = loc
        · rw [if_pos hloc]
        · rw [if_neg hloc]

/-- The flatten index's record for `(kp, loc)` is exactly the last
    `loc`-file that flattens to `kp`, made into a record. -/
theorem flattenIndex_locales (files : List ParsedFile) (kp loc : String) :
    (match List.lookup kp (updateFlattenLocalesTree files) with
     | some n => List.lookup loc n.locales
     | none => none) =
      (lastFlat files loc kp).map (fun fv => flatRecordOf fv.1 kp fv.2) := by
  have := lookup_flattenIndex_go loc kp files []
  rw [updateFlattenLocalesTree]
  rw [this, lastFlat]
  cases hL : files.foldl (lastFlatStep loc kp) none with
  | some fv => rfl
  | none => rfl

theorem childAfter_congr (f : ParsedFile) (keypath : String)
    (children₁ children₂ : List (String × LTree)) (k : String) (v : JValue)
    (h : List.lookup k children₁ = List.lookup k children₂) :
    childAfter f keypath children₁ k v = childAfter f keypath children₂ k v := by
  cases v with
  | obj fields =>
    show subTreeFields f fields (joinSeg keypath k)
        (match List.lookup k children₁ with
         | some (.group okp okn ocs) => LTree.group okp okn ocs
         | _ => newTree (joinSeg keypath k)) =
      subTreeFields f fields (joinSeg keypath k)
        (match List.lookup k children₂ with
         | some (.group okp okn ocs) => LTree.group okp okn ocs
         | _ => newTree (joinSeg keypath k))
    rw [h]
  | scalar sv =>
    show (match List.lookup k children₁ with
          | some (.entry ekp ekn locs) =>
            LTree.entry ekp ekn (setKey locs f.locale (treeRecordOf f (joinSeg keypath k) k sv))
          | some (.group a b cs) => LTree.group a b cs
          | none =>
            LTree.entry (joinSeg keypath k) (getKeyname (joinSeg keypath k))
              [(f.locale, treeRecordOf f (joinSeg keypath k) k sv)]) =
      (match List.lookup k children₂ with
       | some (.entry ekp ekn locs) =>
         LTree.entry ekp ekn (setKey locs f.locale (treeRecordOf f (joinSeg keypath k) k sv))
       | some (.group a b cs) => LTree.group a b cs
       | none =>
         LTree.entry (joinSeg keypath k) (getKeyname (joinSeg keypath k))
           [(f.locale, treeRecordOf f (joinSeg keypath k) k sv)])
    rw [h]

theorem lookup_subTreeField_children (f : ParsedFile) (k : String) (v : JValue)
    (keypath kp kn : String) (children : List (String × LTree)) (k' : String) :
    List.lookup k' (LTree.childrenOf (subTreeField f k v keypath (.group kp kn children))) =
      if k' = k then some (childAfter f keypath children k v)
      else List.lookup k' children := by
  cases v with
  | obj fields =>
    rw [subTreeField]
    show List.lookup k' (setKey children k _) = _
    by_cases hk : k' = k
    · subst hk
      rw [if_pos rfl, lookup_setKey_self]
      rfl
    · rw [if_neg hk, lookup_setKey_other _ _ _ _ hk]
  | scalar sv =>
    rw [subTreeField]
    cases hc : List.lookup k children with
    | some c =>
      cases c with
      | entry ekp ekn locs =>
        show List.lookup k' (setKey children k _) = _
        by_cases hk : k' = k
        · subst hk
          rw [if_pos rfl, lookup_setKey_self]
          show _ = some (childAfter f keypath children k' (.scalar sv))
          rw [show childAfter f keypath children k' (.scalar sv) =
            (match List.lookup k' children with
             | some (.entry ekp ekn locs) =>
               LTree.entry ekp ekn (setKey locs f.locale (treeRecordOf f (joinSeg keypath k') k' sv))
             | some (.group a b cs) => LTree.group a b cs
             | none =>
               LTree.entry (joinSeg keypath k') (getKeyname (joinSeg keypath k'))
                 [(f.locale, treeRecordOf f (joinSeg keypath k') k' sv)]) from rfl, hc]
        · rw [if_neg hk, lookup_setKey_other _ _ _ _ hk]
      | group a b cs =>
        show List.lookup k' children = _
        by_cases hk : k' = k
        · subst hk
          rw [if_pos rfl, hc]
          show _ = some (childAfter f keypath children k' (.scalar sv))
          rw [show childAfter f keypath children k' (.scalar sv) =
            (match List.lookup k' children with
             | some (.entry ekp ekn locs) =>
               LTree.entry ekp ekn (setKey locs f.locale (treeRecordOf f (joinSeg keypath k') k' sv))
             | some (.group a b cs) => LTree.group a b cs
             | none =>
               LTree.entry (joinSeg keypath k') (getKeyname (joinSeg keypath k'))
                 [(f.locale, treeRecordOf f (joinSeg keypath k') k' sv)]) from rfl, hc]
        · rw [if_neg hk]
    | none =>
      show List.lookup k' (setKey children k _) = _
      by_cases hk : k' = k
      · subst hk
        rw [if_pos rfl, lookup_setKey_self]
        show _ = some (childAfter f keypath children k' (.scalar sv))
        rw [show childAfter f keypath children k' (.scalar sv) =
          (match List.lookup k' children with
           | some (.entry ekp ekn locs) =>
             LTree.entry ekp ekn (setKey locs f.locale (treeRecordOf f (joinSeg keypath k') k' sv))
           | some (.group a b cs) => LTree.group a b cs
           | none =>
             LTree.entry (joinSeg keypath k') (getKeyname (joinSeg keypath k'))
               [(f.locale, treeRecordOf f (joinSeg keypath k') k' sv)]) from rfl, hc]
      · rw [if_neg hk, lookup_setKey_other _ _ _ _ hk]

theorem subTreeField_group (f : ParsedFile) (k : String) (v : JValue)
    (keypath kp kn : String) (children : List (String × LTree)) :
    ∃ cs', subTreeField f k v keypath (.group kp kn children) = .group kp kn cs' := by
  cases v with
  | obj fields => exact ⟨_, rfl⟩
  | scalar sv =>
    rw [subTreeField]
    cases List.lookup k children with
    | some c =>
      cases c with
      | entry a b l => exact ⟨_, rfl⟩
      | group a b cs => exact ⟨_, rfl⟩
    | none => exact ⟨_, rfl⟩

theorem subTreeFields_group (f : ParsedFile) :
    ∀ (fields : List (String × JValue)) (keypath kp kn : String)
      (children : List (String × LTree)),
      ∃ cs', subTreeFields f fields keypath (.group kp kn children) = .group kp kn cs' := by
  intro fields
  induction fields with
  | nil => intro keypath kp kn children; exact ⟨children, rfl⟩
  | cons kv rest ih =>
    intro keypath kp kn children
    obtain ⟨k, v⟩ := kv
    obtain ⟨cs₁, hcs₁⟩ := subTreeField_group f k v keypath kp kn children
    rw [subTreeFields, hcs₁]
    exact ih keypath kp kn cs₁

/-- Processing a whole field list changes each child independently: the
    child at `k'` afterwards is `childAfter` of its field if the object has
    one, and is untouched otherwise. -/
theorem lookup_subTreeFields (f : ParsedFile) :
    ∀ (fields : List (String × JValue)) (keypath kp kn : String)
      (children : List (String × LTree)) (k' : String),
      (fields.map Prod.fst).Nodup →
      List.lookup k' (LTree.childrenOf (subTreeFields f fields keypath (.group kp kn children))) =
        (match List.lookup k' fields with
         | some v => some (childAfter f keypath children k' v)
         | none => List.lookup k' children) := by
  intro fields
  induction fields with
  | nil => intro keypath kp kn children k' _; rfl
  | cons kv rest ih =>
    intro keypath kp kn children k' hnodup
    obtain ⟨k₀, v₀⟩ := kv
    rw [List.map_cons, List.nodup_cons] at hnodup
    obtain ⟨hfresh, hrest⟩ := hnodup
    obtain ⟨cs₁, hcs₁⟩ := subTreeField_group f k₀ v₀ keypath kp kn children
    have hlk : ∀ k'', List.lookup k'' cs₁ =
        if k'' = k₀ then some (childAfter f keypath children k₀ v₀)
        else List.lookup k'' children := by
      intro k''
      have := lookup_subTreeField_children f k₀ v₀ keypath kp kn children k''
      rwa [hcs₁] at this
    rw [subTreeFields, hcs₁, ih keypath kp kn cs₁ k' hrest]
    by_cases hk : k' = k₀
    · subst hk
      have hrnone : List.lookup k' rest = none := (lookup_none_iff_keys rest k').mpr hfresh
      rw [hrnone, lookup_cons_self, hlk k', if_pos rfl]
    · rw [lookup_cons_ne _ _ _ _ hk]
      cases hr : List.lookup k' rest with
      | some v =>
        show some (childAfter f keypath cs₁ k' v) = some (childAfter f keypath children k' v)
        rw [childAfter_congr f keypath cs₁ children k' v (by rw [hlk k', if_neg hk])]
      | none =>
        show List.lookup k' cs₁ = List.lookup k' children
        rw [hlk k', if_neg hk]

theorem viewC_single (cs : List (String × LTree)) (k : String) :
    viewC cs [k] = List.lookup k cs := rfl

theorem childAfter_obj (f : ParsedFile) (keypath : String) (children : List (String × LTree))
    (k : String) (fields : List (String × JValue)) :
    childAfter f keypath children k (.obj fields) =
      subTreeFields f fields (joinSeg keypath k)
        (match List.lookup k children with
         | some (.group okp okn ocs) => LTree.group okp okn ocs
         | _ => newTree (joinSeg keypath k)) := rfl

theorem childAfter_scalar (f : ParsedFile) (keypath : String) (children : List (String × LTree))
    (k : String) (sv : String) :
    childAfter f keypath children k (.scalar sv) =
      (match List.lookup k children with
       | some (.entry ekp ekn locs) =>
         LTree.entry ekp ekn (setKey locs f.locale (treeRecordOf f (joinSeg keypath k) k sv))
       | some (.group a b cs) => LTree.group a b cs
       | none =>
         LTree.entry (joinSeg keypath k) (getKeyname (joinSeg keypath k))
           [(f.locale, treeRecordOf f (joinSeg keypath k) k sv)]) := rfl

theorem wf_lookup (gs : List (String × JValue)) (k : String) (v : JValue)
    (h : wfFields gs = true) (hl : List.lookup k gs = some v) : wfVal v = true := by
  induction gs with
  | nil => cases hl
  | cons kv rest ih =>
    obtain ⟨k₀, v₀⟩ := kv
    obtain ⟨_, hv₀, _, hrest⟩ := wfFields_cons_parts k₀ v₀ rest h
    by_cases hk : k = k₀
    · subst hk
      rw [lookup_cons_self] at hl
      injection hl with hl
      rw [← hl]
      exact hv₀
    · rw [lookup_cons_ne _ _ _ _ hk] at hl
      exact ih hrest hl

theorem wfFields_nodup (gs : List (String × JValue)) (h : wfFields gs = true) :
    (gs.map Prod.fst).Nodup := by
  induction gs with
  | nil => simp
  | cons kv rest ih =>
    obtain ⟨k₀, v₀⟩ := kv
    obtain ⟨_, _, hfresh, hrest⟩ := wfFields_cons_parts k₀ v₀ rest h
    rw [List.map_cons, List.nodup_cons]
    exact ⟨hfresh, ih hrest⟩

/-- Merging one file's (sub)document into a group: the resulting subtree
    viewed at any nonempty path is the updated entry at scalar leaves, a
    group at nested objects, and is untouched where the document is silent. -/
theorem subTree_viewC (f : ParsedFile) :
    ∀ path : List String, path ≠ [] →
    ∀ (gs : List (String × JValue)) (keypath kp kn : String)
      (children : List (String × LTree)),
      wfFields gs = true → NoConf gs children →
      ((∀ sv, valueAtF path gs = some (.scalar sv) →
          ∃ ekp ekn locs₀,
            viewC (LTree.childrenOf (subTreeFields f gs keypath (.group kp kn children))) path =
              some (.entry ekp ekn (setKey locs₀ f.locale
                (treeRecordOf f (joinPath keypath path) (lastSegL path) sv))) ∧
            (viewC children path = some (.entry ekp ekn locs₀) ∨
              (viewC children path = none ∧ locs₀ = [] ∧
                ekp = joinPath keypath path ∧
                ekn = getKeyname (joinPath keypath path)))) ∧
       (∀ hs, valueAtF path gs = some (.obj hs) →
          ∃ a b cs₂,
            viewC (LTree.childrenOf (subTreeFields f gs keypath (.group kp kn children))) path =
              some (.group a b cs₂)) ∧
       (valueAtF path gs = none →
          viewC (LTree.childrenOf (subTreeFields f gs keypath (.group kp kn children))) path =
            viewC children path)) := by
  intro path
  induction path with
  | nil => intro h; cases h rfl
  | cons k rest ih =>
    intro _ gs keypath kp kn children hwf hnc
    have hIND := lookup_subTreeFields f gs keypath kp kn children k (wfFields_nodup gs hwf)
    cases rest with
    | nil =>
      -- the path is the single segment [k]
      refine ⟨?_, ?_, ?_⟩
      · intro sv hval
        have hlk : List.lookup k gs = some (.scalar sv) := hval
        have hCA : List.lookup k (LTree.childrenOf (subTreeFields f gs keypath
            (.group kp kn children))) = some (childAfter f keypath children k (.scalar sv)) := by
          rw [hIND, hlk]
        cases hc : List.lookup k children with
        | some c =>
          cases c with
          | entry ekp ekn locs =>
            refine ⟨ekp, ekn, locs, ?_, Or.inl (by rw [viewC_single, hc])⟩
            rw [viewC_single, hCA, childAfter_scalar, hc]
            rfl
          | group a b cs =>
            cases (hnc [k]).1 sv hval a b cs (by rw [viewC_single, hc])
        | none =>
          refine ⟨joinSeg keypath k, getKeyname (joinSeg keypath k), [], ?_,
            Or.inr ⟨by rw [viewC_single, hc], rfl, rfl, rfl⟩⟩
          rw [viewC_single, hCA, childAfter_scalar, hc]
          rfl
      · intro hs hval
        have hlk : List.lookup k gs = some (.obj hs) := hval
        have hCA : List.lookup k (LTree.childrenOf (subTreeFields f gs keypath
            (.group kp kn children))) = some (childAfter f keypath children k (.obj hs)) := by
          rw [hIND, hlk]
        cases hc : List.lookup k children with
        | some c =>
          cases c with
          | entry a b l =>
            cases (hnc [k]).2 hs hval a b l (by rw [viewC_single, hc])
          | group okp okn ocs =>
            obtain ⟨cs₂, hcs₂⟩ := subTreeFields_group f hs (joinSeg keypath k) okp okn ocs
            refine ⟨okp, okn, cs₂, ?_⟩
            rw [viewC_single, hCA, childAfter_obj, hc, hcs₂]
        | none =>
          obtain ⟨cs₂, hcs₂⟩ := subTreeFields_group f hs (joinSeg keypath k)
            (joinSeg keypath k) (getKeyname (joinSeg keypath k)) []
          refine ⟨joinSeg keypath k, getKeyname (joinSeg keypath k), cs₂, ?_⟩
          rw [viewC_single, hCA, childAfter_obj, hc,
            show newTree (joinSeg keypath k) =
              LTree.group (joinSeg keypath k) (getKeyname (joinSeg keypath k)) [] from rfl, hcs₂]
      · intro hval
        have hlk : List.lookup k gs = none := hval
        have hCA : List.lookup k (LTree.childrenOf (subTreeFields f gs keypath
            (.group kp kn children))) = List.lookup k children := by
          rw [hIND, hlk]
        rw [viewC_single, hCA, viewC_single]
    | cons r rs =>
      have hrestne : (r :: rs : List String) ≠ [] := by simp
      have hview : viewC (LTree.childrenOf (subTreeFields f gs keypath
          (.group kp kn children))) (k :: r :: rs) =
          (match List.lookup k (LTree.childrenOf (subTreeFields f gs keypath
            (.group kp kn children))) with
           | some (.group _ _ cs₂) => viewC cs₂ (r :: rs)
           | _ => none) := viewC_cons_cons _ _ _ _
      cases hlk : List.lookup k gs with
      | none =>
        have hvnone : valueAtF (k :: r :: rs) gs = none := by
          rw [valueAtF_cons_cons, hlk]
        have hCA : List.lookup k (LTree.childrenOf (subTreeFields f gs keypath
            (.group kp kn children))) = List.lookup k children := by
          rw [hIND, hlk]
        refine ⟨?_, ?_, ?_⟩
        · intro sv hval; rw [hvnone] at hval; cases hval
        · intro hs hval; rw [hvnone] at hval; cases hval
        · intro _
          rw [hview, hCA, viewC_cons_cons]
      | some v₀ =>
        cases v₀ with
        | scalar sv₀ =>
          have hvnone : valueAtF (k :: r :: rs) gs = none := by
            rw [valueAtF_cons_cons, hlk]
          have hCA : List.lookup k (LTree.childrenOf (subTreeFields f gs keypath
              (.group kp kn children))) =
              some (childAfter f keypath children k (.scalar sv₀)) := by
            rw [hIND, hlk]
          refine ⟨?_, ?_, ?_⟩
          · intro sv hval; rw [hvnone] at hval; cases hval
          · intro hs hval; rw [hvnone] at hval; cases hval
          · intro _
            cases hc : List.lookup k children with
            | some c =>
              cases c with
              | entry ekp ekn locs =>
                have hCA2 : childAfter f keypath children k (.scalar sv₀) =
                    .entry ekp ekn (setKey locs f.locale
                      (treeRecordOf f (joinSeg keypath k) k sv₀)) := by
                  rw [childAfter_scalar, hc]
                rw [hview, hCA, hCA2, viewC_cons_cons, hc]
              | group a b cs =>
                cases (hnc [k]).1 sv₀ hlk a b cs (by rw [viewC_single, hc])
            | none =>
              have hCA2 : childAfter f keypath children k (.scalar sv₀) =
                  .entry (joinSeg keypath k) (getKeyname (joinSeg keypath k))
                    [(f.locale, treeRecordOf f (joinSeg keypath k) k sv₀)] := by
                rw [childAfter_scalar, hc]
              rw [hview, hCA, hCA2, viewC_cons_cons, hc]
        | obj hs₀ =>
          have hwfhs : wfFields hs₀ = true :=
            (wfVal_obj_parts hs₀ (wf_lookup gs k _ hwf hlk)).2
          have hval_eq : valueAtF (k :: r :: rs) gs = valueAtF (r :: rs) hs₀ := by
            rw [valueAtF_cons_cons, hlk]
          have hCA : List.lookup k (LTree.childrenOf (subTreeFields f gs keypath
              (.group kp kn children))) =
              some (childAfter f keypath children k (.obj hs₀)) := by
            rw [hIND, hlk]
          cases hc : List.lookup k children with
          | some c =>
            cases c with
            | entry a b l =>
              cases (hnc [k]).2 hs₀ hlk a b l (by rw [viewC_single, hc])
            | group okp okn ocs =>
              obtain ⟨cs₂, hcs₂⟩ := subTreeFields_group f hs₀ (joinSeg keypath k) okp okn ocs
              have hCA2 : childAfter f keypath children k (.obj hs₀) = .group okp okn cs₂ := by
                rw [childAfter_obj, hc]
                exact hcs₂
              have hv' : viewC (LTree.childrenOf (subTreeFields f gs keypath
                  (.group kp kn children))) (k :: r :: rs) = viewC cs₂ (r :: rs) := by
                rw [hview, hCA, hCA2]
              have hold : viewC children (k :: r :: rs) = viewC ocs (r :: rs) := by
                rw [viewC_cons_cons, hc]
              have hnc' : NoConf hs₀ ocs := by
                intro q
                cases q with
                | nil =>
                  exact ⟨fun s h => (Option.noConfusion h), fun hs h => (Option.noConfusion h)⟩
                | cons t ts =>
                  have hq1 : valueAtF (k :: t :: ts) gs = valueAtF (t :: ts) hs₀ := by
                    rw [valueAtF_cons_cons, hlk]
                  have hq2 : viewC children (k :: t :: ts) = viewC ocs (t :: ts) := by
                    rw [viewC_cons_cons, hc]
                  exact ⟨fun s h a b cs' hg =>
                      (hnc (k :: t :: ts)).1 s (by rw [hq1]; exact h) a b cs'
                        (by rw [hq2]; exact hg),
                    fun hs h a b l hg =>
                      (hnc (k :: t :: ts)).2 hs (by rw [hq1]; exact h) a b l
                        (by rw [hq2]; exact hg)⟩
              have hih := ih hrestne hs₀ (joinSeg keypath k) okp okn ocs hwfhs hnc'
              refine ⟨?_, ?_, ?_⟩
              · intro sv hval
                obtain ⟨ekp, ekn, locs₀, h1, h2⟩ :=
                  hih.1 sv (by rw [← hval_eq]; exact hval)
                rw [hcs₂] at h1
                refine ⟨ekp, ekn, locs₀, ?_, ?_⟩
                · rw [hv']
                  exact h1
                · rcases h2 with h2 | ⟨h2a, h2b, h2c, h2d⟩
                  · exact Or.inl (by rw [hold]; exact h2)
                  · exact Or.inr ⟨by rw [hold]; exact h2a, h2b, h2c, h2d⟩
              · intro hs hval
                obtain ⟨a, b, cs₃, h1⟩ := hih.2.1 hs (by rw [← hval_eq]; exact hval)
                rw [hcs₂] at h1
                exact ⟨a, b, cs₃, by rw [hv']; exact h1⟩
              · intro hval
                have h1 := hih.2.2 (by rw [← hval_eq]; exact hval)
                rw [hcs₂] at h1
                rw [hv', hold]
                exact h1
          | none =>
            obtain ⟨cs₂, hcs₂⟩ := subTreeFields_group f hs₀ (joinSeg keypath k)
              (joinSeg keypath k) (getKeyname (joinSeg keypath k)) []
            have hCA2 : childAfter f keypath children k (.obj hs₀) =
                .group (joinSeg keypath k) (getKeyname (joinSeg keypath k)) cs₂ := by
              rw [childAfter_obj, hc]
              exact hcs₂
            have hv' : viewC (LTree.childrenOf (subTreeFields f gs keypath
                (.group kp kn children))) (k :: r :: rs) = viewC cs₂ (r :: rs) := by
              rw [hview, hCA, hCA2]
            have hold : viewC children (k :: r :: rs) = none := by
              rw [viewC_cons_cons, hc]
            have hnc' : NoConf hs₀ ([] : List (String × LTree)) := by
              intro q
              refine ⟨fun s h a b cs' hg => ?_, fun hs h a b l hg => ?_⟩
              · cases q with
                | nil => cases h
                | cons t ts => rw [viewC_nil _ (by simp)] at hg; cases hg
              · cases q with
                | nil => cases h
                | cons t ts => rw [viewC_nil _ (by simp)] at hg; cases hg
            have hih := ih hrestne hs₀ (joinSeg keypath k) (joinSeg keypath k)
              (getKeyname (joinSeg keypath k)) [] hwfhs hnc'
            refine ⟨?_, ?_, ?_⟩
            · intro sv hval
              obtain ⟨ekp, ekn, locs₀, h1, h2⟩ :=
                hih.1 sv (by rw [← hval_eq]; exact hval)
              rw [hcs₂] at h1
              rcases h2 with h2 | ⟨_, h2b, h2c, h2d⟩
              · rw [viewC_nil _ (by simp)] at h2; cases h2
              · refine ⟨ekp, ekn, locs₀, ?_, Or.inr ⟨hold, h2b, h2c, h2d⟩⟩
                rw [hv']
                exact h1
            · intro hs hval
              obtain ⟨a, b, cs₃, h1⟩ := hih.2.1 hs (by rw [← hval_eq]; exact hval)
              rw [hcs₂] at h1
              exact ⟨a, b, cs₃, by rw [hv']; exact h1⟩
            · intro hval
              have h1 := hih.2.2 (by rw [← hval_eq]; exact hval)
              rw [hcs₂] at h1
              have h2 : viewC cs₂ (r :: rs) = viewC [] (r :: rs) := h1
              rw [hv', hold, h2]
              exact viewC_nil _ (by simp)

theorem lastLeaf_append_one (files : List ParsedFile) (f : ParsedFile) (loc : String)
    (p : List String) :
    lastLeaf (files ++ [f]) loc p = lastLeafStep loc p (lastLeaf files loc p) f := by
  rw [lastLeaf, lastLeaf, List.foldl_append]
  rfl

theorem lastLeaf_none_of_no_leaf (files : List ParsedFile) (loc : String) (p : List String)
    (h : ∀ f ∈ files, ∀ s, valueAtF p f.value.fieldsOf ≠ some (.scalar s)) :
    lastLeaf files loc p = none := by
  rw [lastLeaf]
  have go : ∀ (fs : List ParsedFile) (a : Option (ParsedFile × String)),
      (∀ f ∈ fs, ∀ s, valueAtF p f.value.fieldsOf ≠ some (.scalar s)) →
      a = none → fs.foldl (lastLeafStep loc p) a = none := by
    intro fs
    induction fs with
    | nil => intro a _ ha; exact ha
    | cons f rest ih =>
      intro a hfs ha
      rw [List.foldl_cons]
      refine ih _ (fun g hg s => hfs g (by simp [hg]) s) ?_
      rw [lastLeafStep]
      by_cases hl : f.locale = loc
      · rw [if_pos hl]
        cases hval : valueAtF p f.value.fieldsOf with
        | none => exact ha
        | some v =>
          cases v with
          | scalar s => cases hfs f (by simp) s hval
          | obj hs => exact ha
      · rw [if_neg hl]; exact ha
  exact go files none (fun f hf => h f hf) rfl

/-- Merging one more file preserves the tree-fold invariant. -/
theorem treeInv_step (all : List ParsedFile) (hsc : ShapeCompat all)
    (done : List ParsedFile) (hdone : ∀ g ∈ done, g ∈ all)
    (f : ParsedFile) (hf : f ∈ all) (hwf : wfFields f.value.fieldsOf = true)
    (kp kn : String) (cs : List (String × LTree)) (hinv : TreeInv done cs) :
    TreeInv (done ++ [f])
      (LTree.childrenOf (subTreeFields f f.value.fieldsOf "" (.group kp kn cs))) := by
  have hnc : NoConf f.value.fieldsOf cs := by
    intro q
    constructor
    · intro s hval a b cs' hg
      have hqne : q ≠ [] := by
        intro hq
        subst hq
        cases hval
      by_cases hAG : anyGroupAt done q
      · obtain ⟨g, hgdone, hs, hgv⟩ := hAG
        exact hsc f hf g (hdone g hgdone) q s hs hval hgv
      · by_cases hAL : anyLeafAt done q
        · obtain ⟨_, _, locs, hview, _⟩ := (hinv q hqne).2.1 hAL hAG
          rw [hview] at hg
          cases Option.some.inj hg
        · rw [(hinv q hqne).2.2 hAL hAG] at hg
          cases hg
    · intro hs hval a b l hg
      have hqne : q ≠ [] := by
        intro hq
        subst hq
        cases hval
      by_cases hAG : anyGroupAt done q
      · obtain ⟨_, _, cs'', hview⟩ := (hinv q hqne).1 hAG
        rw [hview] at hg
        cases Option.some.inj hg
      · by_cases hAL : anyLeafAt done q
        · obtain ⟨g, hgdone, s, hgv⟩ := hAL
          exact hsc g (hdone g hgdone) f hf q s hs hgv hval
        · rw [(hinv q hqne).2.2 hAL hAG] at hg
          cases hg
  intro p hpne
  have hS2 := subTree_viewC f p hpne f.value.fieldsOf "" kp kn cs hwf hnc
  cases hval : valueAtF p f.value.fieldsOf with
  | some v =>
    cases v with
    | scalar sv =>
      -- `f` has a scalar leaf at `p`
      have hnoAG : ¬ anyGroupAt (done ++ [f]) p := by
        rintro ⟨g, hgmem, hsg, hgv⟩
        rcases List.mem_append.mp hgmem with hgd | hgf
        · exact hsc f hf g (hdone g hgd) p sv hsg hval hgv
        · have : g = f := by simpa using hgf
          subst this
          rw [hval] at hgv
          cases Option.some.inj hgv
      refine ⟨fun hAG => absurd hAG hnoAG, ?_, ?_⟩
      · intro _ _
        obtain ⟨ekp, ekn, locs₀, h1, h2⟩ := hS2.1 sv hval
        refine ⟨ekp, ekn, _, h1, ?_⟩
        have hlocs₀ : ∀ loc, List.lookup loc locs₀ =
            (lastLeaf done loc p).map
              (fun fs => treeRecordOf fs.1 (joinPath "" p) (lastSegL p) fs.2) := by
          rcases h2 with h2 | ⟨h2a, h2b, _, _⟩
          · -- an entry was already there
            by_cases hAGd : anyGroupAt done p
            · obtain ⟨g, hgd, hsg, hgv⟩ := hAGd
              cases hsc f hf g (hdone g hgd) p sv hsg hval hgv
            · by_cases hALd : anyLeafAt done p
              · obtain ⟨ekp', ekn', locs', hview', hchar⟩ := (hinv p hpne).2.1 hALd hAGd
                rw [h2] at hview'
                obtain ⟨he1, he2, he3⟩ : ekp = ekp' ∧ ekn = ekn' ∧ locs₀ = locs' := by
                  have := Option.some.inj hview'
                  injection this with a b c
                  exact ⟨a, b, c⟩
                intro loc
                rw [he3]
                exact hchar loc
              · rw [(hinv p hpne).2.2 hALd hAGd] at h2
                cases h2
          · -- the entry is freshly created, so no file in `done` had a leaf
            have hnoleaf : ∀ g ∈ done, ∀ s, valueAtF p g.value.fieldsOf ≠ some (.scalar s) := by
              intro g hgd s hgv
              by_cases hAGd : anyGroupAt done p
              · obtain ⟨g', hgd', hsg', hgv'⟩ := hAGd
                exact hsc g (hdone g hgd) g' (hdone g' hgd') p s hsg' hgv hgv'
              · obtain ⟨_, _, _, hview', _⟩ :=
                  (hinv p hpne).2.1 ⟨g, hgd, s, hgv⟩ hAGd
                rw [h2a] at hview'
                cases hview'
            intro loc
            rw [h2b, lastLeaf_none_of_no_leaf done loc p hnoleaf]
            rfl
        intro loc
        rw [lastLeaf_append_one, lastLeafStep]
        by_cases hloc : f.locale = loc
        · rw [if_pos hloc, hval, ← hloc, lookup_setKey_self]
          rfl
        · rw [if_neg hloc,
            lookup_setKey_other _ _ _ _ (fun hh => hloc hh.symm)]
          exact hlocs₀ loc
      · intro hnoAL _
        exact absurd ⟨f, by simp, sv, hval⟩ hnoAL
    | obj hs =>
      refine ⟨?_, ?_, ?_⟩
      · intro _
        exact hS2.2.1 hs hval
      · intro _ hnoAG
        exact absurd ⟨f, by simp, hs, hval⟩ hnoAG
      · intro _ hnoAG
        exact absurd ⟨f, by simp, hs, hval⟩ hnoAG
  | none =>
    have hview := hS2.2.2 hval
    have hAGeq : anyGroupAt (done ++ [f]) p ↔ anyGroupAt done p := by
      constructor
      · rintro ⟨g, hgmem, hsg, hgv⟩
        rcases List.mem_append.mp hgmem with hgd | hgf
        · exact ⟨g, hgd, hsg, hgv⟩
        · have : g = f := by simpa using hgf
          subst this
          rw [hval] at hgv
          cases hgv
      · rintro ⟨g, hgd, hsg, hgv⟩
        exact ⟨g, by simp [hgd], hsg, hgv⟩
    have hALeq : anyLeafAt (done ++ [f]) p ↔ anyLeafAt done p := by
      constructor
      · rintro ⟨g, hgmem, sg, hgv⟩
        rcases List.mem_append.mp hgmem with hgd | hgf
        · exact ⟨g, hgd, sg, hgv⟩
        · have : g = f := by simpa using hgf
          subst this
          rw [hval] at hgv
          cases hgv
      · rintro ⟨g, hgd, sg, hgv⟩
        exact ⟨g, by simp [hgd], sg, hgv⟩
    have hLLeq : ∀ loc, lastLeaf (done ++ [f]) loc p = lastLeaf done loc p := by
      intro loc
      rw [lastLeaf_append_one, lastLeafStep]
      by_cases hloc : f.locale = loc
      · rw [if_pos hloc, hval]
      · rw [if_neg hloc]
    refine ⟨?_, ?_, ?_⟩
    · intro hAG
      obtain ⟨a, b, cs', h1⟩ := (hinv p hpne).1 (hAGeq.mp hAG)
      exact ⟨a, b, cs', by rw [hview]; exact h1⟩
    · intro hAL hnoAG
      obtain ⟨ekp, ekn, locs, h1, hchar⟩ :=
        (hinv p hpne).2.1 (hALeq.mp hAL) (fun h => hnoAG (hAGeq.mpr h))
      refine ⟨ekp, ekn, locs, by rw [hview]; exact h1, ?_⟩
      intro loc
      rw [hLLeq loc]
      exact hchar loc
    · intro hnoAL hnoAG
      rw [hview]
      exact (hinv p hpne).2.2 (fun h => hnoAL (hALeq.mpr h)) (fun h => hnoAG (hAGeq.mpr h))

theorem treeInv_fold (all : List ParsedFile) (hsc : ShapeCompat all) :
    ∀ (post done : List ParsedFile) (cs : List (String × LTree)) (kp kn : String),
      (∀ g ∈ done, g ∈ all) → (∀ g ∈ post, g ∈ all) →
      (∀ g ∈ post, wfFields g.value.fieldsOf = true) →
      TreeInv done cs →
      ∃ cs', post.foldl (fun t f => subTreeFields f f.value.fieldsOf "" t) (.group kp kn cs) =
          .group kp kn cs' ∧ TreeInv (done ++ post) cs' := by
  intro post
  induction post with
  | nil =>
    intro done cs kp kn _ _ _ hinv
    exact ⟨cs, rfl, by simpa using hinv⟩
  | cons f rest ih =>
    intro done cs kp kn hdone hpost hwf hinv
    obtain ⟨cs₁, hcs₁⟩ := subTreeFields_group f f.value.fieldsOf "" kp kn cs
    have hinv₁ : TreeInv (done ++ [f]) cs₁ := by
      have := treeInv_step all hsc done hdone f (hpost f (by simp)) (hwf f (by simp)) kp kn cs hinv
      rwa [hcs₁] at this
    rw [List.foldl_cons, hcs₁]
    obtain ⟨cs', h1, h2⟩ := ih (done ++ [f]) cs₁ kp kn
      (by intro g hg; rcases List.mem_append.mp hg with h | h
          · exact hdone g h
          · exact (by simpa using h : g = f) ▸ hpost f (by simp))
      (fun g hg => hpost g (by simp [hg]))
      (fun g hg => hwf g (by simp [hg]))
      hinv₁
    refine ⟨cs', h1, ?_⟩
    have hre : done ++ [f] ++ rest = done ++ f :: rest := by simp
    rwa [hre] at h2

theorem treeInv_empty : TreeInv [] [] := by
  intro p hpne
  refine ⟨?_, ?_, ?_⟩
  · rintro ⟨g, hg, _⟩
    cases hg
  · rintro ⟨g, hg, _⟩
    cases hg
  · intro _ _
    exact viewC_nil p hpne

/-- The built namespace tree is a root group whose children satisfy the
    fold invariant for the whole file list. -/
theorem treeInv_updateLocalesTree (files : List ParsedFile)
    (hwf : ∀ f ∈ files, wfFields f.value.fieldsOf = true) (hsc : ShapeCompat files) :
    ∃ cs', updateLocalesTree files = .group "" "" cs' ∧ TreeInv files cs' := by
  obtain ⟨cs', h1, h2⟩ := treeInv_fold files hsc files [] [] "" ""
    (by intro g hg; cases hg) (fun g hg => hg) hwf treeInv_empty
  refine ⟨cs', ?_, by simpa using h2⟩
  rw [updateLocalesTree, show newTree "" = LTree.group "" "" [] by rw [newTree]; rfl]
  exact h1

theorem lookupG_of_mem_nodup {α β : Type} [BEq α] [LawfulBEq α] (l : List (α × β))
    (pv : α × β) (hmem : pv ∈ l) (hnodup : (l.map Prod.fst).Nodup) :
    List.lookup pv.1 l = some pv.2 := by
  induction l with
  | nil => cases hmem
  | cons qv rest ih =>
    rw [List.map_cons, List.nodup_cons] at hnodup
    obtain ⟨hfresh, hrest⟩ := hnodup
    rcases List.mem_cons.mp hmem with h | h
    · rw [h, show qv = (qv.1, qv.2) from rfl, lookupG_cons_self]
    · have hne : pv.1 ≠ qv.1 := by
        intro hh
        exact hfresh (hh ▸ List.mem_map.mpr ⟨pv, h, rfl⟩)
      rw [show qv = (qv.1, qv.2) from rfl, lookupG_cons_ne _ _ _ _ hne]
      exact ih h hrest

mutual
theorem leafPairsV_ne_nil : ∀ (k : String) (v : JValue), leafPairsV k v ≠ []
  | k, .scalar s => by rw [leafPairsV]; simp
  | k, .obj [] => by rw [leafPairsV]; simp
  | k, .obj (f :: fs) => by
    rw [leafPairsV]
    intro h
    exact leafPairsF_cons_ne_nil f fs (List.map_eq_nil_iff.mp h)

theorem leafPairsF_cons_ne_nil : ∀ (f : String × JValue) (fs : List (String × JValue)),
    leafPairsF (f :: fs) ≠ []
  | (k, v), fs => by
    rw [leafPairsF]
    intro h
    exact leafPairsV_ne_nil k v (List.append_eq_nil.mp h).1
end

theorem valueAtF_append (p : List String) :
    ∀ (fs hs : List (String × JValue)) (q : List String),
      valueAtF p fs = some (.obj hs) → q ≠ [] →
      valueAtF (p ++ q) fs = valueAtF q hs := by
  induction p with
  | nil => intro fs hs q h _; cases h
  | cons k rest ih =>
    intro fs hs q h hq
    cases rest with
    | nil =>
      have hlk : List.lookup k fs = some (.obj hs) := h
      cases q with
      | nil => cases hq rfl
      | cons t ts =>
        show valueAtF (k :: t :: ts) fs = _
        rw [valueAtF_cons_cons, hlk]
    | cons r rs =>
      rw [valueAtF_cons_cons] at h
      cases hlk : List.lookup k fs with
      | none => rw [hlk] at h; cases h
      | some v =>
        cases v with
        | scalar s => rw [hlk] at h; cases h
        | obj gs =>
          rw [hlk] at h
          show valueAtF (k :: r :: (rs ++ q)) fs = _
          rw [valueAtF_cons_cons, hlk]
          exact ih gs hs q h hq

theorem wfVal_valueAtF (p : List String) :
    ∀ (fs : List (String × JValue)) (v : JValue),
      wfFields fs = true → valueAtF p fs = some v → wfVal v = true := by
  induction p with
  | nil => intro fs v _ h; cases h
  | cons k rest ih =>
    intro fs v hwf h
    cases rest with
    | nil => exact wf_lookup fs k v hwf h
    | cons r rs =>
      rw [valueAtF_cons_cons] at h
      cases hlk : List.lookup k fs with
      | none => rw [hlk] at h; cases h
      | some w =>
        cases w with
        | scalar s => rw [hlk] at h; cases h
        | obj gs =>
          rw [hlk] at h
          exact ih gs v (wfVal_obj_parts gs (wf_lookup fs k _ hwf hlk)).2 h

theorem shapeCompat_of_compatB (files : List ParsedFile)
    (hwf : ∀ f ∈ files, wfFields f.value.fieldsOf = true)
    (hc : CompatB files = true) : ShapeCompat files := by
  intro f hf g hg p s hs hvf hvg
  have hmemf : (p, JValue.scalar s) ∈ leafPairsF f.value.fieldsOf := by
    apply lookupG_mem
    rw [lookup_leafPairsF_at _ (hwf f hf) p, hvf]
    rfl
  have hobj := wfVal_valueAtF p _ _ (hwf g hg) hvg
  have hwhs : wfFields hs = true := (wfVal_obj_parts hs hobj).2
  have hhs_ne : hs ≠ [] := (wfVal_obj_parts hs hobj).1
  obtain ⟨pr, hpr⟩ : ∃ pr, pr ∈ leafPairsF hs := by
    cases hs with
    | nil => cases hhs_ne rfl
    | cons h0 hs' =>
      cases hlp : leafPairsF (h0 :: hs') with
      | nil => cases leafPairsF_cons_ne_nil h0 hs' hlp
      | cons x xs => exact ⟨x, by simp [hlp]⟩
  have hlkpr : List.lookup pr.1 (leafPairsF hs) = some pr.2 :=
    lookupG_of_mem_nodup _ pr hpr (leafPairsF_nodup hs hwhs)
  have hprne : pr.1 ≠ [] := leafPairsF_path_ne_nil hs pr hpr
  have hvext : valueAtF (p ++ pr.1) g.value.fieldsOf = valueAtF pr.1 hs :=
    valueAtF_append p _ hs pr.1 hvg hprne
  have hmemg : (p ++ pr.1, pr.2) ∈ leafPairsF g.value.fieldsOf := by
    apply lookupG_mem
    rw [lookup_leafPairsF_at _ (hwf g hg) (p ++ pr.1), hvext,
      ← lookup_leafPairsF_at hs hwhs pr.1, hlkpr]
  rw [CompatB, List.all_eq_true] at hc
  have h1 := hc f hf
  rw [List.all_eq_true] at h1
  have h2 := h1 g hg
  rw [List.all_eq_true] at h2
  have h3 := h2 (p, JValue.scalar s) hmemf
  rw [List.all_eq_true] at h3
  have h4 := h3 (p ++ pr.1, pr.2) hmemg
  dsimp only at h4
  have hne : p ≠ p ++ pr.1 := by
    intro hh
    have := congrArg List.length hh
    rw [List.length_append] at this
    have : pr.1.length = 0 := by omega
    exact hprne (List.eq_nil_of_length_eq_zero this)
  rw [List.take_left] at h4
  simp [hne] at h4

theorem lookup_fileFlatten_v (v : JValue) (h : wfFields v.fieldsOf = true)
    (p : List String) (hp : wfPath p = true) :
    List.lookup (joinPath "" p) (fileFlatten v) = scalarOnly (valueAtF p v.fieldsOf) := by
  cases v with
  | obj fields => exact lookup_fileFlatten fields h p hp
  | scalar s =>
    show List.lookup _ ([] : List (String × JValue)) = scalarOnly (valueAtF p [])
    rw [valueAtF_nil_fields]
    rfl

theorem scalarOnly_isSome (o : Option JValue) :
    (scalarOnly o).isSome = true ↔ ∃ s, o = some (.scalar s) := by
  cases o with
  | none => simp [scalarOnly]
  | some v =>
    cases v with
    | scalar s => simp [scalarOnly]
    | obj fs => simp [scalarOnly]

theorem lastFlat_eq_lastLeaf (files : List ParsedFile) (loc : String) (p : List String)
    (hwf : ∀ f ∈ files, wfFields f.value.fieldsOf = true) (hp : wfPath p = true) :
    lastFlat files loc (joinPath "" p) =
      (lastLeaf files loc p).map (fun fs => (fs.1, JValue.scalar fs.2)) := by
  rw [lastFlat, lastLeaf]
  have go : ∀ (fs : List ParsedFile) (a : Option (ParsedFile × String)),
      (∀ f ∈ fs, wfFields f.value.fieldsOf = true) →
      fs.foldl (lastFlatStep loc (joinPath "" p))
          (a.map (fun fs => (fs.1, JValue.scalar fs.2))) =
        (fs.foldl (lastLeafStep loc p) a).map (fun fs => (fs.1, JValue.scalar fs.2)) := by
    intro fs
    induction fs with
    | nil => intro a _; rfl
    | cons f rest ih =>
      intro a hwfs
      rw [List.foldl_cons, List.foldl_cons]
      have hstep : lastFlatStep loc (joinPath "" p)
          (a.map (fun fs => (fs.1, JValue.scalar fs.2))) f =
          (lastLeafStep loc p a f).map (fun fs => (fs.1, JValue.scalar fs.2)) := by
        rw [lastFlatStep, lastLeafStep,
          lookup_fileFlatten_v f.value (hwfs f (by simp)) p hp]
        by_cases hloc : f.locale = loc
        · rw [if_pos hloc, if_pos hloc]
          cases hval : valueAtF p f.value.fieldsOf with
          | none => rfl
          | some v =>
            cases v with
            | scalar s => rfl
            | obj hs => rfl
        · rw [if_neg hloc, if_neg hloc]
      rw [hstep]
      exact ih _ (fun g hg => hwfs g (by simp [hg]))
  exact go files none hwf

theorem wfPath_ne_nil (p : List String) (hp : wfPath p = true) : p ≠ [] := by
  rw [wfPath, Bool.and_eq_true] at hp
  intro h
  subst h
  simp at hp

theorem wfPath_seg_ne_empty (p : List String) (hp : wfPath p = true) :
    ∀ s ∈ p, s ≠ "" := by
  rw [wfPath, Bool.and_eq_true] at hp
  intro s hs
  have := (List.all_eq_true.mp hp.2) s hs
  rw [wfSeg, Bool.and_eq_true] at this
  simpa using this.1

theorem lastLeaf_split (pre post : List ParsedFile) (g : ParsedFile) (loc : String)
    (p : List String) :
    lastLeaf (pre ++ g :: post) loc p =
      post.foldl (lastLeafStep loc p) (lastLeafStep loc p (lastLeaf pre loc p) g) := by
  rw [lastLeaf, List.foldl_append, List.foldl_cons]
  rfl

theorem lastLeaf_foldl_const (ys : List ParsedFile) (loc : String) (p : List String)
    (a : Option (ParsedFile × String))
    (h : ∀ g ∈ ys, g.locale = loc → ∀ s', valueAtF p g.value.fieldsOf ≠ some (.scalar s')) :
    ys.foldl (lastLeafStep loc p) a = a := by
  induction ys generalizing a with
  | nil => rfl
  | cons g rest ih =>
    rw [List.foldl_cons]
    have hstep : lastLeafStep loc p a g = a := by
      rw [lastLeafStep]
      by_cases hloc : g.locale = loc
      · rw [if_pos hloc]
        cases hval : valueAtF p g.value.fieldsOf with
        | none => rfl
        | some v =>
          cases v with
          | scalar s' => cases h g (by simp) hloc s' hval
          | obj hs => rfl
      · rw [if_neg hloc]
    rw [hstep]
    exact ih a (fun g' hg' => h g' (by simp [hg']))

/-- The common characterization behind the tree/flatten agreement: at any
    well-formed path, entry presence in the tree and key presence in the
    flatten index both reduce to some file having a scalar there, and both
    structures carry the per-locale last-writer record. -/
theorem rebuild_agree (files : List ParsedFile)
    (hwf : ∀ f ∈ files, wfFields f.value.fieldsOf = true)
    (hsc : ShapeCompat files)
    (p : List String) (hp : wfPath p = true) :
    ((∃ ekp ekn locs, getTreeNodeByKey (rebuild files) (joinPath "" p) =
        some (.entry ekp ekn locs)) ↔ anyLeafAt files p) ∧
    (∀ ekp ekn locs, getTreeNodeByKey (rebuild files) (joinPath "" p) =
        some (.entry ekp ekn locs) →
      ∀ loc, List.lookup loc locs =
        (lastLeaf files loc p).map
          (fun fs => treeRecordOf fs.1 (joinPath "" p) (lastSegL p) fs.2)) ∧
    ((List.lookup (joinPath "" p) (updateFlattenLocalesTree files)).isSome = true ↔
      anyLeafAt files p) ∧
    (∀ node, List.lookup (joinPath "" p) (updateFlattenLocalesTree files) = some node →
      ∀ loc, List.lookup loc node.locales =
        (lastLeaf files loc p).map
          (fun fs => flatRecordOf fs.1 (joinPath "" p) (.scalar fs.2))) := by
  have hpne : p ≠ [] := wfPath_ne_nil p hp
  have hsegs : ∀ s ∈ p, s ≠ "" := wfPath_seg_ne_empty p hp
  obtain ⟨cs', htree, hinv⟩ := treeInv_updateLocalesTree files hwf hsc
  have hTN : getTreeNodeByKey (rebuild files) (joinPath "" p) = viewC cs' p := by
    show lookupTreePath (updateLocalesTree files).childrenOf (jsSplit (joinPath "" p)) = _
    rw [htree, jsSplit_joinPath p hp]
    exact lookupTreePath_eq_viewC p cs' hpne hsegs
  have hnoAG_of_AL : anyLeafAt files p → ¬ anyGroupAt files p := by
    rintro ⟨f, hf, s, hvf⟩ ⟨g, hg, hs, hvg⟩
    exact hsc f hf g hg p s hs hvf hvg
  have hAentry : ∀ ekp ekn locs,
      getTreeNodeByKey (rebuild files) (joinPath "" p) = some (.entry ekp ekn locs) →
      anyLeafAt files p ∧ ¬ anyGroupAt files p := by
    intro ekp ekn locs he
    rw [hTN] at he
    by_cases hAG : anyGroupAt files p
    · obtain ⟨_, _, _, hg⟩ := (hinv p hpne).1 hAG
      rw [he] at hg
      cases Option.some.inj hg
    · by_cases hAL : anyLeafAt files p
      · exact ⟨hAL, hAG⟩
      · rw [(hinv p hpne).2.2 hAL hAG] at he
        cases he
  refine ⟨?_, ?_, ?_, ?_⟩
  · constructor
    · rintro ⟨ekp, ekn, locs, he⟩
      exact (hAentry ekp ekn locs he).1
    · intro hAL
      obtain ⟨ekp, ekn, locs, he, _⟩ := (hinv p hpne).2.1 hAL (hnoAG_of_AL hAL)
      exact ⟨ekp, ekn, locs, by rw [hTN]; exact he⟩
  · intro ekp ekn locs he loc
    obtain ⟨hAL, hAG⟩ := hAentry ekp ekn locs he
    obtain ⟨ekp', ekn', locs', he', hchar⟩ := (hinv p hpne).2.1 hAL hAG
    rw [hTN] at he
    rw [he] at he'
    obtain ⟨_, _, h3⟩ : ekp = ekp' ∧ ekn = ekn' ∧ locs = locs' := by
      have := Option.some.inj he'
      injection this with a b c
      exact ⟨a, b, c⟩
    rw [h3]
    exact hchar loc
  · rw [lookup_isSome_iff_keys, keys_flattenIndex]
    constructor
    · rintro ⟨f, hf, hkey⟩
      rw [← lookup_isSome_iff_keys, lookup_fileFlatten_v f.value (hwf f hf) p hp,
        scalarOnly_isSome] at hkey
      obtain ⟨s, hs⟩ := hkey
      exact ⟨f, hf, s, hs⟩
    · rintro ⟨f, hf, s, hs⟩
      refine ⟨f, hf, ?_⟩
      rw [← lookup_isSome_iff_keys, lookup_fileFlatten_v f.value (hwf f hf) p hp,
        scalarOnly_isSome]
      exact ⟨s, hs⟩
  · intro node hnode loc
    have hFL := flattenIndex_locales files (joinPath "" p) loc
    rw [hnode] at hFL
    rw [lastFlat_eq_lastLeaf files loc p hwf hp, Option.map_map] at hFL
    exact hFL

/-- C4: as stated the claim fails — a file whose document holds an empty
    object at `a` makes `a` a key of the flatten index (`flat` keeps empty
    objects as leaves) while the tree holds a group, not a leaf entry,
    there. -/
theorem C4_tree_flatten_counterexample :
    (List.lookup "a" (rebuild [exFileObjEmpty]).flattenLocaleTree).isSome = true ∧
    getTreeNodeByKey (rebuild [exFileObjEmpty]) "a" = some (.group "a" "a" []) :=
  ⟨rfl, rfl⟩

/-- C4 (amended): for well-formed documents (nonempty dot-free keys, no
    empty objects) with no cross-file shape conflicts, the namespace tree
    and the flatten index agree after a rebuild: a well-formed full key path
    is a leaf entry of the tree iff it is a key of the flatten index, and
    both carry the same locale-to-record mapping there. -/
theorem C4_tree_flatten_amended (files : List ParsedFile)
    (hwf : (files.all fun f => wfFields f.value.fieldsOf) = true)
    (hcompat : CompatB files = true)
    (p : List String) (hp : wfPath p = true) :
    ((∃ ekp ekn locs, getTreeNodeByKey (rebuild files) (joinPath "" p) =
        some (.entry ekp ekn locs)) ↔
      (List.lookup (joinPath "" p) (rebuild files).flattenLocaleTree).isSome = true) ∧
    (∀ ekp ekn locs node,
      getTreeNodeByKey (rebuild files) (joinPath "" p) = some (.entry ekp ekn locs) →
      List.lookup (joinPath "" p) (rebuild files).flattenLocaleTree = some node →
      ∀ loc, List.lookup loc locs = List.lookup loc node.locales) := by
  have hwf' : ∀ f ∈ files, wfFields f.value.fieldsOf = true :=
    fun f hf => List.all_eq_true.mp hwf f hf
  have hsc := shapeCompat_of_compatB files hwf' hcompat
  obtain ⟨hA, hB, hC, hD⟩ := rebuild_agree files hwf' hsc p hp
  constructor
  · rw [show (rebuild files).flattenLocaleTree = updateFlattenLocalesTree files from rfl]
    exact hA.trans hC.symm
  · intro ekp ekn locs node he hn loc
    rw [hB ekp ekn locs he loc, hD node hn loc]
    cases hll : lastLeaf files loc p with
    | none => rfl
    | some fs =>
      show some (treeRecordOf fs.1 (joinPath "" p) (lastSegL p) fs.2) =
        some (flatRecordOf fs.1 (joinPath "" p) (.scalar fs.2))
      rw [treeRecordOf, flatRecordOf, getKeyname_joinPath_last p hp]

/-- C4 witness: the amended agreement holds on a concrete two-file state at
    path `a.b`. -/
theorem C4_tree_flatten_witness :
    (([exFileEn, exFileFr].all fun f => wfFields f.value.fieldsOf) = true) ∧
    CompatB [exFileEn, exFileFr] = true ∧ wfPath ["a", "b"] = true ∧
    (((∃ ekp ekn locs, getTreeNodeByKey (rebuild [exFileEn, exFileFr])
          (joinPath "" ["a", "b"]) = some (.entry ekp ekn locs)) ↔
        (List.lookup (joinPath "" ["a", "b"])
          (rebuild [exFileEn, exFileFr]).flattenLocaleTree).isSome = true) ∧
      (∀ ekp ekn locs node,
        getTreeNodeByKey (rebuild [exFileEn, exFileFr]) (joinPath "" ["a", "b"]) =
          some (.entry ekp ekn locs) →
        List.lookup (joinPath "" ["a", "b"])
          (rebuild [exFileEn, exFileFr]).flattenLocaleTree = some node →
        ∀ loc, List.lookup loc locs = List.lookup loc node.locales)) :=
  ⟨rfl, rfl, rfl, C4_tree_flatten_amended [exFileEn, exFileFr] rfl rfl ["a", "b"] rfl⟩

/-- C5: as stated the claim fails — with two `en` files both defining `a`
    and a later `fr` file nesting an object at `a`, the flatten index keeps
    the last `en` value for `a`, but the tree's node at `a` has become a
    group, so no value is stored there at all. -/
theorem C5_merge_order_counterexample :
    (match List.lookup "a" (rebuild [exC5En1, exC5En2, exC5Fr]).flattenLocaleTree with
     | some n => List.lookup "en" n.locales
     | none => none) = some ⟨"a", "a", .scalar "y", "en", some "en2.json", false⟩ ∧
    (getTreeNodeByKey (rebuild [exC5En1, exC5En2, exC5Fr]) "a").map LTree.isEntry =
      some false :=
  ⟨rfl, rfl⟩

/-- C5 (amended): for well-formed, shape-compatible files, when a file `g`
    of locale `loc` defines a scalar at path `p` and no later file of the
    same locale redefines `p`, both the flatten index and the tree store
    `g`'s record at `p` for `loc` after the rebuild — files of other
    locales in between never overwrite it. -/
theorem C5_merge_order_amended (files pre post : List ParsedFile) (g : ParsedFile)
    (loc s : String) (p : List String)
    (hfiles : files = pre ++ g :: post)
    (hwf : (files.all fun f => wfFields f.value.fieldsOf) = true)
    (hcompat : CompatB files = true)
    (hp : wfPath p = true)
    (hg : g.locale = loc)
    (hgleaf : valueAtF p g.value.fieldsOf = some (.scalar s))
    (hlast : ∀ h ∈ post, h.locale = loc →
      ∀ s', valueAtF p h.value.fieldsOf ≠ some (.scalar s')) :
    (∃ node, List.lookup (joinPath "" p) (rebuild files).flattenLocaleTree = some node ∧
      List.lookup loc node.locales = some (flatRecordOf g (joinPath "" p) (.scalar s))) ∧
    (∃ ekp ekn locs,
      getTreeNodeByKey (rebuild files) (joinPath "" p) = some (.entry ekp ekn locs) ∧
      List.lookup loc locs = some (flatRecordOf g (joinPath "" p) (.scalar s))) := by
  have hwf' : ∀ f ∈ files, wfFields f.value.fieldsOf = true :=
    fun f hf => List.all_eq_true.mp hwf f hf
  have hsc := shapeCompat_of_compatB files hwf' hcompat
  obtain ⟨hA, hB, hC, hD⟩ := rebuild_agree files hwf' hsc p hp
  have hAL : anyLeafAt files p := ⟨g, by rw [hfiles]; simp, s, hgleaf⟩
  have hLL : lastLeaf files loc p = some (g, s) := by
    rw [hfiles, lastLeaf_split]
    have hstep : lastLeafStep loc p (lastLeaf pre loc p) g = some (g, s) := by
      rw [lastLeafStep, if_pos hg, hgleaf]
    rw [hstep, lastLeaf_foldl_const post loc p _ hlast]
  have hrec : treeRecordOf g (joinPath "" p) (lastSegL p) s =
      flatRecordOf g (joinPath "" p) (.scalar s) := by
    rw [treeRecordOf, flatRecordOf, getKeyname_joinPath_last p hp]
  constructor
  · obtain ⟨node, hnode⟩ := Option.isSome_iff_exists.mp (hC.mpr hAL)
    refine ⟨node, hnode, ?_⟩
    rw [hD node hnode loc, hLL]
    rfl
  · obtain ⟨ekp, ekn, locs, he⟩ := hA.mpr hAL
    refine ⟨ekp, ekn, locs, he, ?_⟩
    rw [hB ekp ekn locs he loc, hLL]
    show some (treeRecordOf g (joinPath "" p) (lastSegL p) s) = _
    rw [hrec]

/-- C5 witness: with two `en` files defining `a` and an unrelated `fr`
    file processed last, both structures store the second `en` file's
    record. -/
theorem C5_merge_order_witness :
    (([exC5En1, exC5En2, exC5FrOther] : List ParsedFile) =
      [exC5En1] ++ exC5En2 :: [exC5FrOther]) ∧
    (([exC5En1, exC5En2, exC5FrOther].all fun f => wfFields f.value.fieldsOf) = true) ∧
    CompatB [exC5En1, exC5En2, exC5FrOther] = true ∧ wfPath ["a"] = true ∧
    exC5En2.locale = "en" ∧
    valueAtF ["a"] exC5En2.value.fieldsOf = some (.scalar "y") ∧
    ((∃ node, List.lookup (joinPath "" ["a"])
        (rebuild [exC5En1, exC5En2, exC5FrOther]).flattenLocaleTree = some node ∧
      List.lookup "en" node.locales =
        some (flatRecordOf exC5En2 (joinPath "" ["a"]) (.scalar "y"))) ∧
    (∃ ekp ekn locs,
      getTreeNodeByKey (rebuild [exC5En1, exC5En2, exC5FrOther]) (joinPath "" ["a"]) =
        some (.entry ekp ekn locs) ∧
      List.lookup "en" locs =
        some (flatRecordOf exC5En2 (joinPath "" ["a"]) (.scalar "y")))) :=
  ⟨rfl, rfl, rfl, rfl, rfl, rfl,
    C5_merge_order_amended [exC5En1, exC5En2, exC5FrOther] [exC5En1] [exC5FrOther]
      exC5En2 "en" "y" ["a"] rfl rfl rfl rfl rfl rfl
      (by
        intro h hh hloc
        have : h = exC5FrOther := by simpa using hh
        subst this
        exact absurd hloc (by decide))⟩
